import Mathlib

/-!
Verification of crossdeployqt core algorithms against their specification.

The C++ sources under `src/cdqt/` are shallowly embedded below: pure string
and byte manipulations become Lean functions on `List Char` / `List Nat`;
filesystem and process interaction is abstracted into explicit oracle
parameters.  Machine integers are modelled as `Nat` (the C++ code uses
`std::uint32_t`/`std::uint64_t` only for values read from at most 16 bytes,
far below any overflow boundary).
-/

namespace Cdqt

/-! ## util.cpp: splitPaths -/

/-- Embedding of `cdqt::splitPaths` (util.cpp).  The C++ code folds over the
characters of `s`, accumulating the current segment `cur` and emitting it on
each separator when non-empty, with a final flush. -/
def splitPathsGo (sep : Char) : List Char → List Char → List (List Char)
  | [], cur => if cur.isEmpty then [] else [cur]
  | c :: rest, cur =>
    if c = sep then
      if cur.isEmpty then splitPathsGo sep rest []
      else cur :: splitPathsGo sep rest []
    else splitPathsGo sep rest (cur ++ [c])

/-- `splitPaths` from util.cpp, on `List Char`. -/
def splitPaths (s : List Char) (sep : Char) : List (List Char) :=
  splitPathsGo sep s []

/-- Specification-side description: the non-empty maximal segments of `s`
between occurrences of `sep`, in order, phrased via `List.splitOn`. -/
def nonEmptySegments (s : List Char) (sep : Char) : List (List Char) :=
  (s.splitOn sep).filter (fun seg => ¬seg.isEmpty)

theorem splitPathsGo_eq (sep : Char) (s cur : List Char) :
    splitPathsGo sep s cur
      = (((s.splitOn sep).modifyHead (cur ++ ·)).filter (fun seg => ¬seg.isEmpty)) := by
  induction s generalizing cur with
  | nil =>
    simp only [splitPathsGo, List.splitOn, List.splitOnP_nil, List.modifyHead,
      List.filter, List.append_nil]
    by_cases h : cur.isEmpty <;> simp [h]
  | cons c rest ih =>
    have hgo : splitPathsGo sep rest []
        = (rest.splitOnP (· == sep)).filter (fun seg => ¬seg.isEmpty) := by
      rw [ih []]
      cases h' : rest.splitOnP (· == sep) <;> simp [List.splitOn, h', List.modifyHead]
    simp only [splitPathsGo, List.splitOn, List.splitOnP_cons]
    by_cases hc : c = sep
    · have hbeq : (c == sep) = true := by simp [hc]
      simp only [if_pos hc, hbeq, if_true]
      by_cases hcur : cur.isEmpty
      · have hnil : cur = [] := by simpa using hcur
        subst hnil
        simp [hgo, List.modifyHead]
      · have hne : cur ≠ [] := by simpa using hcur
        simp [hcur, hgo, List.modifyHead, hne]
    · have hbeq : (c == sep) = false := by simp [hc]
      simp only [if_neg hc, hbeq, Bool.false_eq_true, if_false, ih (cur ++ [c])]
      cases h' : rest.splitOnP (· == sep) with
      | nil => simp [List.splitOn, h', List.modifyHead]
      | cons a t => simp [List.splitOn, h', List.modifyHead, List.append_assoc]

/-- **C10.** `splitPaths` returns exactly the non-empty maximal segments of
`s` between occurrences of `c`, in their original order (phrased through
`List.splitOn`, whose segments are the maximal separator-free runs); in
particular every returned entry is non-empty, so empty entries of path-list
environment variables never survive the split. -/
theorem splitPaths_eq_nonEmptySegments :
    ∀ (s : List Char) (sep : Char),
      splitPaths s sep = nonEmptySegments s sep
        ∧ ∀ x ∈ splitPaths s sep, ¬x.isEmpty := by
  intro s sep
  have h : splitPaths s sep = nonEmptySegments s sep := by
    have h0 := splitPathsGo_eq sep s []
    have hid : (s.splitOn sep).modifyHead (fun x => [] ++ x) = s.splitOn sep := by
      cases s.splitOn sep <;> simp [List.modifyHead]
    rw [splitPaths, h0, hid, nonEmptySegments]
  refine ⟨h, ?_⟩
  intro x hx
  rw [h, nonEmptySegments] at hx
  simpa using (List.mem_filter.mp hx).2

/-! ## binary_detect.cpp: detectBinaryType

A file is a list of byte values.  `detectBinaryType` mirrors the C++
function: the IO-failure paths (`cannot stat`, `cannot open`) do not exist
for an in-memory byte list; everything else is translated branch by branch.
-/

inductive BinaryType where
  | PE | ELF | MACHO
deriving DecidableEq, Repr

/-- Byte at index `i` (reads past the end yield 0, which the C++ code never
relies on: every access is bounds-checked first). -/
def byteAt (bs : List Nat) (i : Nat) : Nat := bs.getD i 0

/-- `u32le_at` from binary_detect.cpp: little-endian u32 read, failing when
fewer than 4 bytes are available at `off`. -/
def u32le_at (bs : List Nat) (off : Nat) : Option Nat :=
  if off + 4 ≤ bs.length then
    some (byteAt bs off + byteAt bs (off + 1) * 2 ^ 8 +
      byteAt bs (off + 2) * 2 ^ 16 + byteAt bs (off + 3) * 2 ^ 24)
  else none

/-- `u32be_at` from binary_detect.cpp: big-endian u32 read with the same
bounds check. -/
def u32be_at (bs : List Nat) (off : Nat) : Option Nat :=
  if off + 4 ≤ bs.length then
    some (byteAt bs off * 2 ^ 24 + byteAt bs (off + 1) * 2 ^ 16 +
      byteAt bs (off + 2) * 2 ^ 8 + byteAt bs (off + 3))
  else none

/-- `u32be_from0`: the first four bytes as a big-endian u32 (the detector
only calls it after ensuring at least 4 bytes were read). -/
def u32be_from0 (bs : List Nat) : Nat :=
  byteAt bs 0 * 2 ^ 24 + byteAt bs 1 * 2 ^ 16 + byteAt bs 2 * 2 ^ 8 + byteAt bs 3

/-- A bounds-checked 4-byte read (the `f.read(sig, 4)` at `e_lfanew`). -/
def readBytes4 (bs : List Nat) (off : Nat) : Option (List Nat) :=
  if off + 4 ≤ bs.length then some ((bs.drop off).take 4) else none

/-- The `MZ`/`PE\0\0` test of binary_detect.cpp lines 57-69: first two bytes
`MZ`, file at least 0x40 bytes, `e_lfanew` read little-endian at 0x3C,
`e_lfanew <= fileSize - 4`, and the four bytes there equal `PE\0\0`. -/
def isPEHeader (bs : List Nat) : Bool :=
  byteAt bs 0 == 0x4D && byteAt bs 1 == 0x5A &&
    (decide (0x40 ≤ bs.length) &&
      (match u32le_at bs 0x3C with
       | some e =>
           decide (e ≤ bs.length - 4) &&
             (match readBytes4 bs e with
              | some sig => sig == [0x50, 0x45, 0, 0]
              | none => false)
       | none => false))

/-- Embedding of `cdqt::detectBinaryType` (binary_detect.cpp lines 9-108),
minus the IO-error paths that cannot occur for an in-memory byte list. -/
def detectBinaryType (bs : List Nat) : Except String BinaryType :=
  if bs.length < 4 then .error "file too small"
  else if byteAt bs 0 = 0x7F ∧ byteAt bs 1 = 0x45 ∧ byteAt bs 2 = 0x4C ∧ byteAt bs 3 = 0x46 then
    .ok .ELF
  else if isPEHeader bs then .ok .PE
  else if u32be_from0 bs = 0xFEEDFACE ∨ u32be_from0 bs = 0xCEFAEDFE ∨
      u32be_from0 bs = 0xFEEDFACF ∨ u32be_from0 bs = 0xCFFAEDFE then .ok .MACHO
  else if u32be_from0 bs = 0xCAFEBABE ∨ u32be_from0 bs = 0xCAFEBABF ∨
      u32be_from0 bs = 0xBEBAFECA ∨ u32be_from0 bs = 0xBFBAFECA then
    match if u32be_from0 bs = 0xCAFEBABE ∨ u32be_from0 bs = 0xCAFEBABF
            then u32be_at bs 4 else u32le_at bs 4 with
    | none => .error "truncated fat header"
    | some nfat =>
      if nfat = 0 ∨ nfat > 64 then
        .error "CAFEBABE but invalid nfat_arch (likely not Mach-O)"
      else
        if 8 + nfat * (if u32be_from0 bs = 0xCAFEBABF ∨ u32be_from0 bs = 0xBFBAFECA
                         then 32 else 20) > bs.length then
          .error "fat header larger than file"
        else .ok .MACHO
  else .error "unknown binary format"

/-- The four thin Mach-O magics. -/
def isThinMachOMagic (be : Nat) : Prop :=
  be = 0xFEEDFACE ∨ be = 0xCEFAEDFE ∨ be = 0xFEEDFACF ∨ be = 0xCFFAEDFE

/-- The four fat Mach-O magics. -/
def isFatMachOMagic (be : Nat) : Prop :=
  be = 0xCAFEBABE ∨ be = 0xCAFEBABF ∨ be = 0xBEBAFECA ∨ be = 0xBFBAFECA

/-- The fat-header sanity condition of the claim: `nfat_arch` read at
offset 4 in the magic's endianness is in `[1, 64]` and
`8 + nfat_arch * entry_size` fits in the file, entry size 20 for 32-bit
and 32 for 64-bit variants. -/
def fatHeaderOk (bs : List Nat) : Prop :=
  ∃ nfat, (if u32be_from0 bs = 0xCAFEBABE ∨ u32be_from0 bs = 0xCAFEBABF
             then u32be_at bs 4 else u32le_at bs 4) = some nfat ∧
    1 ≤ nfat ∧ nfat ≤ 64 ∧
    8 + nfat * (if u32be_from0 bs = 0xCAFEBABF ∨ u32be_from0 bs = 0xBFBAFECA
                  then 32 else 20) ≤ bs.length

/-- All bytes of a real file are below 256. -/
def ValidBytes (bs : List Nat) : Prop := ∀ b ∈ bs, b < 256

theorem byteAt_lt_256 {bs : List Nat} (h : ValidBytes bs) (i : Nat) : byteAt bs i < 256 := by
  unfold byteAt
  by_cases hi : i < bs.length
  · rw [List.getD_eq_getElem _ _ hi]
    exact h _ (List.getElem_mem hi)
  · rw [List.getD_eq_default _ _ (by omega)]
    omega

theorem byteAt_eq_zero_of_le {bs : List Nat} {i : Nat} (h : bs.length ≤ i) :
    byteAt bs i = 0 := by
  unfold byteAt
  rw [List.getD_eq_default _ _ h]

/-- Under `ValidBytes`, the big-endian word determines its four bytes. -/
theorem u32be_from0_byte0 {bs : List Nat} (h : ValidBytes bs) :
    u32be_from0 bs / 2 ^ 24 = byteAt bs 0 := by
  have h1 := byteAt_lt_256 h 1
  have h2 := byteAt_lt_256 h 2
  have h3 := byteAt_lt_256 h 3
  unfold u32be_from0
  omega

theorem u32be_from0_byte3 {bs : List Nat} (h : ValidBytes bs) :
    u32be_from0 bs % 2 ^ 8 = byteAt bs 3 := by
  have h3 := byteAt_lt_256 h 3
  unfold u32be_from0
  omega

theorem take4_eq_iff {bs : List Nat} {a b c d : Nat} :
    bs.take 4 = [a, b, c, d] ↔
      4 ≤ bs.length ∧ byteAt bs 0 = a ∧ byteAt bs 1 = b ∧ byteAt bs 2 = c ∧ byteAt bs 3 = d := by
  match bs with
  | [] => simp [byteAt]
  | [x] => simp [byteAt]
  | [x, y] => simp [byteAt]
  | [x, y, z] => simp [byteAt]
  | x :: y :: z :: w :: rest => simp [byteAt, List.take]

theorem take2_eq_iff {bs : List Nat} {a b : Nat} :
    bs.take 2 = [a, b] ↔ 2 ≤ bs.length ∧ byteAt bs 0 = a ∧ byteAt bs 1 = b := by
  match bs with
  | [] => simp [byteAt]
  | [x] => simp [byteAt]
  | x :: y :: rest => simp [byteAt, List.take]

/-- Every error message the detector produces is non-empty. -/
theorem detectBinaryType_error_ne {bs : List Nat} {r : String}
    (h : detectBinaryType bs = .error r) : r ≠ "" := by
  unfold detectBinaryType at h
  split at h
  · injection h with h; rw [← h]; decide
  · split at h
    · cases h
    · split at h
      · cases h
      · split at h
        · cases h
        · split at h
          · split at h
            · injection h with h; rw [← h]; decide
            · split at h
              · injection h with h; rw [← h]; decide
              · split at h
                · split at h
                  · injection h with h; rw [← h]; decide
                  · cases h
                · split at h
                  · injection h with h; rw [← h]; decide
                  · cases h
          · injection h with h; rw [← h]; decide

theorem u32le_at_some_bound {bs : List Nat} {off e : Nat} (h : u32le_at bs off = some e) :
    off + 4 ≤ bs.length := by
  unfold u32le_at at h
  split at h
  · assumption
  · cases h

theorem u32be_at_some_bound {bs : List Nat} {off e : Nat} (h : u32be_at bs off = some e) :
    off + 4 ≤ bs.length := by
  unfold u32be_at at h
  split at h
  · assumption
  · cases h

theorem readBytes4_some_bound {bs : List Nat} {off : Nat} {sig : List Nat}
    (h : readBytes4 bs off = some sig) : off + 4 ≤ bs.length := by
  unfold readBytes4 at h
  split at h
  · assumption
  · cases h

/-- The PE header test holds exactly when the first two bytes are `MZ` and
the four bytes at the little-endian u32 stored at 0x3C equal `PE\0\0`; the
code's extra `fileSize >= 0x40` and `e_lfanew <= fileSize - 4` checks are
implied by the successful reads. -/
theorem isPEHeader_iff {bs : List Nat} :
    isPEHeader bs = true ↔
      byteAt bs 0 = 0x4D ∧ byteAt bs 1 = 0x5A ∧
        ∃ e, u32le_at bs 0x3C = some e ∧ readBytes4 bs e = some [0x50, 0x45, 0, 0] := by
  unfold isPEHeader
  cases hu : u32le_at bs 0x3C with
  | none => simp [hu]
  | some e =>
    have hlen : 0x40 ≤ bs.length := by have := u32le_at_some_bound hu; omega
    cases hr : readBytes4 bs e with
    | none => simp [hu, hr]
    | some sig =>
      have hbound : e + 4 ≤ bs.length := readBytes4_some_bound hr
      simp only [hu, hr, Bool.and_eq_true, beq_iff_eq, decide_eq_true_eq]
      constructor
      · rintro ⟨⟨h0, h1⟩, -, -, hsig⟩
        exact ⟨h0, h1, e, rfl, hsig ▸ hr⟩
      · rintro ⟨h0, h1, e', he', hsig⟩
        have hee : e = e' := by injection he'
        subst hee
        have h3 := hr.symm.trans hsig
        injection h3 with h3
        exact ⟨⟨h0, h1⟩, by omega, by omega, h3⟩

/-- Case analysis on a successful detection: each kind arises only from its
branch's conditions. -/
theorem detectBinaryType_ok_cases {bs : List Nat} {t : BinaryType}
    (h : detectBinaryType bs = .ok t) :
    (t = .ELF ∧ ¬bs.length < 4 ∧ byteAt bs 0 = 0x7F ∧ byteAt bs 1 = 0x45 ∧
      byteAt bs 2 = 0x4C ∧ byteAt bs 3 = 0x46)
    ∨ (t = .PE ∧ isPEHeader bs = true)
    ∨ (t = .MACHO ∧
        (isThinMachOMagic (u32be_from0 bs) ∨
          (isFatMachOMagic (u32be_from0 bs) ∧ fatHeaderOk bs))) := by
  unfold detectBinaryType at h
  split at h
  · cases h
  rename_i hlen
  split at h
  · rename_i helf
    left
    injection h with h
    exact ⟨h.symm, hlen, helf.1, helf.2.1, helf.2.2.1, helf.2.2.2⟩
  rename_i helf
  split at h
  · rename_i hpe
    right; left
    injection h with h
    exact ⟨h.symm, hpe⟩
  rename_i hpe
  split at h
  · rename_i hthin
    right; right
    injection h with h
    exact ⟨h.symm, Or.inl hthin⟩
  rename_i hthin
  split at h
  · rename_i hfat
    split at h
    · cases h
    rename_i nfat heq
    split at h
    · cases h
    rename_i hrange
    split at h
    · rename_i hv
      split at h
      · cases h
      rename_i hsz
      right; right
      injection h with h
      refine ⟨h.symm, Or.inr ⟨hfat, nfat, heq, by omega, by omega, ?_⟩⟩
      rw [if_pos hv]
      omega
    · rename_i hv
      split at h
      · cases h
      rename_i hsz
      right; right
      injection h with h
      refine ⟨h.symm, Or.inr ⟨hfat, nfat, heq, by omega, by omega, ?_⟩⟩
      rw [if_neg hv]
      omega
  · cases h

theorem byteAt0_of_u32be {bs : List Nat} (h : ValidBytes bs) {v : Nat}
    (hbe : u32be_from0 bs = v) : byteAt bs 0 = v / 2 ^ 24 := by
  rw [← u32be_from0_byte0 h, hbe]

theorem length_ge_4_of_magic {bs : List Nat} (h : ValidBytes bs) {v : Nat}
    (hbe : u32be_from0 bs = v) (hv : v % 2 ^ 8 ≠ 0) : ¬bs.length < 4 := by
  intro hlen
  have h3 : byteAt bs 3 = 0 := byteAt_eq_zero_of_le (by omega)
  have := u32be_from0_byte3 h
  rw [hbe, h3] at this
  exact hv this

theorem isPEHeader_false_of_byte0 {bs : List Nat} (h : byteAt bs 0 ≠ 0x4D) :
    isPEHeader bs = false := by
  unfold isPEHeader
  have : (byteAt bs 0 == 0x4D) = false := by simpa using h
  simp [this]

/-- **C1.** For every (valid-byte) input file, the binary format detector
returns either a kind in {PE, ELF, MACHO} or a non-empty failure reason,
never neither; it returns ELF exactly when the first four bytes are
`7F 45 4C 46`; PE exactly when the first two bytes are `MZ` and the four
bytes at the little-endian u32 offset stored at 0x3C equal `PE\0\0`; and
MACHO exactly for the thin magics FEEDFACE/FEEDFACF/CEFAEDFE/CFFAEDFE, or
for the fat magics CAFEBABE/CAFEBABF/BEBAFECA/BFBAFECA when `nfat_arch`
(read at offset 4 in the magic's endianness) lies in [1, 64] and
`8 + nfat_arch * entry_size <= file_size` with entry size 20 (32-bit) or
32 (64-bit); in all remaining cases it fails with a reason. -/
theorem detectBinaryType_characterization (bs : List Nat) (hv : ValidBytes bs) :
    ((∃ t, detectBinaryType bs = .ok t) ∨
      (∃ r, detectBinaryType bs = .error r ∧ r ≠ ""))
    ∧ (detectBinaryType bs = .ok .ELF ↔ bs.take 4 = [0x7F, 0x45, 0x4C, 0x46])
    ∧ (detectBinaryType bs = .ok .PE ↔
        (bs.take 2 = [0x4D, 0x5A] ∧
          ∃ e, u32le_at bs 0x3C = some e ∧ readBytes4 bs e = some [0x50, 0x45, 0, 0]))
    ∧ (detectBinaryType bs = .ok .MACHO ↔
        (isThinMachOMagic (u32be_from0 bs) ∨
          (isFatMachOMagic (u32be_from0 bs) ∧ fatHeaderOk bs))) := by
  refine ⟨?_, ?_, ?_, ?_⟩
  · cases h : detectBinaryType bs with
    | ok t => exact Or.inl ⟨t, rfl⟩
    | error r => exact Or.inr ⟨r, rfl, detectBinaryType_error_ne h⟩
  · constructor
    · intro h
      rcases detectBinaryType_ok_cases h with
        ⟨-, hlen, h0, h1, h2, h3⟩ | ⟨ht, -⟩ | ⟨ht, -⟩
      · exact take4_eq_iff.mpr ⟨by omega, h0, h1, h2, h3⟩
      · cases ht
      · cases ht
    · intro h
      obtain ⟨hlen, h0, h1, h2, h3⟩ := take4_eq_iff.mp h
      unfold detectBinaryType
      rw [if_neg (by omega), if_pos ⟨h0, h1, h2, h3⟩]
  · constructor
    · intro h
      rcases detectBinaryType_ok_cases h with ⟨ht, -⟩ | ⟨-, hpe⟩ | ⟨ht, -⟩
      · cases ht
      · obtain ⟨h0, h1, e, he, hsig⟩ := isPEHeader_iff.mp hpe
        have hlen := u32le_at_some_bound he
        exact ⟨take2_eq_iff.mpr ⟨by omega, h0, h1⟩, e, he, hsig⟩
      · cases ht
    · rintro ⟨htake, e, he, hsig⟩
      obtain ⟨-, h0, h1⟩ := take2_eq_iff.mp htake
      have hlen := u32le_at_some_bound he
      have hpe : isPEHeader bs = true := isPEHeader_iff.mpr ⟨h0, h1, e, he, hsig⟩
      unfold detectBinaryType
      rw [if_neg (by omega), if_neg (by rintro ⟨h7, -⟩; rw [h0] at h7; exact absurd h7 (by decide)),
        if_pos hpe]
  · constructor
    · intro h
      rcases detectBinaryType_ok_cases h with ⟨ht, -⟩ | ⟨ht, -⟩ | ⟨-, hm⟩
      · cases ht
      · cases ht
      · exact hm
    · intro hm
      unfold isThinMachOMagic isFatMachOMagic fatHeaderOk at hm
      have hbyte0 : byteAt bs 0 ≠ 0x7F ∧ byteAt bs 0 ≠ 0x4D ∧ ¬bs.length < 4 := by
        rcases hm with hthin | ⟨hfat, -⟩
        · rcases hthin with hb | hb | hb | hb <;>
            exact ⟨by rw [byteAt0_of_u32be hv hb]; decide,
              by rw [byteAt0_of_u32be hv hb]; decide,
              length_ge_4_of_magic hv hb (by decide)⟩
        · rcases hfat with hb | hb | hb | hb <;>
            exact ⟨by rw [byteAt0_of_u32be hv hb]; decide,
              by rw [byteAt0_of_u32be hv hb]; decide,
              length_ge_4_of_magic hv hb (by decide)⟩
      obtain ⟨hne7F, hne4D, hlen4⟩ := hbyte0
      have hpe := isPEHeader_false_of_byte0 hne4D
      unfold detectBinaryType
      rw [if_neg hlen4, if_neg (by rintro ⟨h7, -⟩; exact hne7F h7), if_neg (by simp [hpe])]
      rcases hm with hthin | ⟨hfat, nfat, heq, h1n, h64, hsz⟩
      · rw [if_pos hthin]
      · have hnotthin : ¬(u32be_from0 bs = 0xFEEDFACE ∨ u32be_from0 bs = 0xCEFAEDFE ∨
            u32be_from0 bs = 0xFEEDFACF ∨ u32be_from0 bs = 0xCFFAEDFE) := by
          rcases hfat with hb | hb | hb | hb <;> rw [hb] <;>
            rintro (hc | hc | hc | hc) <;> omega
        have hrange : ¬(nfat = 0 ∨ nfat > 64) := by omega
        have hsz' : ¬(8 + nfat * (if u32be_from0 bs = 0xCAFEBABF ∨ u32be_from0 bs = 0xBFBAFECA
            then 32 else 20) > bs.length) := by
          by_cases hv64 : u32be_from0 bs = 0xCAFEBABF ∨ u32be_from0 bs = 0xBFBAFECA
          · rw [if_pos hv64] at hsz ⊢; omega
          · rw [if_neg hv64] at hsz ⊢; omega
        rw [if_neg hnotthin, if_pos hfat, heq]
        simp [hrange, hsz']
        by_cases hv64 : u32be_from0 bs = 0xCAFEBABF ∨ u32be_from0 bs = 0xBFBAFECA
        · rw [if_pos hv64] at hsz ⊢; omega
        · rw [if_neg hv64] at hsz ⊢; omega

/-- Concrete witness: the four ELF magic bytes form a valid file detected
as ELF, with all conjuncts of the characterization discharged. -/
theorem detectBinaryType_characterization_witness :
    ValidBytes [0x7F, 0x45, 0x4C, 0x46] ∧
      (((∃ t, detectBinaryType [0x7F, 0x45, 0x4C, 0x46] = .ok t) ∨
        (∃ r, detectBinaryType [0x7F, 0x45, 0x4C, 0x46] = .error r ∧ r ≠ ""))
      ∧ (detectBinaryType [0x7F, 0x45, 0x4C, 0x46] = .ok .ELF ↔
          List.take 4 [0x7F, 0x45, 0x4C, 0x46] = [0x7F, 0x45, 0x4C, 0x46])
      ∧ (detectBinaryType [0x7F, 0x45, 0x4C, 0x46] = .ok .PE ↔
          (List.take 2 [0x7F, 0x45, 0x4C, 0x46] = [0x4D, 0x5A] ∧
            ∃ e, u32le_at [0x7F, 0x45, 0x4C, 0x46] 0x3C = some e ∧
              readBytes4 [0x7F, 0x45, 0x4C, 0x46] e = some [0x50, 0x45, 0, 0]))
      ∧ (detectBinaryType [0x7F, 0x45, 0x4C, 0x46] = .ok .MACHO ↔
          (isThinMachOMagic (u32be_from0 [0x7F, 0x45, 0x4C, 0x46]) ∨
            (isFatMachOMagic (u32be_from0 [0x7F, 0x45, 0x4C, 0x46]) ∧
              fatHeaderOk [0x7F, 0x45, 0x4C, 0x46])))) :=
  ⟨by unfold ValidBytes; decide,
    detectBinaryType_characterization [0x7F, 0x45, 0x4C, 0x46] (by unfold ValidBytes; decide)⟩

/-! ## resolve.cpp: isQtLibraryName, shouldDeployLibrary

Paths and names are lists of characters.  `fs::path::filename` /
`parent_path` are modelled by splitting on `'/'` (the tool's Unix path
model); `std::tolower` by ASCII lowercasing.
-/

/-- ASCII `std::tolower`. -/
def toLowerChar (c : Char) : Char :=
  if 65 ≤ c.toNat ∧ c.toNat ≤ 90 then Char.ofNat (c.toNat + 32) else c

/-- Lowercase an entire name (the `std::transform` idiom of resolve.cpp). -/
def lowerStr (s : List Char) : List Char := s.map toLowerChar

/-- `fs::path::filename` for a Unix path string: the part after the last
`'/'` (empty for a path ending in `'/'`). -/
def baseName (p : List Char) : List Char := (p.splitOn '/').getLastD []

/-- `fs::path::parent_path` for a Unix path string: everything before the
last `'/'` (empty when there is no parent). -/
def parentPath (p : List Char) : List Char :=
  List.intercalate ['/'] ((p.splitOn '/').dropLast)

/-- Embedding of `cdqt::isQtLibraryName` (resolve.cpp lines 187-191):
the lowercased name contains `qt6` or starts with `qt`. -/
def isQtLibraryName (name : List Char) : Bool :=
  decide ("qt6".toList <:+: lowerStr name) || ("qt".toList.isPrefixOf (lowerStr name))

/-- The Qt-locations and main-binary fields of `ResolveContext` that
`shouldDeployLibrary` consults. -/
structure ResolveCtx where
  qtInstallLibs : List Char
  qtInstallBins : List Char
  qtInstallPrefix : List Char
  binaryPath : List Char

/-- The `inQtPath` lambda of `shouldDeployLibrary`: the library path has a
non-empty Qt libs/bins/prefix directory as a string prefix. -/
def inQtPath (ctx : ResolveCtx) (libPath : List Char) : Bool :=
  (!ctx.qtInstallLibs.isEmpty && ctx.qtInstallLibs.isPrefixOf libPath) ||
  (!ctx.qtInstallBins.isEmpty && ctx.qtInstallBins.isPrefixOf libPath) ||
  (!ctx.qtInstallPrefix.isEmpty && ctx.qtInstallPrefix.isPrefixOf libPath)

/-- The fixed Windows system DLL set of resolve.cpp lines 213-216. -/
def systemDlls : List (List Char) :=
  ["kernel32.dll", "user32.dll", "gdi32.dll", "shell32.dll", "ole32.dll",
   "advapi32.dll", "ws2_32.dll", "ntdll.dll", "sechost.dll", "shlwapi.dll",
   "comdlg32.dll", "imm32.dll", "version.dll", "winmm.dll",
   "cfgmgr32.dll"].map String.toList

/-- Embedding of `cdqt::shouldDeployLibrary` (resolve.cpp lines 193-225).
The second C++ parameter (the reference name) is unnamed and unused in the
source and is dropped here. -/
def shouldDeployLibrary (libPath : List Char) (type : BinaryType) (ctx : ResolveCtx) : Bool :=
  let dir := parentPath libPath
  let base := baseName libPath
  match type with
  | .ELF =>
    if "/lib".toList.isPrefixOf libPath || "/usr/lib".toList.isPrefixOf libPath then
      isQtLibraryName base || inQtPath ctx libPath
    else
      isQtLibraryName base || inQtPath ctx libPath || dir == parentPath ctx.binaryPath
  | .PE =>
    let lower := lowerStr base
    if "api-ms-win-".toList.isPrefixOf lower || "ext-ms-win-".toList.isPrefixOf lower then
      false
    else if lower ∈ systemDlls then
      false
    else
      "/nix/store/".toList.isPrefixOf libPath || isQtLibraryName base ||
        inQtPath ctx libPath || dir == parentPath ctx.binaryPath
  | .MACHO =>
    if "/System/Library/Frameworks/".toList.isPrefixOf libPath ||
        "/usr/lib/".toList.isPrefixOf libPath then
      false
    else
      isQtLibraryName base || inQtPath ctx libPath || dir == parentPath ctx.binaryPath

/-- **C4, counterexample.** A library whose basename lowercases to one
containing `qt6` is nevertheless rejected on Mach-O when it lives under
`/usr/lib/` (the exclusion runs before the Qt-name test), so the claim that
such a name is always admitted on every platform and for every path is
false. -/
theorem shouldDeployLibrary_qt_admission_counterexample :
    isQtLibraryName (baseName "/usr/lib/libqt6x.dylib".toList) = true ∧
    shouldDeployLibrary "/usr/lib/libqt6x.dylib".toList .MACHO ⟨[], [], [], []⟩ = false := by
  constructor <;> decide

/-- **C4, amended.** `shouldDeployLibrary` never admits a path under
`/System/Library/Frameworks/` or `/usr/lib/` on Mach-O, never admits a PE
basename in the Windows system-DLL set or with prefix `api-ms-win-` /
`ext-ms-win-`, and admits every library whose basename lowercases to one
starting with `qt` or containing `qt6` unless one of those platform
exclusions applies (on ELF the Qt name is admitted unconditionally). -/
theorem shouldDeployLibrary_invariants (ctx : ResolveCtx) (p : List Char) :
    (("/System/Library/Frameworks/".toList <+: p ∨ "/usr/lib/".toList <+: p) →
      shouldDeployLibrary p .MACHO ctx = false)
    ∧ ((("api-ms-win-".toList <+: lowerStr (baseName p) ∨
          "ext-ms-win-".toList <+: lowerStr (baseName p)) ∨
          lowerStr (baseName p) ∈ systemDlls) →
        shouldDeployLibrary p .PE ctx = false)
    ∧ (isQtLibraryName (baseName p) = true →
        (shouldDeployLibrary p .ELF ctx = true
         ∧ (¬(("api-ms-win-".toList <+: lowerStr (baseName p) ∨
                "ext-ms-win-".toList <+: lowerStr (baseName p)) ∨
               lowerStr (baseName p) ∈ systemDlls) →
             shouldDeployLibrary p .PE ctx = true)
         ∧ (¬("/System/Library/Frameworks/".toList <+: p ∨ "/usr/lib/".toList <+: p) →
             shouldDeployLibrary p .MACHO ctx = true))) := by
  refine ⟨?_, ?_, ?_⟩
  · rintro (h | h) <;> simp at h <;> simp [shouldDeployLibrary, h]
  · rintro ((h | h) | h)
    · simp at h; simp [shouldDeployLibrary, h]
    · simp at h; simp [shouldDeployLibrary, h]
    · by_cases h1 : "api-ms-win-".toList <+: lowerStr (baseName p)
      · simp at h1; simp [shouldDeployLibrary, h1]
      · by_cases h2 : "ext-ms-win-".toList <+: lowerStr (baseName p)
        · simp at h2; simp [shouldDeployLibrary, h2]
        · simp at h1 h2; simp [shouldDeployLibrary, h, h1, h2]
  · intro hqt
    refine ⟨by simp [shouldDeployLibrary, hqt], ?_, ?_⟩
    · intro hex
      push_neg at hex
      obtain ⟨⟨h1, h2⟩, h3⟩ := hex
      simp at h1 h2
      simp [shouldDeployLibrary, hqt, h1, h2, h3]
    · intro hex
      push_neg at hex
      obtain ⟨h1, h2⟩ := hex
      simp at h1 h2
      simp [shouldDeployLibrary, hqt, h1, h2]

/-- Concrete instantiations of the amended filter invariants. -/
theorem shouldDeployLibrary_invariants_witness :
    shouldDeployLibrary "/usr/lib/libfoo.dylib".toList .MACHO ⟨[], [], [], []⟩ = false ∧
    shouldDeployLibrary "/x/kernel32.dll".toList .PE ⟨[], [], [], []⟩ = false ∧
    shouldDeployLibrary "/opt/lib/libQt6Core.so".toList .ELF ⟨[], [], [], []⟩ = true :=
  ⟨(shouldDeployLibrary_invariants ⟨[], [], [], []⟩ _).1 (Or.inr (by decide)),
   (shouldDeployLibrary_invariants ⟨[], [], [], []⟩ _).2.1 (Or.inr (by decide)),
   ((shouldDeployLibrary_invariants ⟨[], [], [], []⟩ _).2.2 (by decide)).1⟩

/-! ## resolve.cpp / qml.cpp: dependency processing in the two traversals

The worklist loops of `resolveAndRecurse` (resolve.cpp lines 245-270) and
`resolveQmlPluginDependencies` (qml.cpp lines 243-265) differ only in the
body that handles one parsed dependency list.  That body is embedded here;
parsing, resolution and the filter are oracle parameters (they consult the
filesystem).  Both bodies are given the common result type
`Except (List Char) (List (List Char))` so that their abort behaviour can
be compared: the source of the QML body contains no `throw`, and its
embedding accordingly always returns `.ok`.
-/

/-- Oracles for one traversal step: the parsed dependency references of a
subject, the resolver, and the deployment filter. -/
structure DepEnv where
  deps : List Char → List (List Char)
  resolve : List Char → List Char → Option (List Char)
  shouldDeploy : List Char → Bool

/-- The error message of resolve.cpp lines 240/266. -/
def qtMissingMsg (dep : List Char) : List Char :=
  "Required Qt library not found in search paths: ".toList ++ dep

/-- Dependency loop of the main closure (resolve.cpp lines 256-268): a
resolved dependency passing the filter is pushed; an unresolved dependency
aborts with an error naming it when `isQtLibraryName` holds, and is
silently skipped otherwise. -/
def processDepsMain (env : DepEnv) (cur : List Char) : List (List Char) →
    Except (List Char) (List (List Char))
  | [] => .ok []
  | dep :: rest =>
    match env.resolve cur dep with
    | some found =>
      if env.shouldDeploy found then
        (processDepsMain env cur rest).map (found :: ·)
      else processDepsMain env cur rest
    | none =>
      if isQtLibraryName dep then .error (qtMissingMsg dep)
      else processDepsMain env cur rest

/-- Dependency loop of the QML-plugin closure (qml.cpp lines 253-264): a
resolved dependency passing the filter is pushed; an unresolved dependency
is always skipped — the source contains no failure path. -/
def processDepsQml (env : DepEnv) (cur : List Char) : List (List Char) →
    Except (List Char) (List (List Char))
  | [] => .ok []
  | dep :: rest =>
    match env.resolve cur dep with
    | some found =>
      if env.shouldDeploy found then
        (processDepsQml env cur rest).map (found :: ·)
      else processDepsQml env cur rest
    | none => processDepsQml env cur rest

/-- The libraries a dependency list contributes when nothing aborts. -/
def resolvedPushes (env : DepEnv) (cur : List Char) (l : List (List Char)) :
    List (List Char) :=
  l.filterMap fun dep =>
    match env.resolve cur dep with
    | some found => if env.shouldDeploy found then some found else none
    | none => none

/-- **C2, counterexample.** In the QML-plugin closure an unresolved
reference satisfying the Qt-name heuristic does NOT abort: with a resolver
that fails on the Qt-named dependency `libQt6Missing.so.6`, the QML loop
returns normally (empty push list) instead of the error the claim
requires. -/
theorem qmlClosure_no_abort_counterexample :
    isQtLibraryName "libQt6Missing.so.6".toList = true ∧
    processDepsQml ⟨fun _ => ["libQt6Missing.so.6".toList], fun _ _ => none, fun _ => true⟩
        "plugin.so".toList ["libQt6Missing.so.6".toList] = .ok [] ∧
    ∀ msg, processDepsQml ⟨fun _ => ["libQt6Missing.so.6".toList], fun _ _ => none,
        fun _ => true⟩ "plugin.so".toList ["libQt6Missing.so.6".toList] ≠ .error msg := by
  refine ⟨by decide, rfl, fun msg h => ?_⟩
  rw [show processDepsQml ⟨fun _ => ["libQt6Missing.so.6".toList], fun _ _ => none,
      fun _ => true⟩ "plugin.so".toList ["libQt6Missing.so.6".toList] = .ok [] from rfl] at h
  cases h

/-- **C2, amended.** In the main closure an unresolved dependency whose
name matches the Qt-name heuristic aborts processing with the error naming
the first such dependency, while a dependency list with no unresolved
Qt-named entry is processed to completion with every other unresolved
reference skipped; the QML-plugin closure never aborts and always skips
unresolved references. -/
theorem traversal_unresolved_behaviour (env : DepEnv) (cur : List Char)
    (l : List (List Char)) :
    ((∃ dep ∈ l, env.resolve cur dep = none ∧ isQtLibraryName dep = true) →
      ∃ dep ∈ l, env.resolve cur dep = none ∧ isQtLibraryName dep = true ∧
        processDepsMain env cur l = .error (qtMissingMsg dep))
    ∧ ((∀ dep ∈ l, env.resolve cur dep = none → isQtLibraryName dep = false) →
      processDepsMain env cur l = .ok (resolvedPushes env cur l))
    ∧ processDepsQml env cur l = .ok (resolvedPushes env cur l) := by
  refine ⟨?_, ?_, ?_⟩
  · intro hex
    induction l with
    | nil => simp at hex
    | cons dep rest ih =>
      by_cases hres : env.resolve cur dep = none
      · by_cases hqt : isQtLibraryName dep = true
        · exact ⟨dep, List.mem_cons_self _ _, hres,  hqt, by
            simp [processDepsMain, hres, hqt]⟩
        · have hex' : ∃ d ∈ rest, env.resolve cur d = none ∧ isQtLibraryName d = true := by
            rcases hex with ⟨d, hd, h1, h2⟩
            rcases List.mem_cons.mp hd with rfl | hd'
            · exact absurd h2 hqt
            · exact ⟨d, hd', h1, h2⟩
          rcases ih hex' with ⟨d, hd, h1, h2, h3⟩
          refine ⟨d, List.mem_cons_of_mem _ hd, h1, h2, ?_⟩
          simp only [Bool.not_eq_true] at hqt
          simp [processDepsMain, hres, hqt, h3]
      · rcases Option.ne_none_iff_exists'.mp hres with ⟨found, hfound⟩
        have hex' : ∃ d ∈ rest, env.resolve cur d = none ∧ isQtLibraryName d = true := by
          rcases hex with ⟨d, hd, h1, h2⟩
          rcases List.mem_cons.mp hd with rfl | hd'
          · exact absurd h1 (by simp [hfound])
          · exact ⟨d, hd', h1, h2⟩
        rcases ih hex' with ⟨d, hd, h1, h2, h3⟩
        refine ⟨d, List.mem_cons_of_mem _ hd, h1, h2, ?_⟩
        by_cases hsd : env.shouldDeploy found = true <;>
          simp [processDepsMain, hfound, hsd, h3, Except.map]
  · intro hall
    induction l with
    | nil => simp [processDepsMain, resolvedPushes]
    | cons dep rest ih =>
      have ih' := ih (fun d hd => hall d (List.mem_cons_of_mem _ hd))
      cases hres : env.resolve cur dep with
      | none =>
        have hqt := hall dep (List.mem_cons_self _ _) hres
        simp [processDepsMain, hres, hqt, resolvedPushes, ih']
      | some found =>
        by_cases hsd : env.shouldDeploy found = true <;>
          simp [processDepsMain, hres, hsd, resolvedPushes, ih',
            List.filterMap_cons, Except.map]
  · induction l with
    | nil => simp [processDepsQml, resolvedPushes]
    | cons dep rest ih =>
      cases hres : env.resolve cur dep with
      | none => simp [processDepsQml, hres, resolvedPushes, ih]
      | some found =>
        by_cases hsd : env.shouldDeploy found = true <;>
          simp [processDepsQml, hres, hsd, resolvedPushes, ih, List.filterMap_cons,
            Except.map]

/-- Concrete instantiation: a list with an unresolved Qt-named dependency
aborts the main loop, and a resolvable one is processed. -/
theorem traversal_unresolved_behaviour_witness :
    (∃ dep ∈ [String.toList "libQt6Core.so.6"],
      (fun (_ _ : List Char) => (none : Option (List Char))) "app".toList dep = none ∧
        isQtLibraryName dep = true ∧
        processDepsMain ⟨fun _ => [], fun _ _ => none, fun _ => true⟩ "app".toList
          ["libQt6Core.so.6".toList] = .error (qtMissingMsg dep)) :=
  (traversal_unresolved_behaviour ⟨fun _ => [], fun _ _ => none, fun _ => true⟩
      "app".toList ["libQt6Core.so.6".toList]).1
    ⟨"libQt6Core.so.6".toList, by simp, rfl, by decide⟩

/-! ## resolve.cpp: expandMachOToken and expandElfOrigin

`fs::weakly_canonical` consults the filesystem, so it enters the embedding
as an oracle `canon`; `fs::path::operator/` is `pathAppend`.
-/

/-- `fs::path::operator/`: an absolute right-hand side replaces the left,
otherwise the parts are joined with a separator (empty left: the right
alone). -/
def pathAppend (a b : List Char) : List Char :=
  if b.headD ' ' = '/' then b
  else if a.isEmpty then b
  else a ++ ['/'] ++ b

/-- Embedding of `cdqt::expandMachOToken` (resolve.cpp lines 111-116). -/
def expandMachOToken (canon : List Char → List Char)
    (p subjectBin mainExe : List Char) : List Char :=
  if "@loader_path/".toList <+: p then
    canon (pathAppend (parentPath subjectBin) (p.drop 13))
  else if "@executable_path/".toList <+: p then
    canon (pathAppend (parentPath mainExe) (p.drop 17))
  else p

/-- The body of the `sub` lambda of `expandElfOrigin` (resolve.cpp lines
98-105): scan left to right, replace each occurrence of `pat` by `rep`,
never rescanning the replacement (`pos += base.size()`). -/
def substAll (pat rep : List Char) : List Char → List Char
  | [] => []
  | c :: rest =>
    if h : pat ≠ [] ∧ pat.isPrefixOf (c :: rest) then
      rep ++ substAll pat rep ((c :: rest).drop pat.length)
    else c :: substAll pat rep rest
termination_by s => s.length
decreasing_by
  · simp only [List.length_drop, List.length_cons]
    have hlen : 1 ≤ pat.length := by
      cases pat with
      | nil => exact absurd rfl h.1
      | cons a as => simp
    omega
  · simp only [List.length_cons]
    omega

/-- Embedding of `cdqt::expandElfOrigin` (resolve.cpp lines 96-109):
substitute `${ORIGIN}` first, then `$ORIGIN`, replacement being the
subject's parent directory. -/
def expandElfOrigin (p subject : List Char) : List Char :=
  substAll "$ORIGIN".toList (parentPath subject)
    (substAll "${ORIGIN}".toList (parentPath subject) p)

/-- Specification-side simultaneous substitution: one left-to-right scan
replacing each occurrence of either `${ORIGIN}` or `$ORIGIN` by `base`. -/
def originSubstSpec (base : List Char) : List Char → List Char
  | [] => []
  | c :: rest =>
    if "${ORIGIN}".toList.isPrefixOf (c :: rest) then
      base ++ originSubstSpec base ((c :: rest).drop 9)
    else if "$ORIGIN".toList.isPrefixOf (c :: rest) then
      base ++ originSubstSpec base ((c :: rest).drop 7)
    else c :: originSubstSpec base rest
termination_by s => s.length
decreasing_by
  · simp only [List.length_drop, List.length_cons]; omega
  · simp only [List.length_drop, List.length_cons]; omega
  · simp only [List.length_cons]; omega

/-- The characters occurring in the two ORIGIN tokens. -/
def tokenChars : List Char := "$ORIGIN{}".toList

/-- Boolean prefix test agrees with the prefix relation. -/
theorem isPrefixOf_eq_true_iff {l1 l2 : List Char} :
    l1.isPrefixOf l2 = true ↔ l1 <+: l2 :=
  List.isPrefixOf_iff_prefix

/-- A block whose characters never start an occurrence of `pat` passes
through `substAll` unchanged ahead of the remainder. -/
theorem substAll_append_left (pat rep : List Char) (hne : pat ≠ [])
    (a : List Char) (ha : pat.headD ' ' ∉ a) (t : List Char) :
    substAll pat rep (a ++ t) = a ++ substAll pat rep t := by
  induction a with
  | nil => simp
  | cons c a' ih =>
    obtain ⟨ph, pt, rfl⟩ : ∃ ph pt, pat = ph :: pt := by
      cases pat with
      | nil => exact absurd rfl hne
      | cons x xs => exact ⟨x, xs, rfl⟩
    have hc : ph ≠ c := by
      intro h
      exact ha (by simpa [h] using List.mem_cons_self c a')
    rw [List.cons_append, substAll]
    rw [dif_neg (by
      rintro ⟨-, hpre⟩
      rw [isPrefixOf_eq_true_iff] at hpre
      exact hc (List.cons_prefix_cons.mp hpre).1)]
    rw [ih (fun hmem => ha (List.mem_cons_of_mem _ hmem))]
    simp

/-- If every character of `q` is a token character and `rep` does not
start with one, then a `q`-prefix of a substituted string reflects to the
original string. -/
theorem prefix_reflect_substAll (pat rep : List Char) (hrepne : rep ≠ [])
    (hrephead : rep.headD ' ' ∉ tokenChars) :
    ∀ p q, q ≠ [] → (∀ c ∈ q, c ∈ tokenChars) →
      q <+: substAll pat rep p → q <+: p := by
  intro p
  induction p using substAll.induct pat rep with
  | case1 => intro q hq _ h; simp [substAll] at h; exact absurd h hq
  | case2 c rest h ih =>
    intro q hq hqchars hpre
    rw [substAll, dif_pos h] at hpre
    obtain ⟨qh, qt, rfl⟩ : ∃ qh qt, q = qh :: qt := by
      cases q with
      | nil => exact absurd rfl hq
      | cons x xs => exact ⟨x, xs, rfl⟩
    obtain ⟨rh, rt, hrfl⟩ : ∃ rh rt, rep = rh :: rt := by
      cases rep with
      | nil => exact absurd rfl hrepne
      | cons x xs => exact ⟨x, xs, rfl⟩
    rw [hrfl, List.cons_append] at hpre
    have := (List.cons_prefix_cons.mp hpre).1
    have h1 : qh ∈ tokenChars := hqchars _ (List.mem_cons_self _ _)
    have h2 : rh ∉ tokenChars := by rw [hrfl] at hrephead; simpa using hrephead
    exact absurd (this ▸ h1) h2
  | case3 c rest h ih =>
    intro q hq hqchars hpre
    rw [substAll, dif_neg h] at hpre
    obtain ⟨qh, qt, rfl⟩ : ∃ qh qt, q = qh :: qt := by
      cases q with
      | nil => exact absurd rfl hq
      | cons x xs => exact ⟨x, xs, rfl⟩
    obtain ⟨rfl, hqt⟩ := List.cons_prefix_cons.mp hpre
    cases hqtnil : qt with
    | nil => simpa [hqtnil] using List.cons_prefix_cons.mpr ⟨rfl, List.nil_prefix _⟩
    | cons y ys =>
      have := ih qt (by simp [hqtnil]) (fun c hc => hqchars _ (List.mem_cons_of_mem _ hc))
        (hqtnil ▸ hqt)
      exact List.cons_prefix_cons.mpr ⟨rfl, hqtnil ▸ this⟩

/-- The sequential two-pass substitution of `expandElfOrigin` agrees with
the simultaneous one-pass substitution, provided the replacement is
non-empty, contains no `'$'`, and does not start with a token character
(so it cannot splice with surrounding text into a fresh token). -/
theorem twoPass_eq_originSpec (base : List Char) (hbne : base ≠ [])
    (hdollar : '$' ∉ base) (hhead : base.headD ' ' ∉ tokenChars) :
    ∀ (n : Nat) (p : List Char), p.length ≤ n →
      substAll "$ORIGIN".toList base (substAll "${ORIGIN}".toList base p)
        = originSubstSpec base p := by
  intro n
  induction n with
  | zero =>
    intro p hp
    have hnil : p = [] := List.eq_nil_of_length_eq_zero (by omega)
    subst hnil
    simp [substAll, originSubstSpec]
  | succ n ih =>
    intro p hp
    match p with
    | [] => simp [substAll, originSubstSpec]
    | c :: rest =>
      by_cases hA : "${ORIGIN}".toList <+: (c :: rest)
      · have hAb : ("${ORIGIN}".toList.isPrefixOf (c :: rest)) = true :=
          isPrefixOf_eq_true_iff.mpr hA
        have e1 : substAll "${ORIGIN}".toList base (c :: rest)
            = base ++ substAll "${ORIGIN}".toList base ((c :: rest).drop 9) := by
          rw [substAll, dif_pos ⟨by decide, hAb⟩]
          simp
        rw [e1, substAll_append_left "$ORIGIN".toList base (by decide) base
          (by simpa using hdollar) _]
        rw [originSubstSpec, if_pos hAb]
        rw [ih ((c :: rest).drop 9) (by simp at hp ⊢; omega)]
      · by_cases hB : "$ORIGIN".toList <+: (c :: rest)
        · obtain ⟨t, ht⟩ := hB
          have ht' : '$' :: ("ORIGIN".toList ++ t) = c :: rest := by simpa using ht
          injection ht' with hc hrest
          subst hc
          subst hrest
          have e1 : substAll "${ORIGIN}".toList base ('$' :: ("ORIGIN".toList ++ t))
              = '$' :: ("ORIGIN".toList ++ substAll "${ORIGIN}".toList base t) := by
            rw [substAll, dif_neg]
            · rw [substAll_append_left "${ORIGIN}".toList base (by decide)
                "ORIGIN".toList (by decide) t]
            · rintro ⟨-, hpre⟩
              exact hA (isPrefixOf_eq_true_iff.mp hpre)
          have hpref : ("$ORIGIN".toList.isPrefixOf
              ('$' :: ("ORIGIN".toList ++ substAll "${ORIGIN}".toList base t))) = true := by
            rw [isPrefixOf_eq_true_iff]
            have hP := List.prefix_append "$ORIGIN".toList
              (substAll "${ORIGIN}".toList base t)
            simpa using hP
          have e2 : substAll "$ORIGIN".toList base
              ('$' :: ("ORIGIN".toList ++ substAll "${ORIGIN}".toList base t))
              = base ++ substAll "$ORIGIN".toList base
                  (substAll "${ORIGIN}".toList base t) := by
            rw [substAll, dif_pos ⟨by decide, hpref⟩]
            simp
          rw [e1, e2]
          have hBb : ("$ORIGIN".toList.isPrefixOf ('$' :: ("ORIGIN".toList ++ t))) = true := by
            rw [isPrefixOf_eq_true_iff]
            exact ⟨t, by simp⟩
          have hAb' : ("${ORIGIN}".toList.isPrefixOf ('$' :: ("ORIGIN".toList ++ t))) = false := by
            rw [Bool.eq_false_iff]
            intro hpre
            exact hA (isPrefixOf_eq_true_iff.mp hpre)
          rw [originSubstSpec, hAb', if_neg (by simp), hBb, if_pos rfl]
          have hdrop : ('$' :: ("ORIGIN".toList ++ t)).drop 7 = t := by simp
          rw [hdrop, ih t (by simp at hp; omega)]
        · have e1 : substAll "${ORIGIN}".toList base (c :: rest)
              = c :: substAll "${ORIGIN}".toList base rest := by
            rw [substAll, dif_neg]
            rintro ⟨-, hpre⟩
            exact hA (isPrefixOf_eq_true_iff.mp hpre)
          have e2 : substAll "$ORIGIN".toList base
              (c :: substAll "${ORIGIN}".toList base rest)
              = c :: substAll "$ORIGIN".toList base
                  (substAll "${ORIGIN}".toList base rest) := by
            rw [substAll, dif_neg]
            rintro ⟨-, hpre⟩
            rw [isPrefixOf_eq_true_iff] at hpre
            have hpre' : ('$' :: "ORIGIN".toList) <+:
                (c :: substAll "${ORIGIN}".toList base rest) := by simpa using hpre
            obtain ⟨hc, hOR⟩ := List.cons_prefix_cons.mp hpre'
            have hrefl := prefix_reflect_substAll "${ORIGIN}".toList base hbne hhead
              rest "ORIGIN".toList (by decide) (by decide) hOR
            apply hB
            have : ('$' :: "ORIGIN".toList) <+: (c :: rest) :=
              List.cons_prefix_cons.mpr ⟨hc, hrefl⟩
            simpa using this
          rw [e1, e2, ih rest (by simp at hp ⊢; omega)]
          have hAb' : ("${ORIGIN}".toList.isPrefixOf (c :: rest)) = false := by
            rw [Bool.eq_false_iff]
            intro hpre
            exact hA (isPrefixOf_eq_true_iff.mp hpre)
          have hBb' : ("$ORIGIN".toList.isPrefixOf (c :: rest)) = false := by
            rw [Bool.eq_false_iff]
            intro hpre
            exact hB (isPrefixOf_eq_true_iff.mp hpre)
          rw [originSubstSpec, hAb', if_neg (by simp), hBb', if_neg (by simp)]

/-- **C5 counterexample.** The claimed plain every-occurrence
substitution law fails for self-interfering parent directories: with
subject `ORIGIN7/app` (parent `ORIGIN7`), the sequential two-pass code
expands `$${ORIGIN}` to `ORIGIN77` — pass one rewrites the inner
`${ORIGIN}` leaving `$ORIGIN7`, which pass two rewrites again — while
plain simultaneous substitution of every token occurrence yields
`$ORIGIN7`. -/
theorem elfOrigin_self_interference_counterexample :
    parentPath "ORIGIN7/app".toList = "ORIGIN7".toList
    ∧ expandElfOrigin "$${ORIGIN}".toList "ORIGIN7/app".toList = "ORIGIN77".toList
    ∧ originSubstSpec (parentPath "ORIGIN7/app".toList) "$${ORIGIN}".toList
        = "$ORIGIN7".toList
    ∧ expandElfOrigin "$${ORIGIN}".toList "ORIGIN7/app".toList
        ≠ originSubstSpec (parentPath "ORIGIN7/app".toList) "$${ORIGIN}".toList := by
  have hpar : parentPath "ORIGIN7/app".toList = "ORIGIN7".toList := by decide
  have e1 : expandElfOrigin "$${ORIGIN}".toList "ORIGIN7/app".toList
      = "ORIGIN77".toList := by
    rw [expandElfOrigin, hpar]
    simp [substAll]
  have e2 : originSubstSpec (parentPath "ORIGIN7/app".toList) "$${ORIGIN}".toList
      = "$ORIGIN7".toList := by
    rw [hpar]
    simp [originSubstSpec]
  exact ⟨hpar, e1, e2, by rw [e1, e2]; decide⟩

/-- **C5 (amended).** References beginning with `@executable_path/`
resolve against the directory of the original input main binary
regardless of the subject being resolved; references beginning with
`@loader_path/` resolve against the subject binary's own parent
directory; and ELF `$ORIGIN` / `${ORIGIN}` tokens are replaced by plain
string substitution, every occurrence becoming the subject's parent
directory, for parent directories that are non-empty, contain no `'$'`,
and do not start with one of the characters of `$ORIGIN{}` — the
amendment the self-interference counterexample forces, since a parent
such as `ORIGIN7` splices with a preceding `'$'` kept by the first pass
into a fresh `$ORIGIN` token that the second pass also rewrites. -/
theorem referenceResolver_laws :
    (∀ (canon : List Char → List Char) (subjectBin mainExe rest : List Char),
      expandMachOToken canon ("@executable_path/".toList ++ rest) subjectBin mainExe
        = canon (pathAppend (parentPath mainExe) rest))
    ∧ (∀ (canon : List Char → List Char) (subjectBin mainExe rest : List Char),
      expandMachOToken canon ("@loader_path/".toList ++ rest) subjectBin mainExe
        = canon (pathAppend (parentPath subjectBin) rest))
    ∧ (∀ (p subject : List Char), parentPath subject ≠ [] →
        '$' ∉ parentPath subject →
        (parentPath subject).headD ' ' ∉ tokenChars →
        expandElfOrigin p subject = originSubstSpec (parentPath subject) p) := by
  refine ⟨?_, ?_, ?_⟩
  · intro canon sub mainExe rest
    rw [expandMachOToken, if_neg, if_pos (List.prefix_append _ rest)]
    · congr 1
    · intro h
      obtain ⟨t2, ht⟩ := h
      simp at ht
  · intro canon sub mainExe rest
    rw [expandMachOToken, if_pos (List.prefix_append _ rest)]
    congr 1
  · intro p subject h1 h2 h3
    rw [expandElfOrigin]
    exact twoPass_eq_originSpec (parentPath subject) h1 h2 h3 p.length p le_rfl

/-- Concrete instantiation of the resolver laws; the ELF law is
exercised at the ordinary parent directory `/home/USER`. -/
theorem referenceResolver_laws_witness :
    (expandMachOToken id ("@executable_path/".toList ++ "lib.dylib".toList)
        "/s/sub".toList "/m/main".toList
      = id (pathAppend (parentPath "/m/main".toList) "lib.dylib".toList))
    ∧ (parentPath "/home/USER/app".toList ≠ []
        ∧ '$' ∉ parentPath "/home/USER/app".toList
        ∧ (parentPath "/home/USER/app".toList).headD ' ' ∉ tokenChars)
    ∧ expandElfOrigin "$ORIGIN/lib".toList "/home/USER/app".toList
      = originSubstSpec (parentPath "/home/USER/app".toList) "$ORIGIN/lib".toList :=
  ⟨referenceResolver_laws.1 id _ _ _,
   ⟨by decide, by decide, by decide⟩,
   referenceResolver_laws.2.2 _ _ (by decide) (by decide) (by decide)⟩

/-! ## qt_paths.cpp: queryQtPaths

The Qt-query tool is an oracle `run` from query key to (stdout, exit code);
filesystem existence is an oracle `dirExists`.  The embedding also returns
the trace of query keys, in order, so that "one invocation per key" is a
statement about the model.
-/

/-- The trailing characters stripped by the `trim` lambda of qt_paths.cpp. -/
def isTrailWS (c : Char) : Bool := c = '\n' || c = '\r' || c = ' ' || c = '\t'

/-- The leading characters skipped by the `trim` lambda (note: not
newlines). -/
def isLeadWS (c : Char) : Bool := c = ' ' || c = '\t'

/-- The `trim` lambda of qt_paths.cpp lines 15-20: pop trailing
newline/CR/space/tab, then skip leading space/tab. -/
def trimQt (s : List Char) : List Char :=
  ((s.reverse.dropWhile isTrailWS).reverse).dropWhile isLeadWS

/-- The six Qt locations. -/
structure QtPathsInfo where
  qtInstallLibs : List Char
  qtInstallBins : List Char
  qtInstallPrefix : List Char
  qtInstallPlugins : List Char
  qtInstallQml : List Char
  qtInstallTranslations : List Char
deriving DecidableEq, Repr

/-- One query step: the trimmed stdout on exit code 0, else the
default-constructed (empty) path. -/
def queryOne (run : String → (List Char × Int)) (key : String) : List Char :=
  if (run key).2 = 0 then trimQt (run key).1 else []

/-- Embedding of `cdqt::queryQtPaths` (qt_paths.cpp lines 9-42) together
with the trace of query keys issued.  Only the qml, plugins and
translations entries are existence-validated (lines 37-39); libs, bins and
prefix are recorded as returned. -/
def queryQtPaths (run : String → (List Char × Int)) (dirExists : List Char → Bool) :
    QtPathsInfo × List String :=
  let libs := queryOne run "QT_INSTALL_LIBS"
  let bins := queryOne run "QT_INSTALL_BINS"
  let pfx := queryOne run "QT_INSTALL_PREFIX"
  let plugins := queryOne run "QT_INSTALL_PLUGINS"
  let qml := queryOne run "QT_INSTALL_QML"
  let trans := queryOne run "QT_INSTALL_TRANSLATIONS"
  let qml' := if ¬qml.isEmpty ∧ ¬dirExists qml then [] else qml
  let plugins' := if ¬plugins.isEmpty ∧ ¬dirExists plugins then [] else plugins
  let trans' := if ¬trans.isEmpty ∧ ¬dirExists trans then [] else trans
  (⟨libs, bins, pfx, plugins', qml', trans'⟩,
   ["QT_INSTALL_LIBS", "QT_INSTALL_BINS", "QT_INSTALL_PREFIX", "QT_INSTALL_PLUGINS",
    "QT_INSTALL_QML", "QT_INSTALL_TRANSLATIONS"])

/-- **C6, counterexample.** With a query tool answering `/nope` (exit 0)
for every key and a filesystem on which no directory exists, the libs
entry is recorded as `/nope`, not as absent — the existence validation
covers only qml, plugins and translations. -/
theorem queryQtPaths_libs_not_validated_counterexample :
    (queryQtPaths (fun _ => ("/nope".toList, 0)) (fun _ => false)).1.qtInstallLibs
      = "/nope".toList ∧
    (fun (_ : List Char) => false) "/nope".toList = false ∧
    "/nope".toList ≠ [] := by
  refine ⟨by decide, rfl, by decide⟩

/-- **C6, amended.** `queryQtPaths` issues exactly one query per location
key, six keys in total; each answer is trimmed of whitespace on exit code
0 (and recorded as absent on non-zero exit); the qml, plugins and
translations entries are additionally recorded as absent whenever the
queried directory does not exist, while libs, bins and prefix are kept as
returned without an existence check. -/
theorem queryQtPaths_characterization (run : String → (List Char × Int))
    (dirExists : List Char → Bool) :
    (queryQtPaths run dirExists).2 =
      ["QT_INSTALL_LIBS", "QT_INSTALL_BINS", "QT_INSTALL_PREFIX", "QT_INSTALL_PLUGINS",
       "QT_INSTALL_QML", "QT_INSTALL_TRANSLATIONS"]
    ∧ (queryQtPaths run dirExists).1.qtInstallLibs = queryOne run "QT_INSTALL_LIBS"
    ∧ (queryQtPaths run dirExists).1.qtInstallBins = queryOne run "QT_INSTALL_BINS"
    ∧ (queryQtPaths run dirExists).1.qtInstallPrefix = queryOne run "QT_INSTALL_PREFIX"
    ∧ ((queryQtPaths run dirExists).1.qtInstallQml ≠ [] →
        dirExists (queryOne run "QT_INSTALL_QML") = true ∧
        (queryQtPaths run dirExists).1.qtInstallQml = queryOne run "QT_INSTALL_QML")
    ∧ ((queryQtPaths run dirExists).1.qtInstallPlugins ≠ [] →
        dirExists (queryOne run "QT_INSTALL_PLUGINS") = true ∧
        (queryQtPaths run dirExists).1.qtInstallPlugins = queryOne run "QT_INSTALL_PLUGINS")
    ∧ ((queryQtPaths run dirExists).1.qtInstallTranslations ≠ [] →
        dirExists (queryOne run "QT_INSTALL_TRANSLATIONS") = true ∧
        (queryQtPaths run dirExists).1.qtInstallTranslations
          = queryOne run "QT_INSTALL_TRANSLATIONS") := by
  refine ⟨by rfl, by rfl, by rfl, by rfl, ?_, ?_, ?_⟩ <;>
  · intro hne
    simp only [queryQtPaths] at hne ⊢
    split at hne
    · exact absurd rfl hne
    · rename_i hcond
      rw [if_neg hcond]
      rw [Decidable.not_and_iff_or_not] at hcond
      rcases hcond with hcond | hcond
      · rw [Decidable.not_not] at hcond
        exact absurd (by simpa using hcond) hne
      · exact ⟨by simpa using hcond, rfl⟩

/-- Concrete instantiation of the amended query characterization. -/
theorem queryQtPaths_characterization_witness :
    ((queryQtPaths (fun _ => ("/q ".toList, 0)) (fun _ => true)).1.qtInstallQml ≠ [] →
      (fun (_ : List Char) => true)
          (queryOne (fun _ => ("/q ".toList, 0)) "QT_INSTALL_QML") = true ∧
      (queryQtPaths (fun _ => ("/q ".toList, 0)) (fun _ => true)).1.qtInstallQml
        = queryOne (fun _ => ("/q ".toList, 0)) "QT_INSTALL_QML") ∧
    (queryQtPaths (fun _ => ("/q ".toList, 0)) (fun _ => true)).1.qtInstallQml = "/q".toList :=
  ⟨(queryQtPaths_characterization (fun _ => ("/q ".toList, 0)) (fun _ => true)).2.2.2.2.1,
   by rfl⟩

/-! ## translations.cpp: language detection and catalog deployment

The filesystem is an oracle: `files` is the list of regular-file basenames
in the Qt translations directory, and `lconvertOk cats out` tells whether
the concatenator invocation exited 0 and produced `out`.  The observable
effect is the list of per-language actions.
-/

/-- The `parse` lambda of `detectLanguagesFromEnv` (translations.cpp lines
14-21): empty stays empty, otherwise keep up to the first of `_ . @ space`
(via `find_first_of`) and lowercase. -/
def parseLangToken (s : List Char) : List Char :=
  if s.isEmpty then []
  else
    lowerStr (match s.findIdx? (fun c => "_.@ ".toList.contains c) with
      | none => s
      | some e => s.take e)

/-- Embedding of `detectLanguagesFromEnv` (translations.cpp lines 12-29),
the environment entering as the values of `LC_ALL` and `LANG`. -/
def detectLanguagesFromEnv (lcAll lang : List Char) : List (List Char) :=
  let pick := if ¬lcAll.isEmpty then lcAll else lang
  let one := parseLangToken pick
  let langs := if ¬one.isEmpty then [one] else []
  if "en".toList ∈ langs then langs else langs ++ ["en".toList]

/-- Embedding of `computeLanguages` (translations.cpp lines 31-34). -/
def computeLanguages (cfg : List (List Char)) (lcAll lang : List Char) : List (List Char) :=
  if ¬cfg.isEmpty then cfg else detectLanguagesFromEnv lcAll lang

/-- The per-language suffix `_<lang>.qm`. -/
def catalogSuffix (lg : List Char) : List Char := '_' :: (lg ++ ".qm".toList)

/-- Embedding of `listModuleCatalogsForLang` (translations.cpp lines
42-55): regular files whose name is strictly longer than the suffix and
ends with it (`name.rfind(suffix) == name.size() - suffix.size()`). -/
def listModuleCatalogsForLang (files : List (List Char)) (lg : List Char) :
    List (List Char) :=
  files.filter fun name =>
    decide ((catalogSuffix lg).length < name.length) && decide (catalogSuffix lg <:+ name)

/-- The observable per-language outcomes of `deployTranslations`. -/
inductive TransAction where
  | aggregated (lg : List Char) (catalogs : List (List Char))
  | copiedEach (lg : List Char) (catalogs : List (List Char))
deriving DecidableEq, Repr

/-- The aggregated output name `qt_<lang>.qm`. -/
def aggName (lg : List Char) : List Char := "qt_".toList ++ lg ++ ".qm".toList

/-- Embedding of `deployTranslations` (translations.cpp lines 75-91): for
each computed language with a non-empty catalog list, aggregate via the
concatenator, falling back to copying each catalog on failure. -/
def deployTranslations (qtTransDirAbsent : Bool) (files : List (List Char))
    (cfg : List (List Char)) (lcAll lang : List Char)
    (lconvertOk : List (List Char) → List Char → Bool) : List TransAction :=
  if qtTransDirAbsent then []
  else
    (computeLanguages cfg lcAll lang).filterMap fun lg =>
      let catalogs := listModuleCatalogsForLang files lg
      if catalogs.isEmpty then none
      else if lconvertOk catalogs (aggName lg) then some (.aggregated lg catalogs)
      else some (.copiedEach lg catalogs)

/-- Claim-side language derivation, phrased with `takeWhile` as "keep the
leading identifier before the first of `_`, `.`, `@`, or space". -/
def envLanguagesSpec (lcAll lang : List Char) : List (List Char) :=
  let pick := if lcAll ≠ [] then lcAll else lang
  let one := lowerStr (pick.takeWhile (fun c => !"_.@ ".toList.contains c))
  let langs := if one ≠ [] then [one] else []
  if "en".toList ∈ langs then langs else langs ++ ["en".toList]

theorem take_findIdx_eq_takeWhile (p : Char → Bool) :
    ∀ s : List Char,
      (match s.findIdx? p with
        | none => s
        | some e => s.take e) = s.takeWhile (fun c => !p c) := by
  intro s
  induction s with
  | nil => simp
  | cons c rest ih =>
    rw [List.findIdx?_cons]
    by_cases hp : p c = true
    · simp [hp, List.takeWhile_cons]
    · have hp' : p c = false := by simpa using hp
      simp only [hp', Bool.false_eq_true, if_false, List.takeWhile_cons, Bool.not_false,
        if_true]
      cases hfi : rest.findIdx? p with
      | none => simpa [hfi] using congrArg (c :: ·) (by simpa [hfi] using ih)
      | some e => simpa [hfi] using congrArg (c :: ·) (by simpa [hfi] using ih)

/-- **C7, counterexample.** A catalog named exactly `_en.qm` ends in
`_en.qm`, yet the code requires the name to be strictly longer than the
suffix, so no aggregation (and no fallback copy) happens for it: the
deployment produces no action although a catalog ending in `_<lang>.qm`
exists. -/
theorem deployTranslations_bare_suffix_counterexample :
    (catalogSuffix "en".toList <:+ "_en.qm".toList) ∧
    deployTranslations false ["_en.qm".toList] ["en".toList] [] []
        (fun _ _ => true) = [] := by
  constructor
  · decide
  · rfl

/-- **C7, amended.** The deployed language set equals the configuration's
list when non-empty and otherwise is derived from `LC_ALL`/`LANG` by
keeping the leading identifier, lowercasing, and appending `en` when
missing; and an aggregation action for a language occurs exactly when the
language is in the computed set and some catalog PROPERLY ends in
`_<lang>.qm` (strictly longer than the suffix) and the concatenator
succeeds, the fallback verbatim-copy action occurring in the same
situation when the concatenator fails. -/
theorem deployTranslations_characterization :
    (∀ (cfg : List (List Char)) (l1 l2 : List Char), cfg ≠ [] →
      computeLanguages cfg l1 l2 = cfg)
    ∧ (∀ l1 l2 : List Char, computeLanguages [] l1 l2 = envLanguagesSpec l1 l2)
    ∧ (∀ l1 l2 : List Char, "en".toList ∈ computeLanguages [] l1 l2)
    ∧ (∀ (files cfg : List (List Char)) (l1 l2 : List Char)
        (ok : List (List Char) → List Char → Bool) (lg : List Char)
        (cs : List (List Char)),
        (TransAction.aggregated lg cs ∈ deployTranslations false files cfg l1 l2 ok ↔
          lg ∈ computeLanguages cfg l1 l2 ∧ cs = listModuleCatalogsForLang files lg ∧
            cs ≠ [] ∧ ok cs (aggName lg) = true)
        ∧ (TransAction.copiedEach lg cs ∈ deployTranslations false files cfg l1 l2 ok ↔
          lg ∈ computeLanguages cfg l1 l2 ∧ cs = listModuleCatalogsForLang files lg ∧
            cs ≠ [] ∧ ok cs (aggName lg) = false)) := by
  refine ⟨?_, ?_, ?_, ?_⟩
  · intro cfg l1 l2 hne
    rw [computeLanguages, if_pos (by simpa using hne)]
  · intro l1 l2
    rw [computeLanguages, if_neg (by simp)]
    rw [detectLanguagesFromEnv, envLanguagesSpec]
    have hone : parseLangToken (if ¬l1.isEmpty then l1 else l2)
        = lowerStr ((if l1 ≠ [] then l1 else l2).takeWhile
            (fun c => !"_.@ ".toList.contains c)) := by
      have hpick : (if ¬l1.isEmpty then l1 else l2) = (if l1 ≠ [] then l1 else l2) := by
        by_cases h : l1 = [] <;> simp [h]
      rw [parseLangToken, hpick]
      by_cases h : (if l1 ≠ [] then l1 else l2) = []
      · rw [h]; simp [lowerStr]
      · rw [if_neg (by simpa using h), take_findIdx_eq_takeWhile]
    simp only [List.isEmpty_iff] at hone ⊢
    rw [hone]
  · intro l1 l2
    rw [computeLanguages, if_neg (by simp), detectLanguagesFromEnv]
    have key : ∀ langs : List (List Char),
        "en".toList ∈ (if "en".toList ∈ langs then langs else langs ++ ["en".toList]) := by
      intro langs
      by_cases h : "en".toList ∈ langs
      · rw [if_pos h]; exact h
      · rw [if_neg h]; exact List.mem_append_right _ (by simp)
    exact key _
  · intro files cfg l1 l2 ok lg cs
    constructor
    · rw [deployTranslations, if_neg (by simp)]
      constructor
      · intro hmem
        obtain ⟨a, ha, hfa⟩ := List.mem_filterMap.mp hmem
        by_cases hempty : (listModuleCatalogsForLang files a).isEmpty
        · simp [hempty] at hfa
        · by_cases hok : ok (listModuleCatalogsForLang files a) (aggName a) = true
          · simp only [hempty, Bool.false_eq_true, if_false, hok, if_true] at hfa
            injection hfa with hfa
            injection hfa with h1 h2
            subst h1; subst h2
            exact ⟨ha, rfl, by simpa using hempty, hok⟩
          · simp only [hempty, Bool.false_eq_true, if_false, hok, if_false] at hfa
            injection hfa with hfa
            cases hfa
      · rintro ⟨hmem, rfl, hne, hok⟩
        refine List.mem_filterMap.mpr ⟨lg, hmem, ?_⟩
        dsimp only
        rw [if_neg (by simpa using hne), if_pos hok]
    · rw [deployTranslations, if_neg (by simp)]
      constructor
      · intro hmem
        obtain ⟨a, ha, hfa⟩ := List.mem_filterMap.mp hmem
        by_cases hempty : (listModuleCatalogsForLang files a).isEmpty
        · simp [hempty] at hfa
        · by_cases hok : ok (listModuleCatalogsForLang files a) (aggName a) = true
          · simp only [hempty, Bool.false_eq_true, if_false, hok, if_true] at hfa
            injection hfa with hfa
            cases hfa
          · simp only [hempty, Bool.false_eq_true, if_false, hok] at hfa
            injection hfa with hfa
            injection hfa with h1 h2
            subst h1; subst h2
            exact ⟨ha, rfl, by simpa using hempty, by simpa using hok⟩
      · rintro ⟨hmem, rfl, hne, hok⟩
        refine List.mem_filterMap.mpr ⟨lg, hmem, ?_⟩
        dsimp only
        rw [if_neg (by simpa using hne), if_neg (by simp [hok])]

/-- Concrete instantiation: with `LC_ALL = fr_FR.UTF-8`, language `fr` gets
its two catalogs aggregated. -/
theorem deployTranslations_characterization_witness :
    computeLanguages [] "fr_FR.UTF-8".toList [] = ["fr".toList, "en".toList] ∧
    (TransAction.aggregated "fr".toList ["qtbase_fr.qm".toList, "qtdeclarative_fr.qm".toList]
      ∈ deployTranslations false ["qtbase_fr.qm".toList, "qtdeclarative_fr.qm".toList]
          [] "fr_FR.UTF-8".toList [] (fun _ _ => true)) :=
  ⟨by decide,
   (deployTranslations_characterization.2.2.2 ["qtbase_fr.qm".toList,
      "qtdeclarative_fr.qm".toList] [] "fr_FR.UTF-8".toList [] (fun _ _ => true)
      "fr".toList ["qtbase_fr.qm".toList, "qtdeclarative_fr.qm".toList]).1.mpr
    ⟨by decide, by decide, by decide, rfl⟩⟩

/-! ## fs_ops.cpp: copyFileOverwrite

The filesystem is a map from paths to file records; `copy_file` stamps the
destination with a fresh last-write time supplied as the oracle `newTime`.
`file_size`/`last_write_time` succeed exactly on mapped paths, and
`copy_file` succeeds exactly when the source is a mapped regular file.
-/

/-- A file's observable metadata and content. -/
structure FileRec where
  isRegular : Bool
  size : Nat
  mtime : Int
  bytes : List Nat
  ownerWrite : Bool
deriving DecidableEq, Repr

/-- A filesystem state. -/
def FS : Type := List Char → Option FileRec

/-- Embedding of `cdqt::copyFileOverwrite` (fs_ops.cpp lines 50-77):
skip when the destination is a regular file of the source's size with
last-write time at least the source's; otherwise overwrite-copy and then
add owner-write permission to the destination.  Returns the new state and
the C++ return value. -/
def copyFileOverwrite (fs : FS) (src dst : List Char) (newTime : Int) : FS × Bool :=
  let skip : Bool :=
    match fs dst, fs src with
    | some d, some s => d.isRegular && (s.size == d.size) && decide (s.mtime ≤ d.mtime)
    | _, _ => false
  if skip then (fs, true)
  else
    let ok : Bool := match fs src with
      | some s => s.isRegular
      | none => false
    let fs1 : FS :=
      match fs src with
      | some s =>
        if s.isRegular then
          fun p => if p = dst then some ⟨true, s.size, newTime, s.bytes, false⟩ else fs p
        else fs
      | none => fs
    let fs2 : FS := fun p =>
      if p = dst then (fs1 dst).map (fun r => { r with ownerWrite := true }) else fs1 p
    (fs2, ok)

/-- The claim's skip condition: the destination exists as a regular file
with size identical to the source's and last-write time at least the
source's. -/
def SkipCond (fs : FS) (src dst : List Char) : Prop :=
  ∃ d s, fs dst = some d ∧ d.isRegular = true ∧ fs src = some s ∧
    s.size = d.size ∧ s.mtime ≤ d.mtime

/-- **C8.** `copyFileOverwrite` skips the write — returning success with
the destination's bytes, size and last-write time (indeed the whole
filesystem) unchanged — exactly when the destination exists as a regular
file of the source's size whose last-write time is at least the source's;
when it instead copies a regular source it afterwards adds owner-write
permission to the destination, and a missing or irregular source yields
failure with no new destination content. -/
theorem copyFileOverwrite_spec (fs : FS) (src dst : List Char) (newTime : Int) :
    (SkipCond fs src dst → copyFileOverwrite fs src dst newTime = (fs, true))
    ∧ (¬SkipCond fs src dst → ∀ s, fs src = some s → s.isRegular = true →
        (copyFileOverwrite fs src dst newTime).2 = true ∧
        (copyFileOverwrite fs src dst newTime).1 dst
          = some ⟨true, s.size, newTime, s.bytes, true⟩)
    ∧ (¬SkipCond fs src dst → (∀ s, fs src = some s → s.isRegular = false) →
        (copyFileOverwrite fs src dst newTime).2 = false)
    ∧ (∀ p, p ≠ dst → (copyFileOverwrite fs src dst newTime).1 p = fs p) := by
  have hskip_iff : (match fs dst, fs src with
      | some d, some s => d.isRegular && (s.size == d.size) && decide (s.mtime ≤ d.mtime)
      | _, _ => false) = true ↔ SkipCond fs src dst := by
    cases hd : fs dst with
    | none => simp [SkipCond, hd]
    | some d =>
      cases hs : fs src with
      | none => simp [SkipCond, hd, hs]
      | some s =>
        simp only [Bool.and_eq_true, beq_iff_eq, decide_eq_true_eq, SkipCond, hd, hs]
        constructor
        · rintro ⟨⟨h1, h2⟩, h3⟩
          exact ⟨d, s, rfl, h1, rfl, h2, h3⟩
        · rintro ⟨d', s', hd', h1, hs', h2, h3⟩
          injection hd' with hd'
          injection hs' with hs'
          subst hd'; subst hs'
          exact ⟨⟨h1, h2⟩, h3⟩
  refine ⟨?_, ?_, ?_, ?_⟩
  · intro hc
    rw [copyFileOverwrite, if_pos (hskip_iff.mpr hc)]
  · intro hc s hs hreg
    rw [copyFileOverwrite, if_neg (fun h => hc (hskip_iff.mp h))]
    refine ⟨by simp [hs, hreg], ?_⟩
    simp [hs, hreg]
  · intro hc hirr
    rw [copyFileOverwrite, if_neg (fun h => hc (hskip_iff.mp h))]
    cases hs : fs src with
    | none => simp [hs]
    | some s => simp [hs, hirr s hs]
  · intro p hp
    rw [copyFileOverwrite]
    split
    · rfl
    · simp only [if_neg hp]
      cases hs : fs src with
      | none => rfl
      | some s =>
        by_cases hreg : s.isRegular = true
        · simp [hs, hreg, hp]
        · simp only [hs]
          rw [if_neg (by simpa using hreg)]

/-- Concrete instantiation: an up-to-date destination is skipped; a fresh
copy gets owner-write permission. -/
theorem copyFileOverwrite_spec_witness :
    copyFileOverwrite
        (fun p => if p = "/s".toList then some ⟨true, 3, 5, [1, 2, 3], false⟩
          else if p = "/d".toList then some ⟨true, 3, 7, [9, 9, 9], false⟩ else none)
        "/s".toList "/d".toList 11
      = ((fun p => if p = "/s".toList then some ⟨true, 3, 5, [1, 2, 3], false⟩
          else if p = "/d".toList then some ⟨true, 3, 7, [9, 9, 9], false⟩ else none), true)
    ∧ (copyFileOverwrite
        (fun p => if p = "/s".toList then some ⟨true, 3, 5, [1, 2, 3], false⟩ else none)
        "/s".toList "/d".toList 11).1 "/d".toList
      = some ⟨true, 3, 11, [1, 2, 3], true⟩ :=
  ⟨(copyFileOverwrite_spec _ "/s".toList "/d".toList 11).1
      ⟨⟨true, 3, 7, [9, 9, 9], false⟩, ⟨true, 3, 5, [1, 2, 3], false⟩,
        by decide, rfl, by decide, rfl, by decide⟩,
   ((copyFileOverwrite_spec _ "/s".toList "/d".toList 11).2.1
      (by
        rintro ⟨d, s, hd, -, -, -, -⟩
        rw [show (fun p => if p = "/s".toList then
            some (⟨true, 3, 5, [1, 2, 3], false⟩ : FileRec) else none) "/d".toList
          = none by decide] at hd
        cases hd)
      ⟨true, 3, 5, [1, 2, 3], false⟩ (by decide) rfl).2⟩

/-! ## pe_patch.cpp: patchQtCoreDllPrefixInfixPE

The file is a byte list.  Each of the six key/encoding passes scans for
occurrences left to right (`std::search` from `pos`), locates the value's
zero terminator (single NUL for 8-bit, aligned double NUL for UTF-16LE),
and overwrites value bytes with the replacement followed by zero fill when
(and only when) they differ.  `needChange`-plus-overwrite is translated as
one comparison/write of the whole target slice `rep ++ zeros`, which is
byte-for-byte the C++ loop's effect.
-/

/-- The two string encodings of the patcher. -/
inductive Enc where
  | ascii | utf16
deriving DecidableEq, Repr

/-- `toUtf16LeBytes` (pe_patch.cpp lines 56-64) for ASCII keys. -/
def utf16Bytes (s : List Nat) : List Nat := s.flatMap (fun b => [b, 0])

/-- Fuel-driven body of the ASCII terminator scan (fuel only bounds the
iteration count; the wrapper passes enough for the loop to reach its
C++ exit condition). -/
def scanAGo (buf : List Nat) : Nat → Nat → Nat
  | 0, i => i
  | fuel + 1, i =>
    if i < buf.length then
      if byteAt buf i = 0 then i else scanAGo buf fuel (i + 1)
    else i

/-- The ASCII terminator scan of `patchAsciiKey` (line 31): advance while
in bounds and the byte is non-zero. -/
def scanA (buf : List Nat) (i : Nat) : Nat := scanAGo buf (buf.length + 1) i

/-- Fuel-driven body of the UTF-16 terminator scan. -/
def scanUGo (buf : List Nat) : Nat → Nat → Nat
  | 0, i => i
  | fuel + 1, i =>
    if i + 1 < buf.length then
      if byteAt buf i = 0 ∧ byteAt buf (i + 1) = 0 then i else scanUGo buf fuel (i + 2)
    else i

/-- The UTF-16 terminator scan of `patchUtf16Key` (line 78): advance by
two while `scan + 1 < size` and the byte pair is not `00 00`. -/
def scanU (buf : List Nat) (i : Nat) : Nat := scanUGo buf (buf.length + 1) i

/-- Terminator scan selection per encoding. -/
def scanFor : Enc → List Nat → Nat → Nat
  | .ascii => scanA
  | .utf16 => scanU

/-- Fuel-driven body of the forward search. -/
def findFromGo (buf pat : List Nat) : Nat → Nat → Option Nat
  | 0, _ => none
  | fuel + 1, pos =>
    if pos + pat.length ≤ buf.length then
      if (buf.drop pos).take pat.length = pat then some pos
      else findFromGo buf pat fuel (pos + 1)
    else none

/-- `std::search(buf.begin() + pos, buf.end(), pat...)`: index of the
first occurrence of `pat` at or after `pos`. -/
def findFrom (buf pat : List Nat) (pos : Nat) : Option Nat :=
  findFromGo buf pat (buf.length + 1) pos

/-- In-place overwrite of `content.length` bytes starting at `vs`. -/
def writeAt (buf : List Nat) (vs : Nat) (content : List Nat) : List Nat :=
  buf.take vs ++ content ++ buf.drop (vs + content.length)

/-- One key's patch loop (the `while (true)` of pe_patch.cpp lines 24-52 /
71-99), with explicit fuel; the wrapper supplies `buf.length + 1` fuel,
which the loop never exhausts because `pos` strictly increases and stays
at most `buf.length`. -/
def patchKeyLoop (enc : Enc) (key rep : List Nat) :
    Nat → List Nat → Bool → Nat → List Nat × Bool
  | 0, buf, changed, _ => (buf, changed)
  | fuel + 1, buf, changed, pos =>
    match findFrom buf key pos with
    | none => (buf, changed)
    | some p =>
      let valStart := p + key.length
      let scan := scanFor enc buf valStart
      if scan ≤ valStart then
        patchKeyLoop enc key rep fuel buf changed (p + key.length)
      else
        if rep.length ≤ scan - valStart then
          let target := rep ++ List.replicate (scan - valStart - rep.length) 0
          if (buf.drop valStart).take (scan - valStart) ≠ target then
            patchKeyLoop enc key rep fuel (writeAt buf valStart target) true scan
          else
            patchKeyLoop enc key rep fuel buf changed scan
        else
          patchKeyLoop enc key rep fuel buf changed scan

/-- One full `patchAsciiKey` / `patchUtf16Key` pass. -/
def patchKey (enc : Enc) (key rep buf : List Nat) : List Nat × Bool :=
  patchKeyLoop enc key rep (buf.length + 1) buf false 0

/-- A pass descriptor: encoding, key bytes, replacement bytes. -/
structure Combo where
  enc : Enc
  key : List Nat
  rep : List Nat
deriving DecidableEq, Repr

/-- Sequence the passes, OR-ing the changed flags (the
`any = patch(...) || any` accumulation). -/
def patchSeq : List Combo → List Nat → List Nat × Bool
  | [], buf => (buf, false)
  | c :: rest, buf =>
    let (b1, ch1) := patchKey c.enc c.key c.rep buf
    let (b2, ch2) := patchSeq rest b1
    (b2, ch1 || ch2)

/-- Byte values of an ASCII string. -/
def asciiBytes (s : String) : List Nat := s.toList.map Char.toNat

/-- The six passes of pe_patch.cpp lines 104-109, in source order. -/
def sixCombos : List Combo :=
  [⟨.ascii, asciiBytes "qt_prfxpath=", [0x2E]⟩,
   ⟨.ascii, asciiBytes "qt_epfxpath=", [0x2E]⟩,
   ⟨.ascii, asciiBytes "qt_hpfxpath=", [0x2E]⟩,
   ⟨.utf16, utf16Bytes (asciiBytes "qt_prfxpath="), [0x2E, 0]⟩,
   ⟨.utf16, utf16Bytes (asciiBytes "qt_epfxpath="), [0x2E, 0]⟩,
   ⟨.utf16, utf16Bytes (asciiBytes "qt_hpfxpath="), [0x2E, 0]⟩]

/-- Embedding of `cdqt::patchQtCoreDllPrefixInfixPE` (pe_patch.cpp lines
11-117) on the in-memory byte list: the empty file returns `false`
untouched (line 19), otherwise the six passes run in order and the file is
rewritten (same bytes object) exactly when some pass changed a byte. -/
def patchQtCoreDllPrefixInfixPE (buf : List Nat) : List Nat × Bool :=
  if buf.isEmpty then (buf, false) else patchSeq sixCombos buf

/-- `pat` occurs at `p` in `buf`. -/
def occursAt (buf pat : List Nat) (p : Nat) : Prop :=
  p + pat.length ≤ buf.length ∧ (buf.drop p).take pat.length = pat

instance (buf pat : List Nat) (p : Nat) : Decidable (occursAt buf pat p) := by
  unfold occursAt; infer_instance

/-- Start of the value of an occurrence at `p`. -/
def valStartOf (key : List Nat) (p : Nat) : Nat := p + key.length

/-- The value's terminator position (end of the occurrence's extent). -/
def scanEndOf (c : Combo) (buf : List Nat) (p : Nat) : Nat :=
  scanFor c.enc buf (valStartOf c.key p)

/-- The bytes written into a value of length `n` (well-defined when
`c.rep.length ≤ n`). -/
def targetFor (c : Combo) (n : Nat) : List Nat :=
  c.rep ++ List.replicate (n - c.rep.length) 0

/-- The amended claim's precondition: the extents (key plus value run) of
all occurrences of the six patterns in the original file are pairwise
disjoint.  (Occurrence starts are below the length, so the bounded
quantifiers lose nothing and keep the predicate decidable.) -/
def DisjointExtents (combos : List Combo) (buf : List Nat) : Prop :=
  ∀ c1 ∈ combos, ∀ c2 ∈ combos, ∀ p1, p1 < buf.length → ∀ p2, p2 < buf.length →
    occursAt buf c1.key p1 → occursAt buf c2.key p2 →
    (c1 = c2 ∧ p1 = p2) ∨ scanEndOf c1 buf p1 ≤ p2 ∨ scanEndOf c2 buf p2 ≤ p1

instance (combos : List Combo) (buf : List Nat) : Decidable (DisjointExtents combos buf) := by
  unfold DisjointExtents
  infer_instance

theorem getD_take_lt (l : List Nat) (n i d : Nat) (h : i < n) :
    (l.take n).getD i d = l.getD i d := by
  unfold List.getD
  rw [List.get?_eq_getElem?, List.get?_eq_getElem?, List.getElem?_take_of_lt h]

theorem getD_drop (l : List Nat) (n i d : Nat) :
    (l.drop n).getD i d = l.getD (n + i) d := by
  unfold List.getD
  rw [List.get?_eq_getElem?, List.get?_eq_getElem?, List.getElem?_drop]

theorem slice_getD (buf : List Nat) (p n j : Nat) (h : j < n) :
    ((buf.drop p).take n).getD j 0 = byteAt buf (p + j) := by
  rw [getD_take_lt _ _ _ _ h, getD_drop]
  rfl

theorem writeAt_length {buf content : List Nat} {vs : Nat}
    (h : vs + content.length ≤ buf.length) :
    (writeAt buf vs content).length = buf.length := by
  unfold writeAt
  simp only [List.length_append, List.length_take, List.length_drop]
  omega

theorem byteAt_writeAt_lt {buf content : List Nat} {vs i : Nat}
    (hi : i < vs) (hb : vs ≤ buf.length) :
    byteAt (writeAt buf vs content) i = byteAt buf i := by
  unfold writeAt byteAt
  rw [List.getD_append _ _ _ _ (by simp; omega), List.getD_append _ _ _ _ (by simp; omega),
    getD_take_lt _ _ _ _ hi]

theorem byteAt_writeAt_inside {buf content : List Nat} {vs i : Nat}
    (h1 : vs ≤ i) (h2 : i < vs + content.length) (hb : vs ≤ buf.length) :
    byteAt (writeAt buf vs content) i = content.getD (i - vs) 0 := by
  unfold writeAt byteAt
  have ht : (buf.take vs).length = vs := by simp; omega
  rw [List.getD_append _ _ _ _ (by simp; omega),
    List.getD_append_right _ _ _ _ (by rw [ht]; omega), ht]

theorem byteAt_writeAt_ge {buf content : List Nat} {vs i : Nat}
    (h1 : vs + content.length ≤ i) (hb : vs + content.length ≤ buf.length) :
    byteAt (writeAt buf vs content) i = byteAt buf i := by
  unfold writeAt byteAt
  have hl : (buf.take vs ++ content).length = vs + content.length := by simp; omega
  rw [List.getD_append_right _ _ _ _ (by rw [hl]; omega), hl, getD_drop]
  congr 1
  omega

theorem occursAt_iff (buf pat : List Nat) (p : Nat) :
    occursAt buf pat p ↔
      p + pat.length ≤ buf.length ∧ ∀ j, j < pat.length → byteAt buf (p + j) = pat.getD j 0 := by
  unfold occursAt
  constructor
  · rintro ⟨hb, hsl⟩
    refine ⟨hb, fun j hj => ?_⟩
    rw [← slice_getD buf p pat.length j hj, hsl]
  · rintro ⟨hb, hpt⟩
    refine ⟨hb, ?_⟩
    apply List.ext_getElem
    · simp; omega
    · intro j hj1 hj2
      rw [← List.getD_eq_getElem _ 0 hj1, ← List.getD_eq_getElem _ 0 hj2,
        slice_getD buf p pat.length j (by simpa using hj2), hpt j (by simpa using hj2)]

/-- Characterization of the ASCII terminator scan. -/
def IsScanA (buf : List Nat) (i r : Nat) : Prop :=
  i ≤ r ∧ r ≤ buf.length ∧ (∀ j, i ≤ j → j < r → byteAt buf j ≠ 0) ∧
    (r < buf.length → byteAt buf r = 0)

theorem scanAGo_isScanA (buf : List Nat) :
    ∀ fuel i, i ≤ buf.length → buf.length ≤ fuel + i → IsScanA buf i (scanAGo buf fuel i) := by
  intro fuel
  induction fuel with
  | zero =>
    intro i h1 h2
    have hi : i = buf.length := by omega
    rw [show scanAGo buf 0 i = i from rfl]
    exact ⟨le_refl _, by omega, fun j hj1 hj2 => by omega, fun h => absurd h (by omega)⟩
  | succ fuel ih =>
    intro i h1 h2
    rw [scanAGo]
    by_cases hlt : i < buf.length
    · rw [if_pos hlt]
      by_cases hz : byteAt buf i = 0
      · rw [if_pos hz]
        exact ⟨le_refl _, by omega, fun j hj1 hj2 => by omega, fun _ => hz⟩
      · rw [if_neg hz]
        obtain ⟨g1, g2, g3, g4⟩ := ih (i + 1) (by omega) (by omega)
        refine ⟨by omega, g2, fun j hj1 hj2 => ?_, g4⟩
        rcases Nat.eq_or_lt_of_le hj1 with rfl | hj1'
        · exact hz
        · exact g3 j (by omega) hj2
    · rw [if_neg hlt]
      exact ⟨le_refl _, by omega, fun j hj1 hj2 => by omega, fun h => by omega⟩

theorem scanA_isScanA {buf : List Nat} {i : Nat} (h : i ≤ buf.length) :
    IsScanA buf i (scanA buf i) :=
  scanAGo_isScanA buf (buf.length + 1) i h (by omega)

theorem IsScanA_unique {buf : List Nat} {i r1 r2 : Nat}
    (h1 : IsScanA buf i r1) (h2 : IsScanA buf i r2) : r1 = r2 := by
  obtain ⟨a1, a2, a3, a4⟩ := h1
  obtain ⟨b1, b2, b3, b4⟩ := h2
  by_contra hne
  rcases Nat.lt_or_ge r1 r2 with hlt | hge
  · exact (b3 r1 a1 hlt) (a4 (by omega))
  · have hlt : r2 < r1 := by omega
    exact (a3 r2 b1 hlt) (b4 (by omega))

theorem scanA_congr {buf b : List Nat} {i : Nat} (hlen : b.length = buf.length)
    (hi : i ≤ buf.length)
    (hagree : ∀ j, i ≤ j → j ≤ scanA buf i → byteAt b j = byteAt buf j) :
    scanA b i = scanA buf i := by
  obtain ⟨a1, a2, a3, a4⟩ := scanA_isScanA hi
  have htrans : IsScanA b i (scanA buf i) := by
    refine ⟨a1, by omega, fun j hj1 hj2 => ?_, fun h => ?_⟩
    · rw [hagree j hj1 (by omega)]
      exact a3 j hj1 hj2
    · rw [hagree _ a1 (le_refl _)]
      exact a4 (by omega)
  exact IsScanA_unique (scanA_isScanA (by omega)) htrans

/-- Characterization of the UTF-16 terminator scan. -/
def IsScanU (buf : List Nat) (i r : Nat) : Prop :=
  i ≤ r ∧ (r - i) % 2 = 0 ∧ r ≤ buf.length + 1 ∧
    (∀ j, i ≤ j → j < r → (j - i) % 2 = 0 →
      ¬(byteAt buf j = 0 ∧ byteAt buf (j + 1) = 0) ∧ j + 1 < buf.length) ∧
    (r + 1 < buf.length → byteAt buf r = 0 ∧ byteAt buf (r + 1) = 0)

theorem scanUGo_isScanU (buf : List Nat) :
    ∀ fuel i, i ≤ buf.length + 1 → buf.length ≤ fuel + i → IsScanU buf i (scanUGo buf fuel i) := by
  intro fuel
  induction fuel with
  | zero =>
    intro i h1 h2
    rw [show scanUGo buf 0 i = i from rfl]
    exact ⟨le_refl _, by omega, by omega,
      fun j hj1 hj2 hpar => by omega, fun h => absurd h (by omega)⟩
  | succ fuel ih =>
    intro i h1 h2
    rw [scanUGo]
    by_cases hlt : i + 1 < buf.length
    · rw [if_pos hlt]
      by_cases hz : byteAt buf i = 0 ∧ byteAt buf (i + 1) = 0
      · rw [if_pos hz]
        exact ⟨le_refl _, by omega, by omega, fun j hj1 hj2 => by omega, fun _ => hz⟩
      · rw [if_neg hz]
        obtain ⟨g1, g2, g3, g4, g5⟩ := ih (i + 2) (by omega) (by omega)
        refine ⟨by omega, by omega, g3, fun j hj1 hj2 hpar => ?_, g5⟩
        rcases Nat.eq_or_lt_of_le hj1 with rfl | hj1'
        · exact ⟨hz, hlt⟩
        · have hj2' : i + 2 ≤ j := by omega
          exact g4 j hj2' hj2 (by omega)
    · rw [if_neg hlt]
      exact ⟨le_refl _, by omega, by omega, fun j hj1 hj2 => by omega, fun h => by omega⟩

theorem scanU_isScanU {buf : List Nat} {i : Nat} (h : i ≤ buf.length + 1) :
    IsScanU buf i (scanU buf i) :=
  scanUGo_isScanU buf (buf.length + 1) i h (by omega)

theorem IsScanU_unique {buf : List Nat} {i r1 r2 : Nat}
    (h1 : IsScanU buf i r1) (h2 : IsScanU buf i r2) : r1 = r2 := by
  obtain ⟨a1, a2, a3, a4, a5⟩ := h1
  obtain ⟨b1, b2, b3, b4, b5⟩ := h2
  by_contra hne
  rcases Nat.lt_or_ge r1 r2 with hlt | hge
  · obtain ⟨hnp, hb⟩ := b4 r1 a1 hlt (by omega)
    exact hnp (a5 (by omega))
  · have hlt : r2 < r1 := by omega
    obtain ⟨hnp, hb⟩ := a4 r2 b1 hlt (by omega)
    exact hnp (b5 (by omega))

theorem scanU_congr {buf b : List Nat} {i : Nat} (hlen : b.length = buf.length)
    (hi : i ≤ buf.length + 1)
    (hagree : ∀ j, i ≤ j → j ≤ scanU buf i + 1 → byteAt b j = byteAt buf j) :
    scanU b i = scanU buf i := by
  obtain ⟨a1, a2, a3, a4, a5⟩ := scanU_isScanU hi
  have htrans : IsScanU b i (scanU buf i) := by
    refine ⟨a1, a2, by omega, fun j hj1 hj2 hpar => ?_, fun h => ?_⟩
    · obtain ⟨hnp, hb⟩ := a4 j hj1 hj2 hpar
      refine ⟨?_, by omega⟩
      rw [hagree j hj1 (by omega), hagree (j + 1) (by omega) (by omega)]
      exact hnp
    · rw [hagree _ a1 (by omega), hagree _ (by omega) (by omega)]
      exact a5 (by omega)
  exact IsScanU_unique (scanU_isScanU (by omega)) htrans

/-- Characterization of the forward search result. -/
def IsFindFrom (buf pat : List Nat) (pos : Nat) : Option Nat → Prop
  | some p => pos ≤ p ∧ occursAt buf pat p ∧ ∀ q, pos ≤ q → q < p → ¬occursAt buf pat q
  | none => ∀ q, pos ≤ q → ¬occursAt buf pat q

theorem findFromGo_spec (buf pat : List Nat) :
    ∀ fuel pos, buf.length + 1 ≤ fuel + pos →
      IsFindFrom buf pat pos (findFromGo buf pat fuel pos) := by
  intro fuel
  induction fuel with
  | zero =>
    intro pos h
    simp only [findFromGo, IsFindFrom]
    rintro q hq ⟨hb, -⟩
    omega
  | succ fuel ih =>
    intro pos h
    rw [findFromGo]
    by_cases hb : pos + pat.length ≤ buf.length
    · rw [if_pos hb]
      by_cases hsl : (buf.drop pos).take pat.length = pat
      · rw [if_pos hsl]
        exact ⟨le_refl _, ⟨hb, hsl⟩, fun q hq1 hq2 => by omega⟩
      · rw [if_neg hsl]
        have := ih (pos + 1) (by omega)
        cases hres : findFromGo buf pat fuel (pos + 1) with
        | none =>
          rw [hres] at this
          intro q hq hocc
          rcases Nat.eq_or_lt_of_le hq with rfl | hq'
          · exact hsl hocc.2
          · exact this q (by omega) hocc
        | some p =>
          rw [hres] at this
          obtain ⟨g1, g2, g3⟩ := this
          refine ⟨by omega, g2, fun q hq1 hq2 => ?_⟩
          rcases Nat.eq_or_lt_of_le hq1 with rfl | hq'
          · intro hocc; exact hsl hocc.2
          · exact g3 q (by omega) hq2
    · rw [if_neg hb]
      rintro q hq ⟨hqb, -⟩
      omega

theorem findFrom_spec (buf pat : List Nat) (pos : Nat) :
    IsFindFrom buf pat pos (findFrom buf pat pos) :=
  findFromGo_spec buf pat (buf.length + 1) pos (by omega)

theorem findFrom_congr {buf b pat : List Nat} {pos : Nat}
    (hocc : ∀ q, pos ≤ q → (occursAt b pat q ↔ occursAt buf pat q)) :
    findFrom b pat pos = findFrom buf pat pos := by
  have hA := findFrom_spec b pat pos
  have hB := findFrom_spec buf pat pos
  cases hra : findFrom b pat pos with
  | none =>
    cases hrb : findFrom buf pat pos with
    | none => rfl
    | some p =>
      rw [hra] at hA; rw [hrb] at hB
      obtain ⟨g1, g2, -⟩ := hB
      exact absurd ((hocc p g1).mpr g2) (hA p g1)
  | some p =>
    cases hrb : findFrom buf pat pos with
    | none =>
      rw [hra] at hA; rw [hrb] at hB
      obtain ⟨g1, g2, -⟩ := hA
      exact absurd ((hocc p g1).mp g2) (hB p g1)
    | some p' =>
      rw [hra] at hA; rw [hrb] at hB
      obtain ⟨g1, g2, g3⟩ := hA
      obtain ⟨f1, f2, f3⟩ := hB
      rcases Nat.lt_trichotomy p p' with hlt | heq | hgt
      · exact absurd ((hocc p g1).mp g2) (f3 p g1 hlt)
      · rw [heq]
      · exact absurd ((hocc p' f1).mpr f2) (g3 p' f1 hgt)

/-- The shape assumptions satisfied by all six key/replacement pairs of
pe_patch.cpp: the key is at least two bytes, starts with a non-zero byte,
contains no `.` byte and no two adjacent zero bytes; the replacement is a
`.` byte followed by zeros. -/
def GoodCombo (c : Combo) : Prop :=
  2 ≤ c.key.length ∧ c.key.getD 0 0 ≠ 0 ∧
    (∀ j, j < c.key.length → c.key.getD j 0 ≠ 0x2E) ∧
    (∀ j, j < c.key.length - 1 → ¬(c.key.getD j 0 = 0 ∧ c.key.getD (j + 1) 0 = 0)) ∧
    0 < c.rep.length ∧ c.rep.getD 0 0 = 0x2E ∧
    (∀ j, j < c.rep.length → 0 < j → c.rep.getD j 0 = 0)

instance (c : Combo) : Decidable (GoodCombo c) := by
  unfold GoodCombo; infer_instance

theorem targetFor_getD {c : Combo} (hg : GoodCombo c) (n j : Nat) (hn : c.rep.length ≤ n) :
    (targetFor c n).getD j 0 = if j = 0 then 0x2E else 0 := by
  obtain ⟨-, -, -, -, hr1, hr2, hr3⟩ := hg
  unfold targetFor
  by_cases hj : j < c.rep.length
  · rw [List.getD_append _ _ _ _ hj]
    rcases Nat.eq_zero_or_pos j with rfl | hj0
    · rw [if_pos rfl]; exact hr2
    · rw [if_neg (by omega)]; exact hr3 j hj hj0
  · rw [if_neg (by omega)]
    rw [List.getD_append_right _ _ _ _ (by omega)]
    simp [List.getD]

theorem scanUGo_le (buf : List Nat) :
    ∀ fuel i, i ≤ buf.length → scanUGo buf fuel i ≤ buf.length := by
  intro fuel
  induction fuel with
  | zero => intro i h; exact h
  | succ fuel ih =>
    intro i h
    rw [scanUGo]
    by_cases hlt : i + 1 < buf.length
    · rw [if_pos hlt]
      by_cases hz : byteAt buf i = 0 ∧ byteAt buf (i + 1) = 0
      · rw [if_pos hz]; exact h
      · rw [if_neg hz]; exact ih (i + 2) (by omega)
    · rw [if_neg hlt]; exact h

theorem scanU_le {buf : List Nat} {i : Nat} (h : i ≤ buf.length) : scanU buf i ≤ buf.length :=
  scanUGo_le buf (buf.length + 1) i h

theorem scanFor_le {enc : Enc} {buf : List Nat} {i : Nat} (h : i ≤ buf.length) :
    scanFor enc buf i ≤ buf.length := by
  cases enc
  · exact (scanA_isScanA h).2.1
  · exact scanU_le h

theorem scanFor_ge {enc : Enc} {buf : List Nat} {i : Nat} (h : i ≤ buf.length) :
    i ≤ scanFor enc buf i := by
  cases enc
  · exact (scanA_isScanA h).1
  · exact (scanU_isScanU (by omega)).1

theorem scanFor_congr {enc : Enc} {buf b : List Nat} {i : Nat} (hlen : b.length = buf.length)
    (hi : i ≤ buf.length)
    (hagree : ∀ j, i ≤ j → j ≤ scanFor enc buf i + 1 → byteAt b j = byteAt buf j) :
    scanFor enc b i = scanFor enc buf i := by
  cases enc
  · have he : scanFor Enc.ascii buf i = scanA buf i := rfl
    exact scanA_congr hlen hi (fun j h1 h2 => hagree j h1 (by rw [he]; omega))
  · have he : scanFor Enc.utf16 buf i = scanU buf i := rfl
    exact scanU_congr hlen (by omega) (fun j h1 h2 => hagree j h1 (by rw [he]; omega))

theorem byteAt_ext {a b : List Nat} (hlen : a.length = b.length)
    (h : ∀ i, byteAt a i = byteAt b i) : a = b := by
  apply List.ext_getElem hlen
  intro i h1 h2
  rw [← List.getD_eq_getElem _ 0 h1, ← List.getD_eq_getElem _ 0 h2]
  exact h i

theorem ne_of_byteAt_ne {a b : List Nat} {i : Nat} (h : byteAt a i ≠ byteAt b i) : a ≠ b := by
  intro he
  rw [he] at h
  exact h rfl

theorem occursAt_lt_length {b key : List Nat} {p : Nat} (h : occursAt b key p)
    (hk : 0 < key.length) : p < b.length := by
  have := h.1
  omega

theorem occursAt_congr {a b key : List Nat} {q : Nat} (hlen : a.length = b.length)
    (hagree : ∀ i, q ≤ i → i < q + key.length → byteAt a i = byteAt b i)
    (h : occursAt b key q) : occursAt a key q := by
  rw [occursAt_iff] at h ⊢
  refine ⟨by omega, fun j hj => ?_⟩
  rw [hagree (q + j) (by omega) (by omega)]
  exact h.2 j hj

/-- No key occurrence in a buffer can overlap a patched value region (whose
bytes are `.` followed by zeros): keys contain no `.` byte, no adjacent zero
pair, and start with a non-zero byte. -/
theorem no_key_over_zone {key cur : List Nat} {q vs se : Nat}
    (hk2 : 2 ≤ key.length) (hq0 : key.getD 0 0 ≠ 0)
    (hdot : ∀ j, j < key.length → key.getD j 0 ≠ 0x2E)
    (h00 : ∀ j, j + 1 < key.length → ¬(key.getD j 0 = 0 ∧ key.getD (j + 1) 0 = 0))
    (hvse : vs < se)
    (hzone : ∀ i, vs ≤ i → i < se → byteAt cur i = if i = vs then 0x2E else 0)
    (hocc : occursAt cur key q) :
    q + key.length ≤ vs ∨ se ≤ q := by
  by_contra hcon
  push_neg at hcon
  obtain ⟨hlow, hhigh⟩ := hcon
  rw [occursAt_iff] at hocc
  obtain ⟨hb, hpt⟩ := hocc
  set a := max q vs with ha
  set e := min (q + key.length) se with he
  have hae : a < e := by omega
  have hkey : ∀ i, a ≤ i → i < e → byteAt cur i = key.getD (i - q) 0 := by
    intro i h1 h2
    have := hpt (i - q) (by omega)
    rw [show q + (i - q) = i by omega] at this
    exact this
  have h1 := hkey a (le_refl _) (by omega)
  have hz1 := hzone a (by omega) (by omega)
  by_cases hav : a = vs
  · -- the key would contain the written `.` byte
    rw [if_pos hav] at hz1
    exact hdot (a - q) (by omega) (by rw [← h1]; exact hz1)
  · rw [if_neg hav] at hz1
    by_cases hsz : a + 1 < e
    · -- two adjacent key bytes both lie in the zero fill
      have h2 := hkey (a + 1) (by omega) (by omega)
      have hz2 := hzone (a + 1) (by omega) (by omega)
      rw [if_neg (by omega)] at hz2
      refine h00 (a - q) (by omega) ⟨by rw [← h1]; exact hz1, ?_⟩
      rw [show a - q + 1 = a + 1 - q by omega, ← h2]
      exact hz2
    · -- a single zone byte: the key's leading non-zero byte would be zero
      have haq : a - q = 0 := by omega
      have hgoal : key.getD (a - q) 0 = 0 := by rw [← h1]; exact hz1
      rw [haq] at hgoal
      exact hq0 hgoal

theorem scanEnd_ge {c : Combo} {b : List Nat} {p : Nat} (h : p + c.key.length ≤ b.length) :
    p + c.key.length ≤ scanEndOf c b p := scanFor_ge h

theorem scanEnd_le {c : Combo} {b : List Nat} {p : Nat} (h : p + c.key.length ≤ b.length) :
    scanEndOf c b p ≤ b.length := scanFor_le h

/-- The occurrence at `p` qualifies for patching: non-empty value at least
as long as the replacement. -/
def Qual (c : Combo) (b : List Nat) (p : Nat) : Prop :=
  occursAt b c.key p ∧ (p + c.key.length) < scanEndOf c b p ∧
    c.rep.length ≤ scanEndOf c b p - (p + c.key.length)

/-- Extents of distinct occurrences of this combo's key do not overlap. -/
def PassDisjoint (c : Combo) (b : List Nat) : Prop :=
  ∀ p1 p2, occursAt b c.key p1 → occursAt b c.key p2 → p1 ≠ p2 →
    scanEndOf c b p1 ≤ p2 ∨ scanEndOf c b p2 ≤ p1

/-- The original slice covered by the value of the occurrence at `p`
differs from the patch target (so the pass will write there). -/
def diffAt (c : Combo) (b : List Nat) (p : Nat) : Prop :=
  (b.drop ((p + c.key.length))).take (scanEndOf c b p - (p + c.key.length)) ≠
    targetFor c (scanEndOf c b p - (p + c.key.length))

/-- Mid-loop state relative to the pass input `b`: occurrences whose extent
ends at or before `pos` have been patched to the target, everything else
still holds the original bytes. -/
def Mid (c : Combo) (b cur : List Nat) (pos : Nat) : Prop :=
  cur.length = b.length ∧
  (∀ p, Qual c b p → scanEndOf c b p ≤ pos →
    ∀ j, j < scanEndOf c b p - (p + c.key.length) →
      byteAt cur ((p + c.key.length) + j) =
        (targetFor c (scanEndOf c b p - (p + c.key.length))).getD j 0) ∧
  (∀ i, (∀ p, Qual c b p → scanEndOf c b p ≤ pos →
      i < (p + c.key.length) ∨ scanEndOf c b p ≤ i) →
    byteAt cur i = byteAt b i)

/-- Every occurrence is either fully handled (extent before `pos`) or not
yet reached (at or after `pos`). -/
def Pend (c : Combo) (b : List Nat) (pos : Nat) : Prop :=
  ∀ p, occursAt b c.key p → scanEndOf c b p ≤ pos ∨ pos ≤ p

/-- Postcondition of one full key pass over `b`. -/
def PassOut (c : Combo) (b out : List Nat) : Prop :=
  out.length = b.length ∧
  (∀ p, Qual c b p → ∀ j, j < scanEndOf c b p - (p + c.key.length) →
    byteAt out ((p + c.key.length) + j) =
      (targetFor c (scanEndOf c b p - (p + c.key.length))).getD j 0) ∧
  (∀ i, (∀ p, Qual c b p → i < (p + c.key.length) ∨ scanEndOf c b p ≤ i) →
    byteAt out i = byteAt b i)

theorem mid_zone_pattern {c : Combo} {b cur : List Nat} {pos p : Nat} (hg : GoodCombo c)
    (hmid : Mid c b cur pos) (hq : Qual c b p) (hdone : scanEndOf c b p ≤ pos) :
    ∀ i, (p + c.key.length) ≤ i → i < scanEndOf c b p →
      byteAt cur i = if i = (p + c.key.length) then 0x2E else 0 := by
  intro i h1 h2
  have hj := hmid.2.1 p hq hdone (i - (p + c.key.length)) (by omega)
  rw [show (p + c.key.length) + (i - (p + c.key.length)) = i by omega] at hj
  rw [hj, targetFor_getD hg _ _ hq.2.2]
  by_cases hi0 : i = (p + c.key.length)
  · rw [if_pos hi0, if_pos (by omega)]
  · rw [if_neg hi0, if_neg (by omega)]

theorem mid_occ_iff {c : Combo} {b cur : List Nat} {pos : Nat} (hg : GoodCombo c)
    (hD : PassDisjoint c b) (hmid : Mid c b cur pos) :
    ∀ q, occursAt cur c.key q ↔ occursAt b c.key q := by
  obtain ⟨hk2, hq0, hdot, h00, hrest⟩ := hg
  intro q
  constructor
  · intro hocc
    -- the key's bytes avoid every patched zone, hence agree with `b`
    have havoid : ∀ p, Qual c b p → scanEndOf c b p ≤ pos →
        q + c.key.length ≤ (p + c.key.length) ∨ scanEndOf c b p ≤ q := by
      intro p hq hdone
      exact no_key_over_zone hk2 hq0 hdot (fun j hj => h00 j (by omega)) hq.2.1
        (mid_zone_pattern ⟨hk2, hq0, hdot, h00, hrest⟩ hmid hq hdone) hocc
    refine occursAt_congr hmid.1.symm ?_ hocc
    intro i hi1 hi2
    exact (hmid.2.2 i (fun p hq hdone => by rcases havoid p hq hdone with h | h <;> omega)).symm
  · intro hocc
    refine occursAt_congr hmid.1 ?_ hocc
    intro i hi1 hi2
    apply hmid.2.2 i
    intro p hq hdone
    by_cases hpq : p = q
    · -- the zone of `q` itself starts after the key bytes
      left
      subst hpq
      omega
    · rcases hD p q hq.1 hocc hpq with h | h
      · right; omega
      · -- the extent of `q` ends before `p` starts
        left
        have h1 : p + c.key.length ≤ b.length := hq.1.1
        have h2 : q + c.key.length ≤ scanEndOf c b q := scanEnd_ge hocc.1
        omega

theorem mid_find_eq {c : Combo} {b cur : List Nat} {pos : Nat} (hg : GoodCombo c)
    (hD : PassDisjoint c b) (hmid : Mid c b cur pos) (pos' : Nat) :
    findFrom cur c.key pos' = findFrom b c.key pos' :=
  findFrom_congr (fun q _ => mid_occ_iff hg hD hmid q)

theorem mid_agree_near {c : Combo} {b cur : List Nat} {pos q : Nat} (hg : GoodCombo c)
    (hD : PassDisjoint c b) (hmid : Mid c b cur pos) (hqpos : pos ≤ q)
    (hocc : occursAt b c.key q) :
    ∀ j, q ≤ j → j ≤ scanEndOf c b q + 1 → byteAt cur j = byteAt b j := by
  intro j hj1 hj2
  apply hmid.2.2 j
  intro p hq hdone
  have hk2 := hg.1
  have hqb : q + c.key.length ≤ b.length := hocc.1
  have hge : q + c.key.length ≤ scanEndOf c b q := scanEnd_ge hqb
  by_cases hpq : p = q
  · exfalso
    subst hpq
    have := hq.2.1
    omega
  · rcases hD p q hq.1 hocc hpq with h | h
    · -- the zone of `p` ends before `q`
      right; omega
    · -- `q`'s whole scanned range ends before `p`'s key starts
      left
      have h1 : p + c.key.length ≤ b.length := hq.1.1
      omega

theorem mid_scan_eq {c : Combo} {b cur : List Nat} {pos q : Nat} (hg : GoodCombo c)
    (hD : PassDisjoint c b) (hmid : Mid c b cur pos) (hqpos : pos ≤ q)
    (hocc : occursAt b c.key q) :
    scanFor c.enc cur (q + c.key.length) = scanEndOf c b q := by
  have hqb : q + c.key.length ≤ b.length := hocc.1
  exact scanFor_congr hmid.1 hqb
    (fun j h1 h2 => mid_agree_near hg hD hmid hqpos hocc j (by omega) h2)

theorem mid_slice_eq {c : Combo} {b cur : List Nat} {pos q : Nat} (hg : GoodCombo c)
    (hD : PassDisjoint c b) (hmid : Mid c b cur pos) (hqpos : pos ≤ q)
    (hocc : occursAt b c.key q) :
    (cur.drop (q + c.key.length)).take (scanEndOf c b q - (q + c.key.length)) =
      (b.drop (q + c.key.length)).take (scanEndOf c b q - (q + c.key.length)) := by
  have hqb : q + c.key.length ≤ b.length := hocc.1
  have hse : scanEndOf c b q ≤ b.length := scanEnd_le hqb
  apply List.ext_getElem
  · simp [hmid.1]
  · intro j hj1 hj2
    have hjlt : j < scanEndOf c b q - (q + c.key.length) := by
      simp at hj1
      omega
    rw [← List.getD_eq_getElem _ 0 hj1, ← List.getD_eq_getElem _ 0 hj2,
      slice_getD _ _ _ _ hjlt, slice_getD _ _ _ _ hjlt]
    exact mid_agree_near hg hD hmid hqpos hocc _ (by omega) (by omega)

theorem patchKeyLoop_succ_eq (enc : Enc) (key rep : List Nat) (fuel : Nat)
    (buf : List Nat) (changed : Bool) (pos : Nat) :
    patchKeyLoop enc key rep (fuel + 1) buf changed pos =
      match findFrom buf key pos with
      | none => (buf, changed)
      | some p =>
        if scanFor enc buf (p + key.length) ≤ p + key.length then
          patchKeyLoop enc key rep fuel buf changed (p + key.length)
        else
          if rep.length ≤ scanFor enc buf (p + key.length) - (p + key.length) then
            if (buf.drop (p + key.length)).take (scanFor enc buf (p + key.length) - (p + key.length)) ≠
                rep ++ List.replicate (scanFor enc buf (p + key.length) - (p + key.length) - rep.length) 0 then
              patchKeyLoop enc key rep fuel
                (writeAt buf (p + key.length)
                  (rep ++ List.replicate (scanFor enc buf (p + key.length) - (p + key.length) - rep.length) 0))
                true (scanFor enc buf (p + key.length))
            else
              patchKeyLoop enc key rep fuel buf changed (scanFor enc buf (p + key.length))
          else
            patchKeyLoop enc key rep fuel buf changed (scanFor enc buf (p + key.length)) := rfl

/-- Invariant-based correctness of one key pass's loop. -/
theorem patchKeyLoop_spec {c : Combo} (hg : GoodCombo c) {b : List Nat} (hD : PassDisjoint c b) :
    ∀ fuel cur ch pos, b.length + 1 ≤ fuel + pos → Mid c b cur pos → Pend c b pos →
      PassOut c b (patchKeyLoop c.enc c.key c.rep fuel cur ch pos).1 ∧
      ((patchKeyLoop c.enc c.key c.rep fuel cur ch pos).2 = true ↔
        ch = true ∨ ∃ p, Qual c b p ∧ pos ≤ p ∧ diffAt c b p) := by
  have hk2 : 2 ≤ c.key.length := hg.1
  intro fuel
  induction fuel with
  | zero =>
    intro cur ch pos hfuel hmid hpend
    obtain ⟨h1, h2, h3⟩ := hmid
    have hnopend : ∀ p, occursAt b c.key p → scanEndOf c b p ≤ pos := by
      intro p hp
      rcases hpend p hp with h | h
      · exact h
      · exfalso
        have := hp.1
        omega
    rw [show patchKeyLoop c.enc c.key c.rep 0 cur ch pos = (cur, ch) from rfl]
    refine ⟨⟨h1, ?_, ?_⟩, ?_⟩
    · exact fun p hq j hj => h2 p hq (hnopend p hq.1) j hj
    · exact fun i hi => h3 i (fun p hq _ => hi p hq)
    · constructor
      · exact fun h => Or.inl h
      · rintro (h | ⟨p, hq, hpos, -⟩)
        · exact h
        · exfalso
          have := hq.1.1
          omega
  | succ fuel ih =>
    intro cur ch pos hfuel hmid hpend
    have hcl : cur.length = b.length := hmid.1
    have hfind := mid_find_eq hg hD hmid pos
    rw [patchKeyLoop_succ_eq, hfind]
    cases hf : findFrom b c.key pos with
    | none =>
      have hnone := findFrom_spec b c.key pos
      rw [hf] at hnone
      dsimp only
      obtain ⟨h1, h2, h3⟩ := hmid
      have hnopend : ∀ p, occursAt b c.key p → scanEndOf c b p ≤ pos := by
        intro p hp
        rcases hpend p hp with h | h
        · exact h
        · exact absurd hp (hnone p h)
      refine ⟨⟨h1, ?_, ?_⟩, ?_⟩
      · exact fun p hq j hj => h2 p hq (hnopend p hq.1) j hj
      · exact fun i hi => h3 i (fun p hq _ => hi p hq)
      · constructor
        · exact fun h => Or.inl h
        · rintro (h | ⟨p, hq, hpos, -⟩)
          · exact h
          · exact absurd hq.1 (hnone p hpos)
    | some p =>
      have hsome := findFrom_spec b c.key pos
      rw [hf] at hsome
      obtain ⟨hppos, hpocc, hpmin⟩ := hsome
      have hpb : p + c.key.length ≤ b.length := hpocc.1
      have hge : p + c.key.length ≤ scanEndOf c b p := scanEnd_ge hpb
      have hle : scanEndOf c b p ≤ b.length := scanEnd_le hpb
      have hscan := mid_scan_eq hg hD hmid hppos hpocc
      dsimp only
      rw [hscan]
      have hnext : ∀ q, occursAt b c.key q → pos ≤ q → q ≠ p → scanEndOf c b p ≤ q := by
        intro q hq hqpos hqp
        have hqge : q + c.key.length ≤ scanEndOf c b q := scanEnd_ge hq.1
        have hqlt : ¬ q < p := fun hlt => hpmin q hqpos hlt hq
        rcases hD p q hpocc hq (fun h => hqp h.symm) with h | h
        · exact h
        · omega
      by_cases hempty : scanEndOf c b p ≤ p + c.key.length
      · rw [if_pos hempty]
        have hnonew : ∀ p', Qual c b p' → scanEndOf c b p' ≤ p + c.key.length →
            scanEndOf c b p' ≤ pos := by
          intro p' hq' hd'
          rcases hpend p' hq'.1 with h | h
          · exact h
          · exfalso
            have hne : p' ≠ p := by
              intro he
              subst he
              have := hq'.2.1
              omega
            have hnx := hnext p' hq'.1 h hne
            have hge' : p' + c.key.length ≤ scanEndOf c b p' := scanEnd_ge hq'.1.1
            omega
        obtain ⟨h1, h2, h3⟩ := hmid
        have hmid' : Mid c b cur (p + c.key.length) := by
          refine ⟨h1, ?_, ?_⟩
          · exact fun p' hq' hd' j hj => h2 p' hq' (hnonew p' hq' hd') j hj
          · intro i hi
            apply h3 i
            intro p' hq' hd'
            exact hi p' hq' (by omega)
        have hpend' : Pend c b (p + c.key.length) := by
          intro p' hp'
          rcases hpend p' hp' with h | h
          · left; omega
          · by_cases hne : p' = p
            · subst hne; left; omega
            · right
              have := hnext p' hp' h hne
              omega
        obtain ⟨ho, hfl⟩ := ih cur ch (p + c.key.length) (by omega) hmid' hpend'
        refine ⟨ho, ?_⟩
        rw [hfl]
        constructor
        · rintro (h | ⟨p', hq', hp', hd'⟩)
          · exact Or.inl h
          · exact Or.inr ⟨p', hq', by omega, hd'⟩
        · rintro (h | ⟨p', hq', hp', hd'⟩)
          · exact Or.inl h
          · refine Or.inr ⟨p', hq', ?_, hd'⟩
            by_cases hne : p' = p
            · exfalso
              subst hne
              have := hq'.2.1
              omega
            · have := hnext p' hq'.1 hp' hne
              omega
      · rw [if_neg hempty]
        push_neg at hempty
        by_cases hlenr : c.rep.length ≤ scanEndOf c b p - (p + c.key.length)
        · rw [if_pos hlenr]
          have hqual : Qual c b p := ⟨hpocc, hempty, hlenr⟩
          have htE : targetFor c (scanEndOf c b p - (p + c.key.length)) =
              c.rep ++ List.replicate (scanEndOf c b p - (p + c.key.length) - c.rep.length) 0 := rfl
          rw [← htE]
          have hslice := mid_slice_eq hg hD hmid hppos hpocc
          rw [hslice]
          have htlen : (targetFor c (scanEndOf c b p - (p + c.key.length))).length =
              scanEndOf c b p - (p + c.key.length) := by
            unfold targetFor
            rw [List.length_append, List.length_replicate]
            omega
          have hnonew : ∀ p', Qual c b p' → scanEndOf c b p' ≤ scanEndOf c b p →
              scanEndOf c b p' ≤ pos ∨ p' = p := by
            intro p' hq' hd'
            rcases hpend p' hq'.1 with h | h
            · exact Or.inl h
            · by_cases hne : p' = p
              · exact Or.inr hne
              · exfalso
                have hnx := hnext p' hq'.1 h hne
                have hge' : p' + c.key.length ≤ scanEndOf c b p' := scanEnd_ge hq'.1.1
                omega
          have hpend' : Pend c b (scanEndOf c b p) := by
            intro p' hp'
            rcases hpend p' hp' with h | h
            · left; omega
            · by_cases hne : p' = p
              · subst hne
                exact Or.inl (le_refl _)
              · right
                exact hnext p' hp' h hne
          by_cases hdiff : (b.drop (p + c.key.length)).take
                (scanEndOf c b p - (p + c.key.length)) ≠
              targetFor c (scanEndOf c b p - (p + c.key.length))
          · rw [if_pos hdiff]
            have hmid' : Mid c b
                (writeAt cur (p + c.key.length) (targetFor c (scanEndOf c b p - (p + c.key.length))))
                (scanEndOf c b p) := by
              refine ⟨by rw [writeAt_length (by omega)]; exact hcl, ?_, ?_⟩
              · intro p' hq' hd' j hj
                rcases hnonew p' hq' hd' with hold | he
                · rw [byteAt_writeAt_lt (by omega) (by omega)]
                  exact hmid.2.1 p' hq' hold j hj
                · rw [he] at hj ⊢
                  rw [byteAt_writeAt_inside (by omega) (by rw [htlen]; omega) (by omega)]
                  rw [show p + c.key.length + j - (p + c.key.length) = j from by omega]
              · intro i hi
                have hip := hi p hqual (le_refl _)
                have hstep : byteAt (writeAt cur (p + c.key.length)
                    (targetFor c (scanEndOf c b p - (p + c.key.length)))) i = byteAt cur i := by
                  rcases hip with hlt | hgeI
                  · exact byteAt_writeAt_lt hlt (by omega)
                  · exact byteAt_writeAt_ge (by rw [htlen]; omega) (by rw [htlen]; omega)
                rw [hstep]
                apply hmid.2.2 i
                intro p' hq' hd'
                exact hi p' hq' (by omega)
            obtain ⟨ho, hfl⟩ := ih _ true (scanEndOf c b p) (by omega) hmid' hpend'
            refine ⟨ho, ?_⟩
            rw [hfl]
            constructor
            · intro _
              exact Or.inr ⟨p, hqual, hppos, hdiff⟩
            · intro _
              exact Or.inl rfl
          · rw [if_neg hdiff]
            have heq := not_not.mp hdiff
            have hmid' : Mid c b cur (scanEndOf c b p) := by
              refine ⟨hcl, ?_, ?_⟩
              · intro p' hq' hd' j hj
                rcases hnonew p' hq' hd' with hold | he
                · exact hmid.2.1 p' hq' hold j hj
                · rw [he] at hj ⊢
                  rw [mid_agree_near hg hD hmid hppos hpocc (p + c.key.length + j)
                    (by omega) (by omega)]
                  rw [← slice_getD b (p + c.key.length) _ j hj, heq]
              · intro i hi
                apply hmid.2.2 i
                intro p' hq' hd'
                exact hi p' hq' (by omega)
            obtain ⟨ho, hfl⟩ := ih cur ch (scanEndOf c b p) (by omega) hmid' hpend'
            refine ⟨ho, ?_⟩
            rw [hfl]
            constructor
            · rintro (h | ⟨p', hq', hp', hd'⟩)
              · exact Or.inl h
              · exact Or.inr ⟨p', hq', by omega, hd'⟩
            · rintro (h | ⟨p', hq', hp', hd'⟩)
              · exact Or.inl h
              · by_cases hne : p' = p
                · exfalso
                  subst hne
                  exact hd' heq
                · exact Or.inr ⟨p', hq', hnext p' hq'.1 hp' hne, hd'⟩
        · rw [if_neg hlenr]
          have hnonew : ∀ p', Qual c b p' → scanEndOf c b p' ≤ scanEndOf c b p →
              scanEndOf c b p' ≤ pos := by
            intro p' hq' hd'
            rcases hpend p' hq'.1 with h | h
            · exact h
            · exfalso
              by_cases hne : p' = p
              · subst hne
                exact hlenr hq'.2.2
              · have hnx := hnext p' hq'.1 h hne
                have hge' : p' + c.key.length ≤ scanEndOf c b p' := scanEnd_ge hq'.1.1
                omega
          have hmid' : Mid c b cur (scanEndOf c b p) := by
            refine ⟨hcl, ?_, ?_⟩
            · exact fun p' hq' hd' j hj => hmid.2.1 p' hq' (hnonew p' hq' hd') j hj
            · intro i hi
              apply hmid.2.2 i
              intro p' hq' hd'
              exact hi p' hq' (by omega)
          have hpend' : Pend c b (scanEndOf c b p) := by
            intro p' hp'
            rcases hpend p' hp' with h | h
            · left; omega
            · by_cases hne : p' = p
              · subst hne
                exact Or.inl (le_refl _)
              · right
                exact hnext p' hp' h hne
          obtain ⟨ho, hfl⟩ := ih cur ch (scanEndOf c b p) (by omega) hmid' hpend'
          refine ⟨ho, ?_⟩
          rw [hfl]
          constructor
          · rintro (h | ⟨p', hq', hp', hd'⟩)
            · exact Or.inl h
            · exact Or.inr ⟨p', hq', by omega, hd'⟩
          · rintro (h | ⟨p', hq', hp', hd'⟩)
            · exact Or.inl h
            · by_cases hne : p' = p
              · exfalso
                subst hne
                exact hlenr hq'.2.2
              · exact Or.inr ⟨p', hq', hnext p' hq'.1 hp' hne, hd'⟩

theorem disjoint_apply {G : List Combo} {buf : List Nat} (hD : DisjointExtents G buf)
    {c1 c2 : Combo} {p1 p2 : Nat} (h1 : c1 ∈ G) (h2 : c2 ∈ G)
    (hk1 : 0 < c1.key.length) (hk2 : 0 < c2.key.length)
    (ho1 : occursAt buf c1.key p1) (ho2 : occursAt buf c2.key p2) :
    (c1 = c2 ∧ p1 = p2) ∨ scanEndOf c1 buf p1 ≤ p2 ∨ scanEndOf c2 buf p2 ≤ p1 :=
  hD c1 h1 c2 h2 p1 (by have := ho1.1; omega) p2 (by have := ho2.1; omega) ho1 ho2

/-- One full key pass starting from the pass input itself. -/
theorem patchKey_spec {c : Combo} (hg : GoodCombo c) {b : List Nat} (hD : PassDisjoint c b) :
    PassOut c b (patchKey c.enc c.key c.rep b).1 ∧
    ((patchKey c.enc c.key c.rep b).2 = true ↔ ∃ p, Qual c b p ∧ diffAt c b p) := by
  have hk2 : 2 ≤ c.key.length := hg.1
  have hmid0 : Mid c b b 0 := by
    refine ⟨rfl, ?_, fun i _ => rfl⟩
    intro p hq hdone j hj
    exfalso
    have h2 : p + c.key.length ≤ scanEndOf c b p := scanEnd_ge hq.1.1
    omega
  have hpend0 : Pend c b 0 := fun p _ => Or.inr (Nat.zero_le _)
  have h := patchKeyLoop_spec hg hD (b.length + 1) b false 0 (by omega) hmid0 hpend0
  refine ⟨h.1, ?_⟩
  constructor
  · intro hh
    rcases h.2.mp hh with h' | ⟨p, hq, -, hd⟩
    · exact absurd h' (by simp)
    · exact ⟨p, hq, hd⟩
  · rintro ⟨p, hq, hd⟩
    exact h.2.mpr (Or.inr ⟨p, hq, Nat.zero_le _, hd⟩)

theorem slice_length {b : List Nat} {vs n : Nat} (h : vs + n ≤ b.length) :
    ((b.drop vs).take n).length = n := by
  simp
  omega

theorem targetFor_length {c : Combo} {n : Nat} (h : c.rep.length ≤ n) :
    (targetFor c n).length = n := by
  unfold targetFor
  rw [List.length_append, List.length_replicate]
  omega

/-- A differing occurrence differs at some concrete byte of its value. -/
theorem diff_byte {c : Combo} {b : List Nat} {p : Nat} (hq : Qual c b p)
    (hd : diffAt c b p) :
    ∃ j, j < scanEndOf c b p - (p + c.key.length) ∧
      byteAt b (p + c.key.length + j) ≠
        (targetFor c (scanEndOf c b p - (p + c.key.length))).getD j 0 := by
  by_contra hcon
  push_neg at hcon
  apply hd
  have hse : scanEndOf c b p ≤ b.length := scanEnd_le hq.1.1
  have hvse := hq.2.1
  have hsl : ((b.drop (p + c.key.length)).take (scanEndOf c b p - (p + c.key.length))).length =
      scanEndOf c b p - (p + c.key.length) := slice_length (by omega)
  have htl := targetFor_length hq.2.2
  apply List.ext_getElem (by rw [hsl, htl])
  intro j hj1 hj2
  rw [← List.getD_eq_getElem _ 0 hj1, ← List.getD_eq_getElem _ 0 hj2,
    slice_getD _ _ _ _ (by rw [hsl] at hj1; exact hj1)]
  exact hcon j (by rw [hsl] at hj1; exact hj1)

/-- Global invariant across passes: the combos in `D` have been patched
relative to the ORIGINAL buffer `buf`; all other bytes are original. -/
def GInv (D : List Combo) (buf cur : List Nat) : Prop :=
  cur.length = buf.length ∧
  (∀ c' ∈ D, ∀ p, Qual c' buf p → ∀ j, j < scanEndOf c' buf p - (p + c'.key.length) →
    byteAt cur ((p + c'.key.length) + j) =
      (targetFor c' (scanEndOf c' buf p - (p + c'.key.length))).getD j 0) ∧
  (∀ i, (∀ c' ∈ D, ∀ p, Qual c' buf p → i < p + c'.key.length ∨ scanEndOf c' buf p ≤ i) →
    byteAt cur i = byteAt buf i)

theorem ginv_zone_pattern {D : List Combo} {buf cur : List Nat} {c' : Combo} {p' : Nat}
    (hg' : GoodCombo c') (hinv : GInv D buf cur) (hc' : c' ∈ D) (hq' : Qual c' buf p') :
    ∀ i, p' + c'.key.length ≤ i → i < scanEndOf c' buf p' →
      byteAt cur i = if i = p' + c'.key.length then 0x2E else 0 := by
  intro i h1 h2
  have hj := hinv.2.1 c' hc' p' hq' (i - (p' + c'.key.length)) (by omega)
  rw [show p' + c'.key.length + (i - (p' + c'.key.length)) = i by omega] at hj
  rw [hj, targetFor_getD hg' _ _ hq'.2.2]
  by_cases hi0 : i = p' + c'.key.length
  · rw [if_pos hi0, if_pos (by omega)]
  · rw [if_neg hi0, if_neg (by omega)]

theorem ginv_occ_iff {G D : List Combo} {buf cur : List Nat} {c : Combo}
    (hgood : ∀ x ∈ G, GoodCombo x) (hD : DisjointExtents G buf)
    (hcG : c ∈ G) (hDG : ∀ x ∈ D, x ∈ G) (hcD : c ∉ D) (hinv : GInv D buf cur) :
    ∀ q, occursAt cur c.key q ↔ occursAt buf c.key q := by
  intro q
  have hgc := hgood c hcG
  constructor
  · intro hocc
    have havoid : ∀ c' ∈ D, ∀ p', Qual c' buf p' →
        q + c.key.length ≤ p' + c'.key.length ∨ scanEndOf c' buf p' ≤ q := by
      intro c' hc' p' hq'
      have hg' := hgood c' (hDG c' hc')
      exact no_key_over_zone hgc.1 hgc.2.1 hgc.2.2.1
        (fun j hj => hgc.2.2.2.1 j (by omega)) hq'.2.1
        (ginv_zone_pattern hg' hinv hc' hq') hocc
    refine occursAt_congr hinv.1.symm ?_ hocc
    intro i hi1 hi2
    refine (hinv.2.2 i ?_).symm
    intro c' hc' p' hq'
    rcases havoid c' hc' p' hq' with h | h
    · left; omega
    · right; omega
  · intro hocc
    refine occursAt_congr hinv.1 ?_ hocc
    intro i hi1 hi2
    apply hinv.2.2 i
    intro c' hc' p' hq'
    have hg' := hgood c' (hDG c' hc')
    have hne : c' ≠ c := fun he => hcD (he ▸ hc')
    rcases disjoint_apply hD (hDG c' hc') hcG (by have := hg'.1; omega)
        (by have := hgc.1; omega) hq'.1 hocc with ⟨he, -⟩ | h | h
    · exact absurd he hne
    · right; omega
    · left
      have hsge : q + c.key.length ≤ scanEndOf c buf q := scanEnd_ge hocc.1
      have := hg'.1
      omega

theorem ginv_agree_ext {G D : List Combo} {buf cur : List Nat} {c : Combo}
    (hgood : ∀ x ∈ G, GoodCombo x) (hD : DisjointExtents G buf)
    (hcG : c ∈ G) (hDG : ∀ x ∈ D, x ∈ G) (hcD : c ∉ D) (hinv : GInv D buf cur)
    {q : Nat} (hocc : occursAt buf c.key q) :
    ∀ j, q ≤ j → j ≤ scanEndOf c buf q + 1 → byteAt cur j = byteAt buf j := by
  intro j hj1 hj2
  apply hinv.2.2 j
  intro c' hc' p' hq'
  have hg' := hgood c' (hDG c' hc')
  have hgc := hgood c hcG
  have hne : c' ≠ c := fun he => hcD (he ▸ hc')
  have hsge : q + c.key.length ≤ scanEndOf c buf q := scanEnd_ge hocc.1
  rcases disjoint_apply hD (hDG c' hc') hcG (by have := hg'.1; omega)
      (by have := hgc.1; omega) hq'.1 hocc with ⟨he, -⟩ | h | h
  · exact absurd he hne
  · right; omega
  · left
    have := hg'.1
    omega

theorem ginv_scanEnd_eq {G D : List Combo} {buf cur : List Nat} {c : Combo}
    (hgood : ∀ x ∈ G, GoodCombo x) (hD : DisjointExtents G buf)
    (hcG : c ∈ G) (hDG : ∀ x ∈ D, x ∈ G) (hcD : c ∉ D) (hinv : GInv D buf cur)
    {q : Nat} (hocc : occursAt buf c.key q) :
    scanEndOf c cur q = scanEndOf c buf q := by
  show scanFor c.enc cur (q + c.key.length) = scanEndOf c buf q
  exact scanFor_congr hinv.1 hocc.1
    (fun j h1 h2 => ginv_agree_ext hgood hD hcG hDG hcD hinv hocc j (by omega) h2)

theorem ginv_slice_eq {G D : List Combo} {buf cur : List Nat} {c : Combo}
    (hgood : ∀ x ∈ G, GoodCombo x) (hD : DisjointExtents G buf)
    (hcG : c ∈ G) (hDG : ∀ x ∈ D, x ∈ G) (hcD : c ∉ D) (hinv : GInv D buf cur)
    {q : Nat} (hocc : occursAt buf c.key q) :
    (cur.drop (q + c.key.length)).take (scanEndOf c buf q - (q + c.key.length)) =
      (buf.drop (q + c.key.length)).take (scanEndOf c buf q - (q + c.key.length)) := by
  have hse : scanEndOf c buf q ≤ buf.length := scanEnd_le hocc.1
  apply List.ext_getElem
  · simp [hinv.1]
  · intro j hj1 hj2
    have hjlt : j < scanEndOf c buf q - (q + c.key.length) := by
      simp at hj1
      omega
    rw [← List.getD_eq_getElem _ 0 hj1, ← List.getD_eq_getElem _ 0 hj2,
      slice_getD _ _ _ _ hjlt, slice_getD _ _ _ _ hjlt]
    exact ginv_agree_ext hgood hD hcG hDG hcD hinv hocc _ (by omega) (by omega)

theorem ginv_qual_iff {G D : List Combo} {buf cur : List Nat} {c : Combo}
    (hgood : ∀ x ∈ G, GoodCombo x) (hD : DisjointExtents G buf)
    (hcG : c ∈ G) (hDG : ∀ x ∈ D, x ∈ G) (hcD : c ∉ D) (hinv : GInv D buf cur) :
    ∀ p, Qual c cur p ↔ Qual c buf p := by
  intro p
  constructor
  · rintro ⟨ho, hv, hr⟩
    have ho' := (ginv_occ_iff hgood hD hcG hDG hcD hinv p).mp ho
    have hsc := ginv_scanEnd_eq hgood hD hcG hDG hcD hinv ho'
    rw [hsc] at hv hr
    exact ⟨ho', hv, hr⟩
  · rintro ⟨ho, hv, hr⟩
    have ho' := (ginv_occ_iff hgood hD hcG hDG hcD hinv p).mpr ho
    have hsc := ginv_scanEnd_eq hgood hD hcG hDG hcD hinv ho
    exact ⟨ho', by rw [hsc]; exact hv, by rw [hsc]; exact hr⟩

theorem ginv_diff_iff {G D : List Combo} {buf cur : List Nat} {c : Combo}
    (hgood : ∀ x ∈ G, GoodCombo x) (hD : DisjointExtents G buf)
    (hcG : c ∈ G) (hDG : ∀ x ∈ D, x ∈ G) (hcD : c ∉ D) (hinv : GInv D buf cur)
    {q : Nat} (hocc : occursAt buf c.key q) :
    diffAt c cur q ↔ diffAt c buf q := by
  unfold diffAt
  rw [ginv_scanEnd_eq hgood hD hcG hDG hcD hinv hocc,
    ginv_slice_eq hgood hD hcG hDG hcD hinv hocc]

theorem ginv_pass_disjoint {G D : List Combo} {buf cur : List Nat} {c : Combo}
    (hgood : ∀ x ∈ G, GoodCombo x) (hD : DisjointExtents G buf)
    (hcG : c ∈ G) (hDG : ∀ x ∈ D, x ∈ G) (hcD : c ∉ D) (hinv : GInv D buf cur) :
    PassDisjoint c cur := by
  intro p1 p2 ho1 ho2 hne
  have hgc := hgood c hcG
  have hb1 := (ginv_occ_iff hgood hD hcG hDG hcD hinv p1).mp ho1
  have hb2 := (ginv_occ_iff hgood hD hcG hDG hcD hinv p2).mp ho2
  rw [ginv_scanEnd_eq hgood hD hcG hDG hcD hinv hb1,
    ginv_scanEnd_eq hgood hD hcG hDG hcD hinv hb2]
  rcases disjoint_apply hD hcG hcG (by have := hgc.1; omega) (by have := hgc.1; omega)
      hb1 hb2 with ⟨-, he⟩ | h | h
  · exact absurd he hne
  · exact Or.inl h
  · exact Or.inr h

theorem ginv_step {G D : List Combo} {buf cur : List Nat} {c : Combo}
    (hgood : ∀ x ∈ G, GoodCombo x) (hD : DisjointExtents G buf)
    (hcG : c ∈ G) (hDG : ∀ x ∈ D, x ∈ G) (hcD : c ∉ D) (hinv : GInv D buf cur) :
    GInv (c :: D) buf (patchKey c.enc c.key c.rep cur).1 ∧
    ((patchKey c.enc c.key c.rep cur).2 = true ↔ ∃ p, Qual c buf p ∧ diffAt c buf p) := by
  have hgc := hgood c hcG
  have hPD : PassDisjoint c cur := ginv_pass_disjoint hgood hD hcG hDG hcD hinv
  obtain ⟨hpo, hfl⟩ := patchKey_spec hgc hPD
  constructor
  · refine ⟨by rw [hpo.1, hinv.1], ?_, ?_⟩
    · intro c' hc' p hq j hj
      by_cases hce : c' = c
      · rw [hce] at hq hj ⊢
        have hqc : Qual c cur p := (ginv_qual_iff hgood hD hcG hDG hcD hinv p).mpr hq
        have hsc := ginv_scanEnd_eq hgood hD hcG hDG hcD hinv hq.1
        have hstep := hpo.2.1 p hqc j (by rw [hsc]; exact hj)
        rw [hsc] at hstep
        exact hstep
      · have hc'D : c' ∈ D := (List.mem_cons.mp hc').resolve_left hce
        have hg' := hgood c' (hDG c' hc'D)
        have hne : c ≠ c' := fun he => hce he.symm
        have hstep : byteAt (patchKey c.enc c.key c.rep cur).1 (p + c'.key.length + j) =
            byteAt cur (p + c'.key.length + j) := by
          apply hpo.2.2
          intro p0 hq0
          have hq0b := (ginv_qual_iff hgood hD hcG hDG hcD hinv p0).mp hq0
          have hsc0 := ginv_scanEnd_eq hgood hD hcG hDG hcD hinv hq0b.1
          rcases disjoint_apply hD hcG (hDG c' hc'D) (by have := hgc.1; omega)
              (by have := hg'.1; omega) hq0b.1 hq.1 with ⟨he, -⟩ | h | h
          · exact absurd he hne
          · -- this c-occurrence's extent ends before p
            right
            rw [hsc0]
            omega
          · -- the c'-zone ends before this c-occurrence starts
            left
            omega
        rw [hstep]
        exact hinv.2.1 c' hc'D p hq j hj
    · intro i hi
      have h1 : byteAt (patchKey c.enc c.key c.rep cur).1 i = byteAt cur i := by
        apply hpo.2.2
        intro p0 hq0
        have hq0b := (ginv_qual_iff hgood hD hcG hDG hcD hinv p0).mp hq0
        have hsc0 := ginv_scanEnd_eq hgood hD hcG hDG hcD hinv hq0b.1
        rcases hi c (List.mem_cons_self c D) p0 hq0b with h | h
        · exact Or.inl h
        · right
          rw [hsc0]
          exact h
      rw [h1]
      apply hinv.2.2 i
      intro c' hc' p0 hq0
      exact hi c' (List.mem_cons_of_mem _ hc') p0 hq0
  · rw [hfl]
    constructor
    · rintro ⟨p, hq, hd⟩
      have hqb := (ginv_qual_iff hgood hD hcG hDG hcD hinv p).mp hq
      exact ⟨p, hqb, (ginv_diff_iff hgood hD hcG hDG hcD hinv hqb.1).mp hd⟩
    · rintro ⟨p, hq, hd⟩
      exact ⟨p, (ginv_qual_iff hgood hD hcG hDG hcD hinv p).mpr hq,
        (ginv_diff_iff hgood hD hcG hDG hcD hinv hq.1).mpr hd⟩

theorem ginv_mem_congr {D1 D2 : List Combo} {buf cur : List Nat}
    (h : ∀ x, x ∈ D1 ↔ x ∈ D2) (hinv : GInv D2 buf cur) : GInv D1 buf cur := by
  refine ⟨hinv.1, ?_, ?_⟩
  · exact fun c' hc' p hq j hj => hinv.2.1 c' ((h c').mp hc') p hq j hj
  · exact fun i hi => hinv.2.2 i (fun c' hc' p hq => hi c' ((h c').mpr hc') p hq)

/-- Sequencing the remaining passes `L` after the passes `D` have run. -/
theorem patchSeq_spec {G : List Combo} {buf : List Nat}
    (hgood : ∀ x ∈ G, GoodCombo x) (hD : DisjointExtents G buf) :
    ∀ L D cur, (∀ x ∈ L, x ∈ G) → (∀ x ∈ D, x ∈ G) → (∀ x ∈ L, x ∉ D) → L.Nodup →
      GInv D buf cur →
      GInv (L ++ D) buf (patchSeq L cur).1 ∧
      ((patchSeq L cur).2 = true ↔ ∃ c ∈ L, ∃ p, Qual c buf p ∧ diffAt c buf p) := by
  intro L
  induction L with
  | nil =>
    intro D cur hLG hDG hLD hnd hinv
    rw [show patchSeq [] cur = (cur, false) from rfl]
    refine ⟨hinv, ?_⟩
    simp
  | cons c rest ih =>
    intro D cur hLG hDG hLD hnd hinv
    obtain ⟨hcrest, hndrest⟩ := List.nodup_cons.mp hnd
    obtain ⟨hstep, hflag⟩ := ginv_step hgood hD (hLG c (List.mem_cons_self c rest))
      hDG (hLD c (List.mem_cons_self c rest)) hinv
    obtain ⟨htail, htflag⟩ := ih (c :: D) (patchKey c.enc c.key c.rep cur).1
      (fun x hx => hLG x (List.mem_cons_of_mem _ hx))
      (fun x hx => by
        rcases List.mem_cons.mp hx with he | hvD
        · rw [he]; exact hLG c (List.mem_cons_self c rest)
        · exact hDG x hvD)
      (fun x hx hmem => by
        rcases List.mem_cons.mp hmem with he | hvD
        · exact hcrest (he ▸ hx)
        · exact hLD x (List.mem_cons_of_mem _ hx) hvD)
      hndrest hstep
    have hunfold : patchSeq (c :: rest) cur =
        ((patchSeq rest (patchKey c.enc c.key c.rep cur).1).1,
         (patchKey c.enc c.key c.rep cur).2 ||
           (patchSeq rest (patchKey c.enc c.key c.rep cur).1).2) := rfl
    rw [hunfold]
    constructor
    · refine ginv_mem_congr ?_ htail
      intro x
      simp only [List.mem_append, List.mem_cons]
      tauto
    · rw [Bool.or_eq_true, hflag, htflag]
      constructor
      · rintro (⟨p, hq, hd⟩ | ⟨c', hc', hex⟩)
        · exact ⟨c, List.mem_cons_self c rest, p, hq, hd⟩
        · exact ⟨c', List.mem_cons_of_mem _ hc', hex⟩
      · rintro ⟨c', hc', p, hq, hd⟩
        rcases List.mem_cons.mp hc' with he | hrest
        · left
          rw [he] at hq hd
          exact ⟨p, hq, hd⟩
        · right
          exact ⟨c', hrest, p, hq, hd⟩

theorem valStartOf_eq (key : List Nat) (p : Nat) : valStartOf key p = p + key.length := rfl

theorem sixCombos_good : ∀ x ∈ sixCombos, GoodCombo x := by decide

theorem sixCombos_nodup : sixCombos.Nodup := by decide

theorem patchSeq_sixCombos {buf : List Nat} (hD : DisjointExtents sixCombos buf) :
    GInv sixCombos buf (patchSeq sixCombos buf).1 ∧
    ((patchSeq sixCombos buf).2 = true ↔
      ∃ c ∈ sixCombos, ∃ p, Qual c buf p ∧ diffAt c buf p) := by
  have hinv0 : GInv [] buf buf :=
    ⟨rfl, fun c' hc' => absurd hc' (List.not_mem_nil c'), fun i _ => rfl⟩
  have h := patchSeq_spec sixCombos_good hD sixCombos [] buf (fun x hx => hx)
    (fun x hx => absurd hx (List.not_mem_nil x)) (fun x _ => List.not_mem_nil x)
    sixCombos_nodup hinv0
  exact ⟨ginv_mem_congr (by simp) h.1, h.2⟩

/-- The overall changed flag is set exactly when the output differs from
the input. -/
theorem flag_iff_ne {buf : List Nat} (hD : DisjointExtents sixCombos buf) :
    ((patchSeq sixCombos buf).2 = true ↔ (patchSeq sixCombos buf).1 ≠ buf) := by
  obtain ⟨hinv, hfl⟩ := patchSeq_sixCombos hD
  rw [hfl]
  constructor
  · rintro ⟨c, hc, p, hq, hd⟩
    obtain ⟨j, hj, hne⟩ := diff_byte hq hd
    intro heq
    have hb := hinv.2.1 c hc p hq j hj
    rw [heq] at hb
    exact hne hb
  · intro hne
    by_contra hno
    push_neg at hno
    apply hne
    apply byteAt_ext hinv.1
    intro i
    by_cases hz : ∃ c ∈ sixCombos, ∃ p, Qual c buf p ∧
        p + c.key.length ≤ i ∧ i < scanEndOf c buf p
    · obtain ⟨c, hc, p, hq, hvi, hise⟩ := hz
      have hb := hinv.2.1 c hc p hq (i - (p + c.key.length)) (by omega)
      rw [show p + c.key.length + (i - (p + c.key.length)) = i by omega] at hb
      rw [hb]
      have hnd : ¬ diffAt c buf p := hno c hc p hq
      have heq2 : (buf.drop (p + c.key.length)).take
            (scanEndOf c buf p - (p + c.key.length)) =
          targetFor c (scanEndOf c buf p - (p + c.key.length)) := not_not.mp hnd
      rw [← heq2, slice_getD _ _ _ _ (by omega),
        show p + c.key.length + (i - (p + c.key.length)) = i by omega]
    · apply hinv.2.2 i
      intro c hc p hq
      by_cases h1 : i < p + c.key.length
      · exact Or.inl h1
      · by_cases h2 : scanEndOf c buf p ≤ i
        · exact Or.inr h2
        · exact absurd ⟨c, hc, p, hq, by omega, by omega⟩ hz

/-- **C3** (amended to extent-disjoint inputs): on a file whose six
key-occurrence extents are pairwise disjoint, `patchQtCoreDllPrefixInfixPE`
keeps the file size, rewrites every qualifying occurrence's value to the
replacement `.` followed by zeros up to the original value length, leaves
every byte outside the qualifying value regions unchanged, and returns
`true` exactly when some byte changed. -/
theorem patchPE_characterization (buf : List Nat) (hD : DisjointExtents sixCombos buf) :
    (patchQtCoreDllPrefixInfixPE buf).1.length = buf.length ∧
    (∀ c ∈ sixCombos, ∀ p, occursAt buf c.key p →
      valStartOf c.key p < scanEndOf c buf p →
      c.rep.length ≤ scanEndOf c buf p - valStartOf c.key p →
      ((patchQtCoreDllPrefixInfixPE buf).1.drop (valStartOf c.key p)).take
          (scanEndOf c buf p - valStartOf c.key p) =
        targetFor c (scanEndOf c buf p - valStartOf c.key p)) ∧
    (∀ i, (∀ c ∈ sixCombos, ∀ p, occursAt buf c.key p →
        valStartOf c.key p < scanEndOf c buf p →
        c.rep.length ≤ scanEndOf c buf p - valStartOf c.key p →
        i < valStartOf c.key p ∨ scanEndOf c buf p ≤ i) →
      byteAt (patchQtCoreDllPrefixInfixPE buf).1 i = byteAt buf i) ∧
    ((patchQtCoreDllPrefixInfixPE buf).2 = true ↔
      (patchQtCoreDllPrefixInfixPE buf).1 ≠ buf) := by
  simp only [valStartOf_eq]
  by_cases hemp : buf = []
  · subst hemp
    rw [show patchQtCoreDllPrefixInfixPE [] = ([], false) from rfl]
    refine ⟨rfl, ?_, fun i _ => rfl, by simp⟩
    intro c hc p hocc h1 h2
    exfalso
    have hb : p + c.key.length ≤ 0 := hocc.1
    have hk2 := (sixCombos_good c hc).1
    omega
  · have hne' : ¬ (buf.isEmpty = true) := by
      simp [List.isEmpty_iff]
      exact hemp
    have hru : patchQtCoreDllPrefixInfixPE buf = patchSeq sixCombos buf := by
      unfold patchQtCoreDllPrefixInfixPE
      rw [if_neg hne']
    rw [hru]
    obtain ⟨hinv, -⟩ := patchSeq_sixCombos hD
    refine ⟨hinv.1, ?_, ?_, flag_iff_ne hD⟩
    · intro c hc p hocc h1 h2
      have hq : Qual c buf p := ⟨hocc, h1, h2⟩
      have hse : scanEndOf c buf p ≤ buf.length := scanEnd_le hocc.1
      apply List.ext_getElem
      · rw [slice_length (by rw [hinv.1]; omega), targetFor_length h2]
      · intro j hj1 hj2
        have hjlt : j < scanEndOf c buf p - (p + c.key.length) := by
          rw [slice_length (by rw [hinv.1]; omega)] at hj1
          exact hj1
        rw [← List.getD_eq_getElem _ 0 hj1, ← List.getD_eq_getElem _ 0 hj2,
          slice_getD _ _ _ _ hjlt]
        exact hinv.2.1 c hc p hq j hjlt
    · intro i hi
      apply hinv.2.2 i
      intro c hc p hq
      exact hi c hc p hq.1 hq.2.1 hq.2.2

/-- The counterexample file for the original claim: the `qt_epfxpath=` key
sits inside the value of a `qt_prfxpath=` occurrence. -/
def ceBuf : List Nat := asciiBytes "qt_prfxpath=qt_epfxpath=X" ++ [0]

/-- The pass whose per-occurrence guarantee the original claim breaks. -/
def ceCombo : Combo := ⟨Enc.ascii, asciiBytes "qt_epfxpath=", [0x2E]⟩

/-- **C3 counterexample**: in `ceBuf` the ASCII `qt_epfxpath=` key occurs at
offset 12 with the non-empty value `X` (length ≥ the replacement), yet after
`patchQtCoreDllPrefixInfixPE` the byte right after that key is `0`, not the
claimed `.`: the earlier `qt_prfxpath=` pass zero-filled it. -/
theorem patchPE_original_counterexample :
    ceCombo ∈ sixCombos ∧ occursAt ceBuf ceCombo.key 12 ∧
    valStartOf ceCombo.key 12 < scanEndOf ceCombo ceBuf 12 ∧
    ceCombo.rep.length ≤ scanEndOf ceCombo ceBuf 12 - valStartOf ceCombo.key 12 ∧
    byteAt (patchQtCoreDllPrefixInfixPE ceBuf).1 (valStartOf ceCombo.key 12) ≠ 0x2E := by
  decide

/-- A disjoint-extent file for the witness. -/
def wBuf : List Nat := asciiBytes "qt_prfxpath=AB" ++ [0]

/-- Witness: the amended theorem's hypothesis holds on a concrete file and
the theorem applies there. -/
theorem patchPE_characterization_witness :
    DisjointExtents sixCombos wBuf ∧
    ((patchQtCoreDllPrefixInfixPE wBuf).1.length = wBuf.length ∧
     ((patchQtCoreDllPrefixInfixPE wBuf).2 = true ↔
       (patchQtCoreDllPrefixInfixPE wBuf).1 ≠ wBuf)) :=
  ⟨by decide, (patchPE_characterization wBuf (by decide)).1,
    (patchPE_characterization wBuf (by decide)).2.2.2⟩

/-! ### Idempotence of the PE patcher

A key observation: for the six passes, an occurrence needs no change
exactly when a LOCAL condition on the 2-4 bytes after its key holds
(the value is empty, or is exactly the replacement followed by its
terminator).  That local condition is preserved by every write the
patcher performs, because keys never overlap each other and never
overlap a patched region. -/

/-- Local cleanliness of an 8-bit value starting at `vs`: empty (leading
NUL or end of file) or exactly `.` followed by its terminator. -/
def CleanA (B : List Nat) (vs : Nat) : Prop :=
  byteAt B vs = 0 ∨ (byteAt B vs = 0x2E ∧ byteAt B (vs + 1) = 0)

/-- Local cleanliness of a UTF-16 value starting at `vs`. -/
def CleanU (B : List Nat) (vs : Nat) : Prop :=
  B.length ≤ vs + 1 ∨ (byteAt B vs = 0 ∧ byteAt B (vs + 1) = 0) ∨
    (byteAt B vs = 0x2E ∧ byteAt B (vs + 1) = 0 ∧
      (B.length ≤ vs + 3 ∨ (byteAt B (vs + 2) = 0 ∧ byteAt B (vs + 3) = 0)))

/-- The loop would not touch the occurrence of `c.key` at `q`: its value
is empty or already `.`-then-zeros, expressed on the few bytes the scan
can reach. -/
def CleanLoc (c : Combo) (B : List Nat) (q : Nat) : Prop :=
  match c.enc with
  | .ascii => CleanA B (q + c.key.length)
  | .utf16 => CleanU B (q + c.key.length)

theorem cleanLoc_ascii {c : Combo} {B : List Nat} {q : Nat} (henc : c.enc = Enc.ascii) :
    CleanLoc c B q ↔ CleanA B (q + c.key.length) := by
  unfold CleanLoc
  rw [henc]

theorem cleanLoc_utf16 {c : Combo} {B : List Nat} {q : Nat} (henc : c.enc = Enc.utf16) :
    CleanLoc c B q ↔ CleanU B (q + c.key.length) := by
  unfold CleanLoc
  rw [henc]

/-- The replacement length of each pass: one code unit. -/
def RepFits (c : Combo) : Prop :=
  (c.enc = Enc.ascii → c.rep.length = 1) ∧ (c.enc = Enc.utf16 → c.rep.length = 2)

instance (c : Combo) : Decidable (RepFits c) := by
  unfold RepFits; infer_instance

/-- Distinct placements of the two keys can never overlap in any buffer:
at every overlap shift some byte of one key contradicts the other. -/
def ClashFree (c1 c2 : Combo) : Prop :=
  ∀ d, d < c1.key.length → (0 < d ∨ c1 ≠ c2) →
    ∃ j, j < c2.key.length ∧ d + j < c1.key.length ∧
      c1.key.getD (d + j) 0 ≠ c2.key.getD j 0

instance (c1 c2 : Combo) : Decidable (ClashFree c1 c2) := by
  unfold ClashFree; infer_instance

theorem sixCombos_clash : ∀ c1 ∈ sixCombos, ∀ c2 ∈ sixCombos, ClashFree c1 c2 := by decide

theorem sixCombos_repFits : ∀ c ∈ sixCombos, RepFits c := by decide

theorem sixCombos_key4 : ∀ c ∈ sixCombos, 4 ≤ c.key.length := by decide

/-- Overlapping occurrences of clash-free keys coincide. -/
theorem clash_apply {c1 c2 : Combo} {B : List Nat} {p1 p2 : Nat}
    (h12 : ClashFree c1 c2) (h21 : ClashFree c2 c1)
    (ho1 : occursAt B c1.key p1) (ho2 : occursAt B c2.key p2)
    (hov1 : p1 < p2 + c2.key.length) (hov2 : p2 < p1 + c1.key.length) :
    c1 = c2 ∧ p1 = p2 := by
  rw [occursAt_iff] at ho1 ho2
  by_cases hle : p1 ≤ p2
  · have hd : p2 - p1 < c1.key.length := by omega
    by_cases hzero : 0 < p2 - p1 ∨ c1 ≠ c2
    · obtain ⟨j, hj2, hj1, hne⟩ := h12 (p2 - p1) hd hzero
      exfalso
      have e1 := ho1.2 (p2 - p1 + j) hj1
      have e2 := ho2.2 j hj2
      rw [show p1 + (p2 - p1 + j) = p2 + j by omega] at e1
      exact hne (by rw [← e1, ← e2])
    · push_neg at hzero
      exact ⟨hzero.2, by omega⟩
  · have hd : p1 - p2 < c2.key.length := by omega
    obtain ⟨j, hj1, hj2, hne⟩ := h21 (p1 - p2) hd (Or.inl (by omega))
    exfalso
    have e2 := ho2.2 (p1 - p2 + j) hj2
    have e1 := ho1.2 j hj1
    rw [show p2 + (p1 - p2 + j) = p1 + j by omega] at e2
    exact hne (by rw [← e2, ← e1])

theorem scanA_empty {B : List Nat} {vs : Nat} (h0 : byteAt B vs = 0) (hvs : vs ≤ B.length) :
    scanA B vs = vs :=
  IsScanA_unique (scanA_isScanA hvs)
    ⟨le_refl _, hvs, fun j h1 h2 => by omega, fun _ => h0⟩

theorem scanA_one {B : List Nat} {vs : Nat} (hnz : byteAt B vs ≠ 0)
    (h1 : byteAt B (vs + 1) = 0) (hvs : vs ≤ B.length) : scanA B vs = vs + 1 := by
  have hlt : vs < B.length := by
    by_contra hge
    exact hnz (byteAt_eq_zero_of_le (by omega))
  refine IsScanA_unique (scanA_isScanA hvs) ⟨by omega, by omega, ?_, fun _ => h1⟩
  intro j hj1 hj2
  rw [show j = vs by omega]
  exact hnz

theorem scanU_stop {B : List Nat} {vs : Nat} (hvs : vs ≤ B.length)
    (h : B.length ≤ vs + 1 ∨ (byteAt B vs = 0 ∧ byteAt B (vs + 1) = 0)) :
    scanU B vs = vs := by
  refine IsScanU_unique (scanU_isScanU (by omega))
    ⟨le_refl _, by omega, by omega, fun j h1 h2 => by omega, fun hlt => ?_⟩
  rcases h with h | h
  · omega
  · exact h

theorem scanU_two {B : List Nat} {vs : Nat} (hvs : vs + 1 < B.length)
    (hnz : ¬(byteAt B vs = 0 ∧ byteAt B (vs + 1) = 0))
    (htail : B.length ≤ vs + 3 ∨ (byteAt B (vs + 2) = 0 ∧ byteAt B (vs + 3) = 0)) :
    scanU B vs = vs + 2 := by
  refine IsScanU_unique (scanU_isScanU (by omega))
    ⟨by omega, by omega, by omega, ?_, fun hlt => ?_⟩
  · intro j h1 h2 hpar
    rw [show j = vs by omega]
    exact ⟨hnz, hvs⟩
  · rcases htail with h | h
    · omega
    · exact h

theorem slice_one {B : List Nat} {vs : Nat} (h : vs < B.length) :
    (B.drop vs).take 1 = [byteAt B vs] := by
  apply List.ext_getElem
  · simp; omega
  · intro j h1 h2
    have hj : j = 0 := by simp at h2; omega
    subst hj
    rw [← List.getD_eq_getElem _ 0 h1, ← List.getD_eq_getElem _ 0 h2,
      slice_getD _ _ _ _ (by omega)]
    simp

theorem slice_two {B : List Nat} {vs : Nat} (h : vs + 1 < B.length) :
    (B.drop vs).take 2 = [byteAt B vs, byteAt B (vs + 1)] := by
  apply List.ext_getElem
  · simp; omega
  · intro j h1 h2
    have hj : j = 0 ∨ j = 1 := by simp at h2; omega
    rcases hj with hj | hj
    all_goals subst hj
    all_goals rw [← List.getD_eq_getElem _ 0 h1, ← List.getD_eq_getElem _ 0 h2,
      slice_getD _ _ _ _ (by omega)]
    · simp
    · simp

theorem rep_ascii {c : Combo} (henc : c.enc = Enc.ascii) (hg : GoodCombo c)
    (hrf : RepFits c) : c.rep = [0x2E] := by
  have hl : c.rep.length = 1 := hrf.1 henc
  obtain ⟨a, ha⟩ := List.length_eq_one.mp hl
  have hd := hg.2.2.2.2.2.1
  rw [ha] at hd ⊢
  simp [List.getD] at hd
  rw [hd]

theorem rep_utf16 {c : Combo} (henc : c.enc = Enc.utf16) (hg : GoodCombo c)
    (hrf : RepFits c) : c.rep = [0x2E, 0] := by
  have hl : c.rep.length = 2 := hrf.2 henc
  obtain ⟨a, b, hab⟩ := List.length_eq_two.mp hl
  have hd0 := hg.2.2.2.2.2.1
  have hd1 := hg.2.2.2.2.2.2 1 (by omega) (by omega)
  rw [hab] at hd0 hd1 ⊢
  simp [List.getD] at hd0 hd1
  rw [hd0, hd1]

/-- The loop leaves the occurrence of `c.key` at `q` unpatched exactly when
the local cleanliness condition holds. -/
theorem clean_iff_cleanLoc {c : Combo} {B : List Nat} {q : Nat}
    (hg : GoodCombo c) (hrf : RepFits c) (hocc : occursAt B c.key q) :
    (Qual c B q → ¬ diffAt c B q) ↔ CleanLoc c B q := by
  have hqb : q + c.key.length ≤ B.length := hocc.1
  cases henc : c.enc with
  | ascii =>
    have hrep := rep_ascii henc hg hrf
    have hrl : c.rep.length = 1 := by rw [hrep]; rfl
    have hsc : scanEndOf c B q = scanA B (q + c.key.length) := by
      unfold scanEndOf
      rw [henc]
      rfl
    rw [cleanLoc_ascii henc]
    unfold CleanA
    constructor
    · intro hcl
      by_cases h0 : byteAt B (q + c.key.length) = 0
      · exact Or.inl h0
      · right
        obtain ⟨s1, s2, s3, s4⟩ := scanA_isScanA hqb
        have hlt : q + c.key.length < B.length := by
          by_contra hge
          exact h0 (byteAt_eq_zero_of_le (by omega))
        have hse : q + c.key.length < scanA B (q + c.key.length) := by
          rcases Nat.eq_or_lt_of_le s1 with he | hl
          · exfalso
            rcases Nat.lt_or_ge (scanA B (q + c.key.length)) B.length with hc | hc
            · exact h0 (by rw [he]; exact s4 hc)
            · omega
          · exact hl
        have hqual : Qual c B q := ⟨hocc, by rw [hsc]; exact hse, by rw [hsc, hrl]; omega⟩
        have heq := not_not.mp (fun hd => hcl hqual hd)
        rw [hsc] at heq
        have hbyte : ∀ j, j < scanA B (q + c.key.length) - (q + c.key.length) →
            byteAt B (q + c.key.length + j) =
              (targetFor c (scanA B (q + c.key.length) - (q + c.key.length))).getD j 0 := by
          intro j hj
          rw [← slice_getD _ _ _ _ hj, heq]
        constructor
        · have := hbyte 0 (by omega)
          rw [targetFor_getD hg _ _ (by omega)] at this
          simpa using this
        · rcases Nat.lt_or_ge (q + c.key.length + 1) (scanA B (q + c.key.length)) with hc | hc
          · exfalso
            have h1 := hbyte 1 (by omega)
            rw [targetFor_getD hg _ _ (by omega), if_neg (by omega)] at h1
            exact s3 (q + c.key.length + 1) (by omega) hc h1
          · have hse1 : scanA B (q + c.key.length) = q + c.key.length + 1 := by omega
            rcases Nat.lt_or_ge (q + c.key.length + 1) B.length with hc2 | hc2
            · rw [← hse1]
              exact s4 (by omega)
            · exact byteAt_eq_zero_of_le (by omega)
    · intro hcl hqual hdiff
      rcases hcl with h0 | ⟨hdot, h1⟩
      · have hse : scanA B (q + c.key.length) = q + c.key.length := scanA_empty h0 hqb
        have := hqual.2.1
        rw [hsc] at this
        omega
      · have hse : scanA B (q + c.key.length) = q + c.key.length + 1 :=
          scanA_one (by rw [hdot]; omega) h1 hqb
        have hlt : q + c.key.length < B.length := by
          by_contra hge
          rw [byteAt_eq_zero_of_le (by omega)] at hdot
          omega
        apply hdiff
        rw [hsc, hse, show q + c.key.length + 1 - (q + c.key.length) = 1 by omega,
          slice_one hlt, hdot]
        unfold targetFor
        rw [hrep]
        simp
  | utf16 =>
    have hrep := rep_utf16 henc hg hrf
    have hrl : c.rep.length = 2 := by rw [hrep]; rfl
    have hsc : scanEndOf c B q = scanU B (q + c.key.length) := by
      unfold scanEndOf
      rw [henc]
      rfl
    rw [cleanLoc_utf16 henc]
    unfold CleanU
    constructor
    · intro hcl
      by_cases hb1 : B.length ≤ q + c.key.length + 1
      · exact Or.inl hb1
      · by_cases hz : byteAt B (q + c.key.length) = 0 ∧ byteAt B (q + c.key.length + 1) = 0
        · exact Or.inr (Or.inl hz)
        · right; right
          obtain ⟨s1, s2, s3, s4, s5⟩ := @scanU_isScanU B (q + c.key.length) (by omega)
          have hse2 : q + c.key.length + 2 ≤ scanU B (q + c.key.length) := by
            have hne : scanU B (q + c.key.length) ≠ q + c.key.length := by
              intro he
              rw [he] at s5
              exact hz (s5 (by omega))
            omega
          have hqual : Qual c B q := ⟨hocc, by rw [hsc]; omega, by rw [hsc, hrl]; omega⟩
          have heq := not_not.mp (fun hd => hcl hqual hd)
          rw [hsc] at heq
          have hbyte : ∀ j, j < scanU B (q + c.key.length) - (q + c.key.length) →
              byteAt B (q + c.key.length + j) =
                (targetFor c (scanU B (q + c.key.length) - (q + c.key.length))).getD j 0 := by
            intro j hj
            rw [← slice_getD _ _ _ _ hj, heq]
          have hb0 := hbyte 0 (by omega)
          rw [targetFor_getD hg _ _ (by omega)] at hb0
          have hb1' := hbyte 1 (by omega)
          rw [targetFor_getD hg _ _ (by omega), if_neg (by omega)] at hb1'
          refine ⟨by simpa using hb0, hb1', ?_⟩
          by_cases hb3 : B.length ≤ q + c.key.length + 3
          · exact Or.inl hb3
          · right
            rcases Nat.lt_or_ge (q + c.key.length + 2)
                (scanU B (q + c.key.length)) with hc | hc
            · exfalso
              have h2 := hbyte 2 (by omega)
              have h3 := hbyte 3 (by
                have hev := s2
                omega)
              rw [targetFor_getD hg _ _ (by omega), if_neg (by omega)] at h2
              rw [targetFor_getD hg _ _ (by omega), if_neg (by omega)] at h3
              exact (s4 (q + c.key.length + 2) (by omega) hc (by omega)).1 ⟨h2, h3⟩
            · have hse : scanU B (q + c.key.length) = q + c.key.length + 2 := by omega
              have := s5 (by omega)
              rw [hse] at this
              exact this
    · intro hcl hqual hdiff
      have hq21 := hqual.2.1
      rw [hsc] at hq21
      rcases hcl with hb1 | hz | ⟨hdot, h1, htail⟩
      · rw [scanU_stop (by omega) (Or.inl hb1)] at hq21
        omega
      · rw [scanU_stop (by omega) (Or.inr hz)] at hq21
        omega
      · by_cases hb1 : B.length ≤ q + c.key.length + 1
        · rw [scanU_stop (by omega) (Or.inl hb1)] at hq21
          omega
        · have hse : scanU B (q + c.key.length) = q + c.key.length + 2 :=
            scanU_two (by omega) (by rw [hdot]; omega) htail
          apply hdiff
          rw [hsc, hse, show q + c.key.length + 2 - (q + c.key.length) = 2 by omega,
            slice_two (by omega), hdot, h1]
          unfold targetFor
          rw [hrep]
          simp

/-- A pass over a buffer with no differing qualifying occurrence changes
nothing and reports `false`. -/
theorem patchKeyLoop_noop {c : Combo} (hg : GoodCombo c) {b : List Nat}
    (hcl : ∀ q, Qual c b q → ¬ diffAt c b q) :
    ∀ fuel pos, b.length + 1 ≤ fuel + pos →
      patchKeyLoop c.enc c.key c.rep fuel b false pos = (b, false) := by
  have hk2 := hg.1
  intro fuel
  induction fuel with
  | zero => intro pos h; rfl
  | succ fuel ih =>
    intro pos h
    rw [patchKeyLoop_succ_eq]
    cases hf : findFrom b c.key pos with
    | none => rfl
    | some p =>
      have hsome := findFrom_spec b c.key pos
      rw [hf] at hsome
      obtain ⟨hppos, hpocc, -⟩ := hsome
      have hpb : p + c.key.length ≤ b.length := hpocc.1
      have hge : p + c.key.length ≤ scanEndOf c b p := scanEnd_ge hpb
      dsimp only
      have hfold : scanFor c.enc b (p + c.key.length) = scanEndOf c b p := rfl
      rw [hfold]
      by_cases hempty : scanEndOf c b p ≤ p + c.key.length
      · rw [if_pos hempty]
        exact ih (p + c.key.length) (by omega)
      · rw [if_neg hempty]
        by_cases hlenr : c.rep.length ≤ scanEndOf c b p - (p + c.key.length)
        · rw [if_pos hlenr]
          have hqual : Qual c b p := ⟨hpocc, by omega, hlenr⟩
          have hnd := hcl p hqual
          have htE : targetFor c (scanEndOf c b p - (p + c.key.length)) =
              c.rep ++ List.replicate (scanEndOf c b p - (p + c.key.length) - c.rep.length) 0 :=
            rfl
          rw [← htE]
          have hnd' : ¬(List.take (scanEndOf c b p - (p + c.key.length))
              (List.drop (p + c.key.length) b) ≠
                targetFor c (scanEndOf c b p - (p + c.key.length))) := hnd
          rw [if_neg hnd']
          exact ih (scanEndOf c b p) (by omega)
        · rw [if_neg hlenr]
          exact ih (scanEndOf c b p) (by omega)

theorem patchKey_noop {c : Combo} (hg : GoodCombo c) {b : List Nat}
    (hcl : ∀ q, Qual c b q → ¬ diffAt c b q) :
    patchKey c.enc c.key c.rep b = (b, false) :=
  patchKeyLoop_noop hg hcl (b.length + 1) 0 (by omega)

theorem patchSeq_noop {b : List Nat} :
    ∀ L : List Combo, (∀ c ∈ L, GoodCombo c) →
      (∀ c ∈ L, ∀ q, Qual c b q → ¬ diffAt c b q) →
      patchSeq L b = (b, false) := by
  intro L
  induction L with
  | nil => intro _ _; rfl
  | cons c rest ih =>
    intro hgood hcl
    have h1 := patchKey_noop (hgood c (List.mem_cons_self c rest))
      (hcl c (List.mem_cons_self c rest))
    have hunfold : patchSeq (c :: rest) b =
        ((patchSeq rest (patchKey c.enc c.key c.rep b).1).1,
         (patchKey c.enc c.key c.rep b).2 ||
           (patchSeq rest (patchKey c.enc c.key c.rep b).1).2) := rfl
    rw [hunfold, h1]
    have h2 := ih (fun x hx => hgood x (List.mem_cons_of_mem _ hx))
      (fun x hx => hcl x (List.mem_cons_of_mem _ hx))
    simp [h2]

/-- A fully clean buffer is a fixed point reported unchanged. -/
theorem patch_noop {B : List Nat}
    (hcl : ∀ c ∈ sixCombos, ∀ q, occursAt B c.key q → CleanLoc c B q) :
    patchQtCoreDllPrefixInfixPE B = (B, false) := by
  unfold patchQtCoreDllPrefixInfixPE
  by_cases he : B.isEmpty = true
  · rw [if_pos he]
  · rw [if_neg he]
    apply patchSeq_noop sixCombos sixCombos_good
    intro c hc q hq
    exact (clean_iff_cleanLoc (sixCombos_good c hc) (sixCombos_repFits c hc) hq.1).mpr
      (hcl c hc q hq.1) hq

/-- Context of one write step: a qualifying occurrence of `c'` at `p'`. -/
structure WCtx (c' : Combo) (cur : List Nat) (p' : Nat) : Prop where
  hg : GoodCombo c'
  hrf : RepFits c'
  hocc : occursAt cur c'.key p'
  hvse : p' + c'.key.length < scanEndOf c' cur p'
  hlen : c'.rep.length ≤ scanEndOf c' cur p' - (p' + c'.key.length)

/-- The buffer after that write. -/
def wOut (c' : Combo) (cur : List Nat) (p' : Nat) : List Nat :=
  writeAt cur (p' + c'.key.length)
    (targetFor c' (scanEndOf c' cur p' - (p' + c'.key.length)))

theorem wctx_se_le {c' : Combo} {cur : List Nat} {p' : Nat} (h : WCtx c' cur p') :
    scanEndOf c' cur p' ≤ cur.length := scanEnd_le h.hocc.1

theorem wctx_tlen {c' : Combo} {cur : List Nat} {p' : Nat} (h : WCtx c' cur p') :
    (targetFor c' (scanEndOf c' cur p' - (p' + c'.key.length))).length =
      scanEndOf c' cur p' - (p' + c'.key.length) := targetFor_length h.hlen

theorem wOut_length {c' : Combo} {cur : List Nat} {p' : Nat} (h : WCtx c' cur p') :
    (wOut c' cur p').length = cur.length := by
  have h1 := wctx_se_le h
  have h2 := wctx_tlen h
  have h3 := h.hocc.1
  unfold wOut
  rw [writeAt_length (by omega)]

theorem wOut_byte_out {c' : Combo} {cur : List Nat} {p' : Nat} (h : WCtx c' cur p')
    {i : Nat} (hi : i < p' + c'.key.length ∨ scanEndOf c' cur p' ≤ i) :
    byteAt (wOut c' cur p') i = byteAt cur i := by
  have h1 := wctx_se_le h
  have h2 := wctx_tlen h
  have h3 := h.hocc.1
  have h4 := h.hvse
  unfold wOut
  rcases hi with hi | hi
  · exact byteAt_writeAt_lt hi (by omega)
  · exact byteAt_writeAt_ge (by omega) (by omega)

theorem wOut_byte_in {c' : Combo} {cur : List Nat} {p' : Nat} (h : WCtx c' cur p')
    {i : Nat} (h1 : p' + c'.key.length ≤ i) (h2 : i < scanEndOf c' cur p') :
    byteAt (wOut c' cur p') i = if i = p' + c'.key.length then 0x2E else 0 := by
  have hse := wctx_se_le h
  have htl := wctx_tlen h
  have hb := h.hocc.1
  unfold wOut
  rw [byteAt_writeAt_inside h1 (by omega) (by omega),
    targetFor_getD h.hg _ _ (by
      have := h.hlen
      omega)]
  by_cases hi0 : i = p' + c'.key.length
  · rw [if_pos (by omega), if_pos hi0]
  · rw [if_neg (by omega), if_neg hi0]

/-- Any key occurrence in the written buffer avoids the zone and already
occurred before the write. -/
theorem wOut_occ {c' : Combo} {cur : List Nat} {p' : Nat} (h : WCtx c' cur p')
    {c : Combo} (hgc : GoodCombo c) {q : Nat}
    (hocc2 : occursAt (wOut c' cur p') c.key q) :
    (q + c.key.length ≤ p' + c'.key.length ∨ scanEndOf c' cur p' ≤ q) ∧
      occursAt cur c.key q := by
  have havoid := no_key_over_zone hgc.1 hgc.2.1 hgc.2.2.1
    (fun j hj => hgc.2.2.2.1 j (by omega)) h.hvse
    (fun i h1 h2 => wOut_byte_in h h1 h2) hocc2
  refine ⟨havoid, occursAt_congr (wOut_length h).symm ?_ hocc2⟩
  intro i hi1 hi2
  refine (wOut_byte_out h ?_).symm
  rcases havoid with ha | ha
  · left; omega
  · right
    have := scanEnd_ge h.hocc.1
    omega

/-- Bytes at and after the old scan end, as seen by the write. -/
theorem wctx_term_ascii {c' : Combo} {cur : List Nat} {p' : Nat} (h : WCtx c' cur p')
    (henc : c'.enc = Enc.ascii) : byteAt cur (scanEndOf c' cur p') = 0 := by
  have hsc : scanEndOf c' cur p' = scanA cur (p' + c'.key.length) := by
    unfold scanEndOf
    rw [henc]
    rfl
  obtain ⟨s1, s2, s3, s4⟩ := scanA_isScanA h.hocc.1
  rw [hsc]
  rcases Nat.lt_or_ge (scanA cur (p' + c'.key.length)) cur.length with hc | hc
  · exact s4 hc
  · exact byteAt_eq_zero_of_le hc

theorem wctx_term_utf16 {c' : Combo} {cur : List Nat} {p' : Nat} (h : WCtx c' cur p')
    (henc : c'.enc = Enc.utf16) :
    cur.length ≤ scanEndOf c' cur p' + 1 ∨
      (byteAt cur (scanEndOf c' cur p') = 0 ∧ byteAt cur (scanEndOf c' cur p' + 1) = 0) := by
  have hsc : scanEndOf c' cur p' = scanU cur (p' + c'.key.length) := by
    unfold scanEndOf
    rw [henc]
    rfl
  obtain ⟨s1, s2, s3, s4, s5⟩ :=
    @scanU_isScanU cur (p' + c'.key.length) (by have := h.hocc.1; omega)
  rw [hsc]
  rcases Nat.lt_or_ge (scanU cur (p' + c'.key.length) + 1) cur.length with hc | hc
  · exact Or.inr (s5 hc)
  · exact Or.inl hc

theorem wctx_parity_utf16 {c' : Combo} {cur : List Nat} {p' : Nat} (h : WCtx c' cur p')
    (henc : c'.enc = Enc.utf16) :
    (scanEndOf c' cur p' - (p' + c'.key.length)) % 2 = 0 := by
  have hsc : scanEndOf c' cur p' = scanU cur (p' + c'.key.length) := by
    unfold scanEndOf
    rw [henc]
    rfl
  obtain ⟨s1, s2, s3, s4, s5⟩ :=
    @scanU_isScanU cur (p' + c'.key.length) (by have := h.hocc.1; omega)
  rw [hsc]
  exact s2

/-- The freshly patched occurrence is locally clean. -/
theorem wOut_fresh_clean {c' : Combo} {cur : List Nat} {p' : Nat} (h : WCtx c' cur p') :
    CleanLoc c' (wOut c' cur p') p' := by
  have hvse := h.hvse
  have hb0 : byteAt (wOut c' cur p') (p' + c'.key.length) = 0x2E := by
    rw [wOut_byte_in h (le_refl _) hvse, if_pos rfl]
  cases henc : c'.enc with
  | ascii =>
    rw [cleanLoc_ascii henc]
    right
    refine ⟨hb0, ?_⟩
    rcases Nat.lt_or_ge (p' + c'.key.length + 1) (scanEndOf c' cur p') with hc | hc
    · rw [wOut_byte_in h (by omega) hc, if_neg (by omega)]
    · have hse : scanEndOf c' cur p' = p' + c'.key.length + 1 := by omega
      rw [show p' + c'.key.length + 1 = scanEndOf c' cur p' from hse.symm,
        wOut_byte_out h (Or.inr (le_refl _))]
      exact wctx_term_ascii h henc
  | utf16 =>
    rw [cleanLoc_utf16 henc]
    right; right
    have hpar := wctx_parity_utf16 h henc
    have hsz2 : p' + c'.key.length + 2 ≤ scanEndOf c' cur p' := by omega
    refine ⟨hb0, by rw [wOut_byte_in h (by omega) (by omega), if_neg (by omega)], ?_⟩
    have hL := wOut_length h
    by_cases hb3 : cur.length ≤ p' + c'.key.length + 3
    · left; omega
    · right
      rcases Nat.lt_or_ge (p' + c'.key.length + 3) (scanEndOf c' cur p') with hc | hc
      · constructor
        · rw [wOut_byte_in h (by omega) (by omega), if_neg (by omega)]
        · rw [wOut_byte_in h (by omega) hc, if_neg (by omega)]
      · have hse : scanEndOf c' cur p' = p' + c'.key.length + 2 := by omega
        rcases wctx_term_utf16 h henc with ht | ht
        · exfalso; omega
        · constructor
          · rw [show p' + c'.key.length + 2 = scanEndOf c' cur p' from hse.symm,
              wOut_byte_out h (Or.inr (le_refl _))]
            exact ht.1
          · rw [show p' + c'.key.length + 3 = scanEndOf c' cur p' + 1 from by omega,
              wOut_byte_out h (Or.inr (by omega))]
            exact ht.2

theorem cleanLoc_congr {c : Combo} {B1 B2 : List Nat} {q : Nat}
    (hlen : B1.length = B2.length)
    (h0 : byteAt B1 (q + c.key.length) = byteAt B2 (q + c.key.length))
    (h1 : byteAt B1 (q + c.key.length + 1) = byteAt B2 (q + c.key.length + 1))
    (h2 : byteAt B1 (q + c.key.length + 2) = byteAt B2 (q + c.key.length + 2))
    (h3 : byteAt B1 (q + c.key.length + 3) = byteAt B2 (q + c.key.length + 3))
    (h : CleanLoc c B2 q) : CleanLoc c B1 q := by
  cases henc : c.enc with
  | ascii =>
    rw [cleanLoc_ascii henc] at h ⊢
    unfold CleanA at h ⊢
    rw [h0, h1]
    exact h
  | utf16 =>
    rw [cleanLoc_utf16 henc] at h ⊢
    unfold CleanU at h ⊢
    rw [h0, h1, h2, h3, hlen]
    exact h

/-- The write preserves local cleanliness of every other occurrence. -/
theorem wOut_preserves_clean {c' : Combo} {cur : List Nat} {p' : Nat} (h : WCtx c' cur p')
    (hk4 : 4 ≤ c'.key.length) {c : Combo} (hgc : GoodCombo c)
    (hcf1 : ClashFree c c') (hcf2 : ClashFree c' c) {q : Nat}
    (hocc2 : occursAt (wOut c' cur p') c.key q)
    (hold : CleanLoc c cur q) (hne : ¬(c = c' ∧ q = p')) :
    CleanLoc c (wOut c' cur p') q := by
  obtain ⟨havoid, hoccc⟩ := wOut_occ h hgc hocc2
  have hexcl : ∀ t, t < c'.key.length → q + c.key.length + t ≠ p' + c'.key.length := by
    intro t ht heq
    have hk2 := hgc.1
    have hov := clash_apply hcf1 hcf2 hoccc h.hocc (by omega) (by omega)
    apply hne
    refine ⟨hov.1, hov.2⟩
  have hout : ∀ t, q + c.key.length + t < p' + c'.key.length ∨
      scanEndOf c' cur p' ≤ q + c.key.length + t →
      byteAt (wOut c' cur p') (q + c.key.length + t) = byteAt cur (q + c.key.length + t) :=
    fun t ht => wOut_byte_out h ht
  rcases havoid with hA | hB
  · -- the key sits before the zone; the zone starts at least 4 bytes past the value
    have hfar : q + c.key.length + 4 ≤ p' + c'.key.length := by
      have e0 := hexcl 0 (by omega)
      have e1 := hexcl 1 (by omega)
      have e2 := hexcl 2 (by omega)
      have e3 := hexcl 3 (by omega)
      omega
    exact cleanLoc_congr (wOut_length h) (hout 0 (by omega)) (hout 1 (by omega))
      (hout 2 (by omega)) (hout 3 (by omega)) hold
  · -- the key sits after the zone entirely
    have hk2 := hgc.1
    exact cleanLoc_congr (wOut_length h) (hout 0 (by omega)) (hout 1 (by omega))
      (hout 2 (by omega)) (hout 3 (by omega)) hold

/-- An occurrence with an empty value is locally clean. -/
theorem scanEmpty_cleanLoc {c' : Combo} {cur : List Nat} {p : Nat}
    (hocc : occursAt cur c'.key p)
    (hse : scanEndOf c' cur p ≤ p + c'.key.length) : CleanLoc c' cur p := by
  have hb := hocc.1
  cases henc : c'.enc with
  | ascii =>
    have hsc : scanEndOf c' cur p = scanA cur (p + c'.key.length) := by
      unfold scanEndOf
      rw [henc]
      rfl
    obtain ⟨s1, s2, s3, s4⟩ := scanA_isScanA hb
    rw [cleanLoc_ascii henc]
    left
    rw [hsc] at hse
    rcases Nat.lt_or_ge (p + c'.key.length) cur.length with hc | hc
    · have h4 := s4 (by omega)
      rw [show scanA cur (p + c'.key.length) = p + c'.key.length from by omega] at h4
      exact h4
    · exact byteAt_eq_zero_of_le (by omega)
  | utf16 =>
    have hsc : scanEndOf c' cur p = scanU cur (p + c'.key.length) := by
      unfold scanEndOf
      rw [henc]
      rfl
    obtain ⟨s1, s2, s3, s4, s5⟩ :=
      @scanU_isScanU cur (p + c'.key.length) (by omega)
    rw [cleanLoc_utf16 henc]
    rw [hsc] at hse
    rcases Nat.lt_or_ge (p + c'.key.length + 1) cur.length with hc | hc
    · right; left
      have h5 := s5 (by omega)
      rw [show scanU cur (p + c'.key.length) = p + c'.key.length from by omega] at h5
      exact h5
    · left
      omega

/-- The loop of one pass leaves every occurrence of its own key locally
clean and preserves local cleanliness of the keys already processed. -/
theorem patchKeyLoop_cleans {c' : Combo} (hg' : GoodCombo c') (hrf' : RepFits c')
    (hk4 : 4 ≤ c'.key.length) (hself : ClashFree c' c')
    {S : List Combo}
    (hS : ∀ x ∈ S, GoodCombo x ∧ RepFits x ∧ ClashFree x c' ∧ ClashFree c' x ∧ x ≠ c') :
    ∀ fuel cur ch pos, cur.length + 1 ≤ fuel + pos →
      (∀ x ∈ S, ∀ q, occursAt cur x.key q → CleanLoc x cur q) →
      (∀ q, occursAt cur c'.key q → q < pos → CleanLoc c' cur q) →
      (∀ x ∈ S, ∀ q, occursAt (patchKeyLoop c'.enc c'.key c'.rep fuel cur ch pos).1 x.key q →
          CleanLoc x (patchKeyLoop c'.enc c'.key c'.rep fuel cur ch pos).1 q) ∧
      (∀ q, occursAt (patchKeyLoop c'.enc c'.key c'.rep fuel cur ch pos).1 c'.key q →
          CleanLoc c' (patchKeyLoop c'.enc c'.key c'.rep fuel cur ch pos).1 q) ∧
      (patchKeyLoop c'.enc c'.key c'.rep fuel cur ch pos).1.length = cur.length := by
  have hk2 : 2 ≤ c'.key.length := hg'.1
  intro fuel
  induction fuel with
  | zero =>
    intro cur ch pos hfuel hinvS hinvP
    rw [show patchKeyLoop c'.enc c'.key c'.rep 0 cur ch pos = (cur, ch) from rfl]
    exact ⟨hinvS, fun q hq => hinvP q hq (by
      have hb : q + c'.key.length ≤ cur.length := hq.1
      omega), rfl⟩
  | succ fuel ih =>
    intro cur ch pos hfuel hinvS hinvP
    rw [patchKeyLoop_succ_eq]
    cases hf : findFrom cur c'.key pos with
    | none =>
      have hnone := findFrom_spec cur c'.key pos
      rw [hf] at hnone
      dsimp only
      refine ⟨hinvS, fun q hq => ?_, rfl⟩
      by_cases hqpos : q < pos
      · exact hinvP q hq hqpos
      · exact absurd hq (hnone q (by omega))
    | some p =>
      have hsome := findFrom_spec cur c'.key pos
      rw [hf] at hsome
      obtain ⟨hppos, hpocc, hpmin⟩ := hsome
      have hpb : p + c'.key.length ≤ cur.length := hpocc.1
      have hge : p + c'.key.length ≤ scanEndOf c' cur p := scanEnd_ge hpb
      have hle2 : scanEndOf c' cur p ≤ cur.length := scanEnd_le hpb
      dsimp only
      have hfold : scanFor c'.enc cur (p + c'.key.length) = scanEndOf c' cur p := rfl
      rw [hfold]
      by_cases hempty : scanEndOf c' cur p ≤ p + c'.key.length
      · rw [if_pos hempty]
        have hinvP' : ∀ q, occursAt cur c'.key q → q < p + c'.key.length →
            CleanLoc c' cur q := by
          intro q hq hqlt
          by_cases hqpos : q < pos
          · exact hinvP q hq hqpos
          · by_cases hqp : q < p
            · exact absurd hq (hpmin q (by omega) hqp)
            · by_cases hqe : q = p
              · rw [hqe]
                exact scanEmpty_cleanLoc hpocc hempty
              · exfalso
                have hov := clash_apply hself hself hq hpocc (by omega) (by omega)
                exact hqe hov.2
        exact ih cur ch (p + c'.key.length) (by omega) hinvS hinvP'
      · rw [if_neg hempty]
        by_cases hlenr : c'.rep.length ≤ scanEndOf c' cur p - (p + c'.key.length)
        · rw [if_pos hlenr]
          have hctx : WCtx c' cur p := ⟨hg', hrf', hpocc, by omega, hlenr⟩
          have htE : targetFor c' (scanEndOf c' cur p - (p + c'.key.length)) =
              c'.rep ++ List.replicate
                (scanEndOf c' cur p - (p + c'.key.length) - c'.rep.length) 0 := rfl
          rw [← htE]
          by_cases hdiff : List.take (scanEndOf c' cur p - (p + c'.key.length))
              (List.drop (p + c'.key.length) cur) ≠
              targetFor c' (scanEndOf c' cur p - (p + c'.key.length))
          · rw [if_pos hdiff]
            have hwo : writeAt cur (p + c'.key.length)
                (targetFor c' (scanEndOf c' cur p - (p + c'.key.length))) = wOut c' cur p := rfl
            rw [hwo]
            have hinvS' : ∀ x ∈ S, ∀ q, occursAt (wOut c' cur p) x.key q →
                CleanLoc x (wOut c' cur p) q := by
              intro x hx q hq
              obtain ⟨hgx, hrx, hc1, hc2, hxne⟩ := hS x hx
              obtain ⟨-, hqc⟩ := wOut_occ hctx hgx hq
              exact wOut_preserves_clean hctx hk4 hgx hc1 hc2 hq (hinvS x hx q hqc)
                (fun he => hxne he.1)
            have hinvP' : ∀ q, occursAt (wOut c' cur p) c'.key q →
                q < scanEndOf c' cur p → CleanLoc c' (wOut c' cur p) q := by
              intro q hq hqlt
              obtain ⟨hav, hqc⟩ := wOut_occ hctx hg' hq
              by_cases hqe : q = p
              · rw [hqe]
                exact wOut_fresh_clean hctx
              · rcases hav with ha | hb
                · by_cases hqpos : q < pos
                  · exact wOut_preserves_clean hctx hk4 hg' hself hself hq
                      (hinvP q hqc hqpos) (fun he => hqe he.2)
                  · exact absurd hqc (hpmin q (by omega) (by omega))
                · omega
            obtain ⟨o1, o2, o3⟩ := ih (wOut c' cur p) true (scanEndOf c' cur p)
              (by rw [wOut_length hctx]; omega) hinvS' hinvP'
            exact ⟨o1, o2, by rw [o3, wOut_length hctx]⟩
          · rw [if_neg hdiff]
            have heq := not_not.mp hdiff
            have hinvP' : ∀ q, occursAt cur c'.key q → q < scanEndOf c' cur p →
                CleanLoc c' cur q := by
              intro q hq hqlt
              by_cases hqpos : q < pos
              · exact hinvP q hq hqpos
              · by_cases hqp : q < p
                · exact absurd hq (hpmin q (by omega) hqp)
                · by_cases hqe : q = p
                  · rw [hqe]
                    exact (clean_iff_cleanLoc hg' hrf' hpocc).mp (fun _ hd => hd heq)
                  · exfalso
                    have hzone : ∀ i, p + c'.key.length ≤ i → i < scanEndOf c' cur p →
                        byteAt cur i = if i = p + c'.key.length then 0x2E else 0 := by
                      intro i h1 h2
                      have hj : i - (p + c'.key.length) <
                          scanEndOf c' cur p - (p + c'.key.length) := by omega
                      have hs := slice_getD cur (p + c'.key.length)
                        (scanEndOf c' cur p - (p + c'.key.length)) (i - (p + c'.key.length)) hj
                      rw [show p + c'.key.length + (i - (p + c'.key.length)) = i
                        from by omega] at hs
                      rw [← hs, heq, targetFor_getD hg' _ _ hlenr]
                      by_cases hi0 : i = p + c'.key.length
                      · rw [if_pos (by omega), if_pos hi0]
                      · rw [if_neg (by omega), if_neg hi0]
                    have hav := no_key_over_zone hk2 hg'.2.1 hg'.2.2.1
                      (fun j hj => hg'.2.2.2.1 j (by omega)) (by omega) hzone hq
                    rcases hav with h | h <;> omega
            exact ih cur ch (scanEndOf c' cur p) (by omega) hinvS hinvP'
        · exfalso
          cases henc : c'.enc with
          | ascii =>
            have hrl : c'.rep.length = 1 := hrf'.1 henc
            omega
          | utf16 =>
            have hrl : c'.rep.length = 2 := hrf'.2 henc
            have hpar : (scanEndOf c' cur p - (p + c'.key.length)) % 2 = 0 := by
              have hsc : scanEndOf c' cur p = scanU cur (p + c'.key.length) := by
                unfold scanEndOf
                rw [henc]
                rfl
              obtain ⟨s1, s2, -⟩ :=
                @scanU_isScanU cur (p + c'.key.length) (by omega)
              rw [hsc]
              exact s2
            omega

theorem patchKey_cleans {c' : Combo} (hg' : GoodCombo c') (hrf' : RepFits c')
    (hk4 : 4 ≤ c'.key.length) (hself : ClashFree c' c') {S : List Combo}
    (hS : ∀ x ∈ S, GoodCombo x ∧ RepFits x ∧ ClashFree x c' ∧ ClashFree c' x ∧ x ≠ c')
    {b : List Nat}
    (hinvS : ∀ x ∈ S, ∀ q, occursAt b x.key q → CleanLoc x b q) :
    (∀ x ∈ S, ∀ q, occursAt (patchKey c'.enc c'.key c'.rep b).1 x.key q →
        CleanLoc x (patchKey c'.enc c'.key c'.rep b).1 q) ∧
    (∀ q, occursAt (patchKey c'.enc c'.key c'.rep b).1 c'.key q →
        CleanLoc c' (patchKey c'.enc c'.key c'.rep b).1 q) ∧
    (patchKey c'.enc c'.key c'.rep b).1.length = b.length :=
  patchKeyLoop_cleans hg' hrf' hk4 hself hS (b.length + 1) b false 0 (by omega) hinvS
    (fun q hq hqlt => absurd hqlt (by omega))

theorem patchSeq_cleans :
    ∀ (L S : List Combo) (b : List Nat), (∀ x ∈ L, x ∈ sixCombos) →
      (∀ x ∈ S, x ∈ sixCombos) → (∀ x ∈ L, x ∉ S) → L.Nodup →
      (∀ x ∈ S, ∀ q, occursAt b x.key q → CleanLoc x b q) →
      (∀ x ∈ L ++ S, ∀ q, occursAt (patchSeq L b).1 x.key q →
          CleanLoc x (patchSeq L b).1 q) ∧
      (patchSeq L b).1.length = b.length := by
  intro L
  induction L with
  | nil =>
    intro S b hLG hSG hLS hnd hinvS
    exact ⟨fun x hx q hq => hinvS x (by simpa using hx) q hq, rfl⟩
  | cons c rest ih =>
    intro S b hLG hSG hLS hnd hinvS
    obtain ⟨hcrest, hndrest⟩ := List.nodup_cons.mp hnd
    have hcS : c ∉ S := hLS c (List.mem_cons_self c rest)
    have hcG : c ∈ sixCombos := hLG c (List.mem_cons_self c rest)
    have hSprops : ∀ x ∈ S, GoodCombo x ∧ RepFits x ∧ ClashFree x c ∧ ClashFree c x ∧
        x ≠ c := by
      intro x hx
      have hxG := hSG x hx
      exact ⟨sixCombos_good x hxG, sixCombos_repFits x hxG, sixCombos_clash x hxG c hcG,
        sixCombos_clash c hcG x hxG, fun he => hcS (he ▸ hx)⟩
    obtain ⟨k1, k2, k3⟩ := patchKey_cleans (sixCombos_good c hcG) (sixCombos_repFits c hcG)
      (sixCombos_key4 c hcG) (sixCombos_clash c hcG c hcG) hSprops hinvS
    have hinvS' : ∀ x ∈ c :: S, ∀ q, occursAt (patchKey c.enc c.key c.rep b).1 x.key q →
        CleanLoc x (patchKey c.enc c.key c.rep b).1 q := by
      intro x hx q hq
      rcases List.mem_cons.mp hx with he | hxS
      · rw [he] at hq ⊢
        exact k2 q hq
      · exact k1 x hxS q hq
    obtain ⟨t1, t2⟩ := ih (c :: S) (patchKey c.enc c.key c.rep b).1
      (fun x hx => hLG x (List.mem_cons_of_mem _ hx))
      (fun x hx => by
        rcases List.mem_cons.mp hx with he | hxm
        · rw [he]; exact hcG
        · exact hSG x hxm)
      (fun x hx hmem => by
        rcases List.mem_cons.mp hmem with he | hxm
        · exact hcrest (he ▸ hx)
        · exact hLS x (List.mem_cons_of_mem _ hx) hxm)
      hndrest hinvS'
    have hunfold : patchSeq (c :: rest) b =
        ((patchSeq rest (patchKey c.enc c.key c.rep b).1).1,
         (patchKey c.enc c.key c.rep b).2 ||
           (patchSeq rest (patchKey c.enc c.key c.rep b).1).2) := rfl
    rw [hunfold]
    refine ⟨?_, by rw [t2, k3]⟩
    intro x hx q hq
    apply t1 x ?_ q hq
    simp only [List.mem_append, List.mem_cons] at hx ⊢
    tauto

/-- **C9**: `patchQtCoreDllPrefixInfixPE` is idempotent: a second invocation
on the result of a first one finds no byte to change for any of the six
key/encoding combinations, returns `false`, and leaves the file
byte-identical. -/
theorem patchPE_idempotent (buf : List Nat) :
    patchQtCoreDllPrefixInfixPE (patchQtCoreDllPrefixInfixPE buf).1 =
      ((patchQtCoreDllPrefixInfixPE buf).1, false) := by
  by_cases hemp : buf.isEmpty = true
  · have h1 : patchQtCoreDllPrefixInfixPE buf = (buf, false) := by
      unfold patchQtCoreDllPrefixInfixPE
      rw [if_pos hemp]
    rw [h1]
    show patchQtCoreDllPrefixInfixPE buf = (buf, false)
    exact h1
  · have hru : patchQtCoreDllPrefixInfixPE buf = patchSeq sixCombos buf := by
      unfold patchQtCoreDllPrefixInfixPE
      rw [if_neg hemp]
    rw [hru]
    apply patch_noop
    intro c hc q hq
    have h := (patchSeq_cleans sixCombos [] buf (fun x hx => hx)
      (fun x hx => absurd hx (List.not_mem_nil x)) (fun x _ => List.not_mem_nil x)
      sixCombos_nodup (fun x hx => absurd hx (List.not_mem_nil x))).1
    exact h c (by simpa using hc) q hq

end Cdqt
